import Mathlib

/-!
Verification of the `atomize` serializer (src/atomize.mjs, second revision:
`atomizer`, default builders, `rebuilder`, `serialize`, `deserializer`).

JavaScript values are modelled by an explicit heap: composites (arrays,
objects, maps, sets, custom-encoded instances) are heap nodes addressed by
ids, primitives are inline.  JS 32-bit integer operators (`|`, `&`, `<<`,
`>>`, `>>>`, `~`) are modelled over `Int` with explicit conversion through
`toInt32` / `toUint32`.
-/

namespace Atomize

/-! ### JS 32-bit integer arithmetic -/

/-- JS `ToUint32`: reduce an integer into `[0, 2^32)`. -/
def toUint32 (n : Int) : Int := n % 4294967296

/-- JS `ToInt32`: reduce an integer into `[-2^31, 2^31)`. -/
def toInt32 (n : Int) : Int :=
  let m := toUint32 n
  if m < 2147483648 then m else m - 4294967296

/-- Bitwise AND of the low `fuel` bits of two naturals (bit at a time). -/
def landN (fuel a b : Nat) : Nat :=
  match fuel with
  | 0 => 0
  | f + 1 => a % 2 * (b % 2) + 2 * landN f (a / 2) (b / 2)

/-- Bitwise OR of the low `fuel` bits of two naturals (bit at a time). -/
def lorN (fuel a b : Nat) : Nat :=
  match fuel with
  | 0 => 0
  | f + 1 => max (a % 2) (b % 2) + 2 * lorN f (a / 2) (b / 2)

/-- JS `a << b` (left shift on int32, shift count mod 32). -/
def jsShl (a b : Int) : Int :=
  toInt32 (toUint32 a * 2 ^ ((toUint32 b).toNat % 32))

/-- JS `a >> b` (arithmetic right shift on int32, i.e. floor division of the
signed value by the power of two). -/
def jsShr (a b : Int) : Int :=
  let m := toInt32 a
  let d : Int := 2 ^ ((toUint32 b).toNat % 32)
  if m ≥ 0 then m / d else -((-m + d - 1) / d)

/-- JS `a >>> b` (logical right shift, result read as unsigned). -/
def jsShrU (a b : Int) : Int :=
  toUint32 a / 2 ^ ((toUint32 b).toNat % 32)

/-- JS `a & b` on int32 (32 bits suffice after `ToUint32`). -/
def jsAnd (a b : Int) : Int :=
  toInt32 (Int.ofNat (landN 32 (toUint32 a).toNat (toUint32 b).toNat))

/-- JS `a | b` on int32. -/
def jsOr (a b : Int) : Int :=
  toInt32 (Int.ofNat (lorN 32 (toUint32 a).toNat (toUint32 b).toNat))

/-- JS `~a` on int32. -/
def jsNot (a : Int) : Int := toInt32 (-(toInt32 a + 1))

/-! ### The value model

A JS number is either a value `n` with `n === (n | 0)` (an int32), some other
finite double (kept abstract as its 64-bit IEEE-754 pattern; by construction
these constructors are only used for numbers that are *not* int32 values), or
`NaN`.  This partition is exactly the one the source code tests with
`num === (num | 0)` and `num !== num`. -/

inductive JSNumber where
  | i32 (n : Int)
  | f64 (bits : Nat)
  | nan
deriving DecidableEq, Repr

/-- The test `num === (num | 0)`: true exactly on the int32 constructor. -/
def JSNumber.isInt : JSNumber → Bool
  | .i32 _ => true
  | _ => false

/-- The test `num !== num` (true only of NaN). -/
def JSNumber.isNaN : JSNumber → Bool
  | .nan => true
  | _ => false

/-- A JS primitive value. -/
inductive Prim where
  | undef
  | pnull
  | pbool (b : Bool)
  | pnum (n : JSNumber)
  | pstr (s : String)
deriving DecidableEq, Repr

/-- A JS value: a primitive, or a reference to a heap node. -/
inductive JSVal where
  | prim (p : Prim)
  | ref (id : Nat)
deriving DecidableEq, Repr

/-- A heap node: a composite container.  `hcustom` marks values handled by a
user-supplied custom builder (wrapped by `customEncoder`). -/
inductive HNode where
  | harr (elems : List JSVal)
  | hobj (fields : List (String × JSVal))
  | hmap (entries : List (JSVal × JSVal))
  | hset (elems : List JSVal)
  | hcustom (children : List JSVal)
deriving DecidableEq, Repr

/-- The input heap: node `id` is `H.get? id`. -/
abbrev Heap := List HNode

/-! ### Reference-table keys

`refs` is a JS `Map`; its keys compare by SameValueZero: primitives by value
(with `NaN` equal to itself), objects by identity (heap id).  `kRAW` models
the private `RAW` sentinel object used as the idle `activeVal`. -/

inductive RKey where
  | kref (id : Nat)
  | kstr (s : String)
  | knum (n : JSNumber)
  | kbool (b : Bool)
  | knull
  | kundef
  | kRAW
deriving DecidableEq, Repr

/-- The `Map` key of a JS value. -/
def keyOf : JSVal → RKey
  | .ref id => .kref id
  | .prim (.pstr s) => .kstr s
  | .prim (.pnum n) => .knum n
  | .prim (.pbool b) => .kbool b
  | .prim .undef => .kundef
  | .prim .pnull => .knull

/-- JS `map.get k` on an association list. -/
def refsGet (refs : List (RKey × Int)) (k : RKey) : Option Int :=
  match refs.find? (fun e => e.1 = k) with
  | some e => some e.2
  | none => none

/-- JS `map.set k v`: replace in place if present, else append. -/
def refsSet (refs : List (RKey × Int)) (k : RKey) (v : Int) : List (RKey × Int) :=
  match refs with
  | [] => [(k, v)]
  | e :: rest => if e.1 = k then (k, v) :: rest else e :: refsSet rest k v

/-- JS `map.delete k`: remove the (first) binding of `k`. -/
def refsErase (refs : List (RKey × Int)) (k : RKey) : List (RKey × Int) :=
  match refs with
  | [] => []
  | e :: rest => if e.1 = k then rest else e :: refsErase rest k

/-! ### Atom cells

The atom stream is a JS array of raw values.  The rebuilder distinguishes the
cells by `type !== (type | 0)`: int32-valued number cells are control cells
(headers, back-references, the `AsIs` marker, and inline int32 scalars one
cell after an `AsIs` marker); all other values stand for themselves. -/

inductive Cell where
  | cint (n : Int)
  | cf64 (bits : Nat)
  | cnan
  | cstr (s : String)
  | cbool (b : Bool)
  | cnull
  | cundef
deriving DecidableEq, Repr

/-- The number cell of a `JSNumber`. -/
def cellOfNum : JSNumber → Cell
  | .i32 n => .cint n
  | .f64 bits => .cf64 bits
  | .nan => .cnan

/-- JS coercion of a cell used at `(jump << ATOM_BITS) | output[i]`; only ever
applied to the int32 kind cell a `PUSH_JUMP` reserved. -/
def cellToInt (c : Cell) : Int :=
  match c with
  | .cint n => n
  | _ => 0

/-! ### Atomizer -/

/-- `AtomType` of the second revision: `AsIs 0, Array 1, Object 2, Map 3,
Set 4, Custom 5`; `ATOM_BITS = 3`. -/
def AtomType.AsIs : Int := 0
def AtomType.Array : Int := 1
def AtomType.Object : Int := 2
def AtomType.Map : Int := 3
def AtomType.Set : Int := 4
def AtomType.Custom : Int := 5

/-- Encoder state: the atom buffer, the reference table, the jump stack (top
at the head), the atom-index counter, and the active frame. -/
structure AtSt where
  output : List Cell
  refs : List (RKey × Int)
  jumps : List Nat
  atomIndex : Int
  activeIndex : Int
  activeVal : RKey
deriving DecidableEq, Repr

/-- The initial encoder state. -/
def initSt : AtSt :=
  { output := [], refs := [], jumps := [], atomIndex := 0, activeIndex := 0,
    activeVal := .kRAW }

/-- Encode-time failures;  `outOfFuel` is an artifact of the embedding (the
source recursion is unbounded). -/
inductive JsError where
  | infiniteLoop
  | encodedIntoNothing
  | valueTooLarge
  | incompleteData
  | excessContent
  | badByte (b : Nat)
  | rebuilderTodo
  | customUnsupported
  | impossible
  | outOfFuel
deriving DecidableEq, Repr

/-- One call a builder makes into `write(val, secret)`: the five privileged
operations plus the default child-write path. -/
inductive WCmd where
  | raw (c : Cell)
  | asIs (n : JSNumber)
  | pushJump (kind : Int)
  | popJump
  | allowSelf
  | child (v : JSVal)
deriving DecidableEq, Repr

/-- Behavior of the user part of a custom builder (wrapped by
`customEncoder`): whether it calls `write(ALLOW_SELF_REFERENCE)` before its
children, and its returned cacheability. -/
structure CustomCfg where
  allowSelf : Bool
  cacheable : Bool
deriving DecidableEq, Repr

/-- `encodeNumber`: int32s are written `AS_IS` and are cacheable; other
numbers are written raw and are cacheable iff `num === num`. -/
def encodeNumber (n : JSNumber) : List WCmd × Bool :=
  if n.isInt then ([.asIs n], true) else ([.raw (cellOfNum n)], !n.isNaN)

/-- `encodeArray`. -/
def encodeArray (elems : List JSVal) : List WCmd × Bool :=
  ([.allowSelf, .pushJump AtomType.Array] ++ elems.map .child ++ [.popJump], true)

/-- `encodeObject`: keys (insertion order), `POP_JUMP`, then values. -/
def encodeObject (fields : List (String × JSVal)) : List WCmd × Bool :=
  ([.allowSelf, .pushJump AtomType.Object]
    ++ fields.map (fun f => WCmd.child (.prim (.pstr f.1))) ++ [.popJump]
    ++ fields.map (fun f => WCmd.child f.2), true)

/-- `encodeMap`: keys (insertion order), `POP_JUMP`, then values. -/
def encodeMap (entries : List (JSVal × JSVal)) : List WCmd × Bool :=
  ([.allowSelf, .pushJump AtomType.Map]
    ++ entries.map (fun e => WCmd.child e.1) ++ [.popJump]
    ++ entries.map (fun e => WCmd.child e.2), true)

/-- `encodeSet`. -/
def encodeSet (elems : List JSVal) : List WCmd × Bool :=
  ([.allowSelf, .pushJump AtomType.Set] ++ elems.map .child ++ [.popJump], true)

/-- `customEncoder`: wraps the user emissions in
`write(AtomType.Custom, PUSH_JUMP)` / `write(val, POP_JUMP)` and passes the
user cacheability through. -/
def customEncoder (cfg : CustomCfg) (children : List JSVal) : List WCmd × Bool :=
  ([.pushJump AtomType.Custom]
    ++ (if cfg.allowSelf then [WCmd.allowSelf] else [])
    ++ children.map .child ++ [.popJump], cfg.cacheable)

/-- The builder dispatch of `atomizeValue`: which builder runs for a value,
and the write calls it makes (default builders; `hcustom` nodes use the
`customEncoder`-wrapped user builder described by `cfg`). -/
def plan (cfg : CustomCfg) (H : Heap) (v : JSVal) : List WCmd × Bool :=
  match v with
  | .prim .undef => ([.raw .cundef], false)
  | .prim .pnull => ([.raw .cnull], false)
  | .prim (.pbool b) => ([.raw (.cbool b)], false)
  | .prim (.pnum n) => encodeNumber n
  | .prim (.pstr s) => ([.raw (.cstr s)], true)
  | .ref id =>
    match H.getD id (.harr []) with
    | .harr elems => encodeArray elems
    | .hobj fields => encodeObject fields
    | .hmap entries => encodeMap entries
    | .hset elems => encodeSet elems
    | .hcustom children => customEncoder cfg children

/-- The `write` function of the source, one branch per secret / sentinel.
The source's `write` closes over `atomizeValue` mutually; here the recursive
entry is passed as the `recurse` parameter. -/
def write (recurse : JSVal → AtSt → Except JsError AtSt) (c : WCmd)
    (st : AtSt) : Except JsError AtSt :=
  match c with
  | .raw cell => .ok { st with output := st.output ++ [cell] }
  | .asIs n =>
    -- write(val, AS_IS): mark int32 values with an AsIs cell
    if n.isInt then
      .ok { st with output := st.output ++ [.cint AtomType.AsIs, cellOfNum n] }
    else
      .ok { st with output := st.output ++ [cellOfNum n] }
  | .pushJump kind =>
    .ok { st with jumps := st.output.length :: st.jumps,
                  output := st.output ++ [.cint kind] }
  | .popJump =>
    match st.jumps with
    | [] => .error .impossible
    | i :: restJumps =>
      let jump : Int := Int.ofNat st.output.length
      let low := cellToInt (st.output.getD i (.cint 0))
      let combined := jsOr (jsShl jump 3) low
      if jsShr combined 3 ≠ jump then .error .valueTooLarge
      else .ok { st with jumps := restJumps,
                         output := st.output.set i (.cint combined) }
  | .allowSelf =>
    if st.activeVal ≠ .kRAW then
      let ai := if st.activeIndex ≥ 0 then jsNot st.activeIndex else st.activeIndex
      .ok { st with activeIndex := ai,
                    refs := refsSet st.refs st.activeVal ai,
                    activeVal := .kRAW }
    else .ok st
  | .child v =>
    let st1 :=
      if st.activeIndex ≥ 0 then
        { st with activeIndex := jsNot st.activeIndex,
                  refs := refsSet st.refs st.activeVal 0 }
      else st
    let st2 := { st1 with atomIndex := st1.atomIndex + 1 }
    match refsGet st2.refs (keyOf v) with
    | some known =>
      if known = 0 then .error .infiniteLoop
      else .ok { st2 with output := st2.output ++ [.cint known] }
    | none => recurse v st2

/-- Run the builder's sequence of `write` calls. -/
def runCmds (w : WCmd → AtSt → Except JsError AtSt) (cs : List WCmd)
    (st : AtSt) : Except JsError AtSt :=
  match cs with
  | [] => .ok st
  | c :: rest =>
    match w c st with
    | .error e => .error e
    | .ok st2 => runCmds w rest st2

/-- `atomizeValue` of the source: open a frame, run the builder, register the
value if cacheable, fail if nothing was emitted, restore the frame.  The
`fuel` argument (consumed once per nesting level) makes the recursion
structural; any fuel larger than the input's nesting depth gives the source
behavior. -/
def atomizeValue (cfg : CustomCfg) (H : Heap) (fuel : Nat) (v : JSVal)
    (st : AtSt) : Except JsError AtSt :=
  match fuel with
  | 0 => .error .outOfFuel
  | fuel + 1 =>
    let pl := plan cfg H v
    let prevVal := st.activeVal
    let prevIndex := st.activeIndex
    let prevLength := st.output.length
    let st1 := { st with activeVal := keyOf v, activeIndex := st.atomIndex }
    match runCmds (write (atomizeValue cfg H fuel)) pl.1 st1 with
    | .error e => .error e
    | .ok st2 =>
      let st3 :=
        if pl.2 then
          if st2.activeIndex ≥ 0 then
            { st2 with refs := refsSet st2.refs (keyOf v) (jsNot st2.activeIndex) }
          else st2
        else
          if st2.activeIndex < 0 then
            { st2 with refs := refsErase st2.refs (keyOf v) }
          else st2
      if st3.output.length = prevLength then .error .encodedIntoNothing
      else .ok { st3 with activeVal := prevVal, activeIndex := prevIndex }

/-- `atomizer(builders)(full)`: atomize a full value, returning the atom
buffer. -/
def atomize (cfg : CustomCfg) (H : Heap) (fuel : Nat) (full : JSVal) :
    Except JsError (List Cell) :=
  match atomizeValue cfg H fuel full initSt with
  | .error e => .error e
  | .ok st => .ok st.output

/-- The default configuration: claims about the default builders use heaps
without `hcustom` nodes, so `cfg` is irrelevant; this is a fixed choice. -/
def defaultCfg : CustomCfg := { allowSelf := false, cacheable := false }

/-- Atomize with default builders only. -/
def atomizeDefault (H : Heap) (fuel : Nat) (full : JSVal) :
    Except JsError (List Cell) :=
  atomize defaultCfg H fuel full

/-! ### Rebuilding

Decoded JS objects are modelled as ids into a decode heap.  The source
allocates an empty container, caches it, and populates it in place; since no
default decode path observes a container before its population completes,
the in-place population is modelled by logging the id's final contents once
complete (`defs` is append-only, ids come from the `nextId` counter). -/

/-- A decoded value: a primitive or a reference to a decoded node. -/
inductive DVal where
  | prim (p : Prim)
  | dref (id : Nat)
deriving DecidableEq, Repr

/-- A decoded container. -/
inductive DNode where
  | darr (elems : List DVal)
  | dobj (fields : List (String × DVal))
  | dmap (entries : List (DVal × DVal))
  | dset (elems : List DVal)
deriving DecidableEq, Repr

/-- The decoded value standing for a plain (non-control) cell. -/
def dvalOfCell : Cell → DVal
  | .cint n => .prim (.pnum (.i32 n))
  | .cf64 bits => .prim (.pnum (.f64 bits))
  | .cnan => .prim (.pnum .nan)
  | .cstr s => .prim (.pstr s)
  | .cbool b => .prim (.pbool b)
  | .cundef => .prim .undef
  | .cnull => .prim .pnull

/-- JS `ToString` for the values that can appear as object keys.  Default
builder streams only put strings here; the other branches are inert
approximations of JS number/object formatting. -/
def jsPropKey : DVal → String
  | .prim (.pstr s) => s
  | .prim (.pnum (.i32 n)) => toString n
  | .prim (.pnum (.f64 _)) => "[float]"
  | .prim (.pnum .nan) => "NaN"
  | .prim (.pbool b) => cond b "true" "false"
  | .prim .pnull => "null"
  | .prim .undef => "undefined"
  | .dref _ => "[object]"

/-- JS `object[k] = v`: update in place if the key exists, else append. -/
def objSet (fields : List (String × DVal)) (k : String) (v : DVal) :
    List (String × DVal) :=
  match fields with
  | [] => [(k, v)]
  | e :: rest => if e.1 = k then (k, v) :: rest else e :: objSet rest k v

/-- JS `map.set k v` (SameValueZero keys): update in place, else append. -/
def mapSet (entries : List (DVal × DVal)) (k v : DVal) :
    List (DVal × DVal) :=
  match entries with
  | [] => [(k, v)]
  | e :: rest => if e.1 = k then (k, v) :: rest else e :: mapSet rest k v

/-- JS `set.add v` (SameValueZero): keep the first occurrence. -/
def setAdd (elems : List DVal) (v : DVal) : List DVal :=
  if elems.contains v then elems else elems ++ [v]

/-- What `readNext` yields: the positional `POP_JUMP` sentinel or a cell. -/
inductive RRes where
  | pop
  | cell (c : Cell)
deriving DecidableEq, Repr

/-- A reader: the common interface of the rebuilder's cell reader and the
deserializer's byte reader.  The argument is the `until` bound (absent when
`readNext()` is called with no argument). -/
def ReadFn (σ : Type) := Option Int → σ → Except JsError (RRes × σ)

/-- Decode state over a reader state `σ`. -/
structure RbSt (σ : Type) where
  rd : σ
  cache : List DVal
  defs : List (Nat × DNode)
  nextId : Nat
deriving Repr

/-- The caching step shared by `nextValue` and `rebuildUntil`: a `RAW`
result was already cached by `rebuildValue` at the entry index; any other
result is pushed now. -/
def pushWrap {σ : Type} (index : Nat) (res : Option DVal) (st : RbSt σ) :
    DVal × RbSt σ :=
  match res with
  | none => (st.cache.getD index (.prim .undef), st)
  | some dv => (dv, { st with cache := st.cache ++ [dv] })

/-- `nextValue` of the source, over an abstract one-cell decoder `rv`. -/
def nextValueF {σ : Type} (r : ReadFn σ)
    (rv : Cell → RbSt σ → Except JsError (Option DVal × RbSt σ))
    (st : RbSt σ) : Except JsError (DVal × RbSt σ) :=
  let index := st.cache.length
  match r none st.rd with
  | .error e => .error e
  | .ok (.pop, _) => .error .impossible
  | .ok (.cell ty, rd2) =>
    match rv ty { st with rd := rd2 } with
    | .error e => .error e
    | .ok (res, st2) => .ok (pushWrap index res st2)

/-- `rebuildUntil` of the source: read values until the cursor reaches
`until`, collecting `results`; `fuel` bounds the number of loop
iterations. -/
def rebuildUntilF {σ : Type} (r : ReadFn σ)
    (rv : Cell → RbSt σ → Except JsError (Option DVal × RbSt σ))
    (fuel : Nat) (untilIx : Int) (st : RbSt σ) :
    Except JsError (List DVal × RbSt σ) :=
  match fuel with
  | 0 => .error .outOfFuel
  | fuel + 1 =>
    match r (some untilIx) st.rd with
    | .error e => .error e
    | .ok (.pop, rd2) => .ok ([], { st with rd := rd2 })
    | .ok (.cell ty, rd2) =>
      let index := st.cache.length
      match rv ty { st with rd := rd2 } with
      | .error e => .error e
      | .ok (res, st2) =>
        let vst := pushWrap index res st2
        match rebuildUntilF r rv fuel untilIx vst.2 with
        | .error e => .error e
        | .ok (results, st4) => .ok (vst.1 :: results, st4)

/-- The population loops of Object/Map: read `count` values with
`nextValue`. -/
def readValuesF {σ : Type} (r : ReadFn σ)
    (rv : Cell → RbSt σ → Except JsError (Option DVal × RbSt σ))
    (count : Nat) (st : RbSt σ) : Except JsError (List DVal × RbSt σ) :=
  match count with
  | 0 => .ok ([], st)
  | count + 1 =>
    match nextValueF r rv st with
    | .error e => .error e
    | .ok (v, st2) =>
      match readValuesF r rv count st2 with
      | .error e => .error e
      | .ok (vs, st3) => .ok (v :: vs, st3)

/-- `rebuildValue` of the source.  Returns `none` for the `RAW` sentinel
(the value was cached at the entry index), `some dv` otherwise.  `fuel` is
consumed once per nesting level and bounds the loop lengths. -/
def rebuildValue {σ : Type} (r : ReadFn σ) (fuel : Nat) (ty : Cell)
    (st : RbSt σ) : Except JsError (Option DVal × RbSt σ) :=
  match fuel with
  | 0 => .error .outOfFuel
  | fuel + 1 =>
    match ty with
    | .cint n =>
      if n < 0 then
        -- back-reference: cache[~type] (an out-of-range JS index reads undefined)
        .ok (some (st.cache.getD (jsNot n).toNat (.prim .undef)), st)
      else
        if jsAnd n 7 = AtomType.AsIs then
          match r none st.rd with
          | .error e => .error e
          | .ok (.pop, _) => .error .impossible
          | .ok (.cell c, rd2) => .ok (some (dvalOfCell c), { st with rd := rd2 })
        else if jsAnd n 7 = AtomType.Array then
          let id := st.nextId
          let st1 := { st with nextId := id + 1, cache := st.cache ++ [.dref id] }
          match rebuildUntilF r (rebuildValue r fuel) fuel (jsShr n 3) st1 with
          | .error e => .error e
          | .ok (elems, st2) =>
            .ok (none, { st2 with defs := st2.defs ++ [(id, .darr elems)] })
        else if jsAnd n 7 = AtomType.Object then
          let id := st.nextId
          let st1 := { st with nextId := id + 1, cache := st.cache ++ [.dref id] }
          match rebuildUntilF r (rebuildValue r fuel) fuel (jsShr n 3) st1 with
          | .error e => .error e
          | .ok (keys, st2) =>
            match readValuesF r (rebuildValue r fuel) keys.length st2 with
            | .error e => .error e
            | .ok (vals, st3) =>
              let fields := (keys.zip vals).foldl
                (fun acc kv => objSet acc (jsPropKey kv.1) kv.2) []
              .ok (none, { st3 with defs := st3.defs ++ [(id, .dobj fields)] })
        else if jsAnd n 7 = AtomType.Map then
          let id := st.nextId
          let st1 := { st with nextId := id + 1, cache := st.cache ++ [.dref id] }
          match rebuildUntilF r (rebuildValue r fuel) fuel (jsShr n 3) st1 with
          | .error e => .error e
          | .ok (keys, st2) =>
            match readValuesF r (rebuildValue r fuel) keys.length st2 with
            | .error e => .error e
            | .ok (vals, st3) =>
              let entries := (keys.zip vals).foldl
                (fun acc kv => mapSet acc kv.1 kv.2) []
              .ok (none, { st3 with defs := st3.defs ++ [(id, .dmap entries)] })
        else if jsAnd n 7 = AtomType.Set then
          let id := st.nextId
          let st1 := { st with nextId := id + 1, cache := st.cache ++ [.dref id] }
          match rebuildUntilF r (rebuildValue r fuel) fuel (jsShr n 3) st1 with
          | .error e => .error e
          | .ok (values, st2) =>
            let elems := values.foldl setAdd []
            .ok (none, { st2 with defs := st2.defs ++ [(id, .dset elems)] })
        else if jsAnd n 7 = AtomType.Custom then
          -- the user-supplied custom decoder is not modelled: the verified
          -- claims only decode default-builder streams, which never contain
          -- Custom headers
          .error .customUnsupported
        else
          .error .rebuilderTodo
    | c => .ok (some (dvalOfCell c), st)

/-- `nextValue` at a given fuel. -/
def nextValue {σ : Type} (r : ReadFn σ) (fuel : Nat) (st : RbSt σ) :
    Except JsError (DVal × RbSt σ) :=
  nextValueF r (rebuildValue r fuel) st

/-! ### The rebuilder's cell reader -/

/-- Reader state over an atom stream. -/
structure CellRd where
  full : List Cell
  nextIndex : Nat
deriving DecidableEq, Repr

/-- The rebuilder's `readNext`. -/
def cellReadNext : ReadFn CellRd := fun untilIx rd =>
  if untilIx = some (Int.ofNat rd.nextIndex) then .ok (.pop, rd)
  else if rd.nextIndex = rd.full.length then .error .incompleteData
  else .ok (.cell (rd.full.getD rd.nextIndex .cundef),
            { rd with nextIndex := rd.nextIndex + 1 })

/-- `rebuilder(custom)(full)`: decode an atom stream; fails with
excess-content if cells remain after the top value. -/
def rebuild (fuel : Nat) (full : List Cell) :
    Except JsError (DVal × RbSt CellRd) :=
  let st0 : RbSt CellRd :=
    { rd := { full := full, nextIndex := 0 }, cache := [], defs := [],
      nextId := 0 }
  match nextValue cellReadNext fuel st0 with
  | .error e => .error e
  | .ok (result, st) =>
    if st.rd.nextIndex ≠ full.length then .error .excessContent
    else .ok (result, st)

/-! ### Binary serialization

`TextEncoder` / `TextDecoder` (UTF-8) are modelled by an explicit codec over
`Char` scalar values. -/

/-- UTF-8 bytes of one character (what `TextEncoder` emits). -/
def utf8Char (c : Char) : List Nat :=
  let n := c.toNat
  if n < 128 then [n]
  else if n < 2048 then [192 + n / 64, 128 + n % 64]
  else if n < 65536 then [224 + n / 4096, 128 + n / 64 % 64, 128 + n % 64]
  else [240 + n / 262144, 128 + n / 4096 % 64, 128 + n / 64 % 64, 128 + n % 64]

/-- UTF-8 encoding of a string. -/
def utf8Bytes (s : String) : List Nat := (s.data.map utf8Char).flatten

/-- UTF-8 decoding (what `TextDecoder` does).  On byte sequences that are not
valid UTF-8 — which never come out of the serializer — this is an inert
approximation of the replacement-character behavior. -/
def utf8DecodeAux (fuel : Nat) (bs : List Nat) : List Char :=
  match fuel with
  | 0 => []
  | fuel + 1 =>
    match bs with
    | [] => []
    | b0 :: rest0 =>
      if b0 < 128 then Char.ofNat b0 :: utf8DecodeAux fuel rest0
      else if 192 ≤ b0 ∧ b0 < 224 then
        match rest0 with
        | b1 :: rest1 =>
          if 128 ≤ b1 ∧ b1 < 192 then
            Char.ofNat ((b0 - 192) * 64 + (b1 - 128)) :: utf8DecodeAux fuel rest1
          else Char.ofNat 65533 :: utf8DecodeAux fuel rest0
        | [] => [Char.ofNat 65533]
      else if 224 ≤ b0 ∧ b0 < 240 then
        match rest0 with
        | b1 :: b2 :: rest2 =>
          if (128 ≤ b1 ∧ b1 < 192) ∧ (128 ≤ b2 ∧ b2 < 192) then
            Char.ofNat ((b0 - 224) * 4096 + (b1 - 128) * 64 + (b2 - 128)) ::
              utf8DecodeAux fuel rest2
          else Char.ofNat 65533 :: utf8DecodeAux fuel rest0
        | _ => [Char.ofNat 65533]
      else if 240 ≤ b0 ∧ b0 < 248 then
        match rest0 with
        | b1 :: b2 :: b3 :: rest3 =>
          if (128 ≤ b1 ∧ b1 < 192) ∧ (128 ≤ b2 ∧ b2 < 192) ∧
              (128 ≤ b3 ∧ b3 < 192) then
            Char.ofNat ((b0 - 240) * 262144 + (b1 - 128) * 4096 +
              (b2 - 128) * 64 + (b3 - 128)) :: utf8DecodeAux fuel rest3
          else Char.ofNat 65533 :: utf8DecodeAux fuel rest0
        | _ => [Char.ofNat 65533]
      else Char.ofNat 65533 :: utf8DecodeAux fuel rest0

/-- Decode a UTF-8 byte list to a string. -/
def utf8Decode (bs : List Nat) : String := String.mk (utf8DecodeAux (bs.length + 1) bs)

/-- `SerialType` of the second revision (`ComplexAtom 1`, `BackReference 2`,
`Int 4`, `String 13`, `Void 16`, `Null 32`, `True 48`, `False 64`, `NaN 80`,
`Float64 96`). -/
def STComplexAtom : Int := 1
def STBackReference : Int := 2
def STInt : Int := 4
def STString : Int := 13
def STVoid : Int := 16
def STNull : Int := 32
def STTrue : Int := 48
def STFalse : Int := 64
def STNaN : Int := 80
def STFloat64 : Int := 96

/-- The `do { bits = remaining & 0x7f; remaining >>>= 7; push } while
(remaining)` loop, after `remaining` has been brought into `[0, 2^32)`.  The
loop runs at most five times on a uint32, so fuel `6` realizes it. -/
def posIntBytes (fuel : Nat) (n : Nat) : List Nat :=
  match fuel with
  | 0 => []
  | fuel + 1 =>
    let bits := n % 128
    let rest := n / 128
    if rest = 0 then [bits] else (bits + 128) :: posIntBytes fuel rest

/-- `serializePosInt`: varint bytes of an int (taken through `>>> 0`). -/
def serializePosInt (int : Int) : List Nat := posIntBytes 6 (toUint32 int).toNat

/-- Big-endian bytes of a 64-bit pattern (what `DataView.setFloat64`
stores). -/
def f64Bytes (bits : Nat) : List Nat :=
  [bits / 2 ^ 56 % 256, bits / 2 ^ 48 % 256, bits / 2 ^ 40 % 256,
   bits / 2 ^ 32 % 256, bits / 2 ^ 24 % 256, bits / 2 ^ 16 % 256,
   bits / 2 ^ 8 % 256, bits % 256]

/-- An entry of the serializer's `iolist`: a single byte or a byte array. -/
inductive Chunk where
  | byte (b : Nat)
  | blob (bs : List Nat)
deriving DecidableEq, Repr

/-- Byte size a chunk contributes. -/
def Chunk.size : Chunk → Nat
  | .byte _ => 1
  | .blob bs => bs.length

/-- Serializer state. -/
structure SerSt where
  iolist : List Chunk
  byteLength : Nat
  nextIndex : Nat
deriving Repr

/-- `pushByte` of the source. -/
def pushByte (b : Nat) (st : SerSt) : SerSt :=
  { st with byteLength := st.byteLength + 1, iolist := st.iolist ++ [Chunk.byte b] }

/-- The closure returned by `pushJump(type)`, applied at pop time: fill the
reserved slot with the varint of `byteLength - start` packed over the low
tag bits. -/
def serPopJump (tyTag : Int) (index : Nat) (start : Nat) (st : SerSt) : SerSt :=
  let remaining : Int := Int.ofNat st.byteLength - Int.ofNat start
  let bits := jsOr (jsAnd (jsShl remaining 4) 127) tyTag
  let rest := jsShrU remaining 3
  if rest = 0 then
    { st with byteLength := st.byteLength + 1,
              iolist := st.iolist.set index (Chunk.byte bits.toNat) }
  else
    let bytes := (bits.toNat + 128) :: posIntBytes 6 rest.toNat
    { st with byteLength := st.byteLength + bytes.length,
              iolist := st.iolist.set index (Chunk.blob bytes) }

/-- The inline-int32 emission of `serializeNext` (sign-twiddled varint
tagged with `STInt`). -/
def serInt (val : Int) (st : SerSt) : SerSt :=
  let twiddled := if val ≥ 0 then jsShl val 1 else jsOr (jsShl (-val) 1) 1
  let bits := jsOr (jsAnd (jsShl twiddled 3) 127) STInt
  let rest := jsShrU twiddled 4
  if rest = 0 then pushByte bits.toNat st
  else
    let bytes := (bits.toNat + 128) :: posIntBytes 6 rest.toNat
    { st with byteLength := st.byteLength + bytes.length,
              iolist := st.iolist ++ [Chunk.blob bytes] }

/-- The scalar branch of `serializeNext` (an `AsIs` payload or a plain
cell). -/
def serScalar (val : Cell) (st : SerSt) : SerSt :=
  match val with
  | .cnan => pushByte STNaN.toNat st
  | .cundef => pushByte STVoid.toNat st
  | .cnull => pushByte STNull.toNat st
  | .cbool b =>
    pushByte (if b then STTrue.toNat else STFalse.toNat) st
  | .cint n => serInt n st
  | .cf64 bits =>
    let st1 := pushByte STFloat64.toNat st
    { st1 with byteLength := st1.byteLength + 8,
               iolist := st1.iolist ++ [Chunk.blob (f64Bytes bits)] }
  | .cstr s =>
    -- const popJump = pushJump(STString); push utf8 bytes; popJump()
    let index := st.iolist.length
    let start := st.byteLength
    let st1 := { st with iolist := st.iolist ++ [Chunk.byte 0] }
    let bytes := utf8Bytes s
    let st2 := { st1 with byteLength := st1.byteLength + bytes.length,
                          iolist := st1.iolist ++ [Chunk.blob bytes] }
    serPopJump STString index start st2

/-- The `while (nextIndex < until) serializeNext()` loops, counting the
children serialized; `sn` is the one-cell serializer, `fuel` bounds the
iterations. -/
def serChildrenF (sn : SerSt → Except JsError SerSt) (fuel : Nat)
    (untilIx : Int) (st : SerSt) : Except JsError (SerSt × Nat) :=
  match fuel with
  | 0 => .error .outOfFuel
  | fuel + 1 =>
    if Int.ofNat st.nextIndex < untilIx then
      match sn st with
      | .error e => .error e
      | .ok st2 =>
        match serChildrenF sn fuel untilIx st2 with
        | .error e => .error e
        | .ok (st3, n) => .ok (st3, n + 1)
    else .ok (st, 0)

/-- The `for (let i = numKeys; i > 0; i--) serializeNext()` loop. -/
def serValuesF (sn : SerSt → Except JsError SerSt) (count : Nat)
    (st : SerSt) : Except JsError SerSt :=
  match count with
  | 0 => .ok st
  | count + 1 =>
    match sn st with
    | .error e => .error e
    | .ok st2 => serValuesF sn count st2

/-- `serializeNext` of the source, over the atom array `atomized`; `fuel` is
consumed once per nesting level and bounds the loop lengths. -/
def serializeNext (atomized : List Cell) (fuel : Nat) (st : SerSt) :
    Except JsError SerSt :=
  match fuel with
  | 0 => .error .outOfFuel
  | fuel + 1 =>
    let ty := atomized.getD st.nextIndex .cundef
    let st := { st with nextIndex := st.nextIndex + 1 }
    -- type === AtomType.AsIs || type !== (type | 0): scalar path
    match ty with
    | .cint n =>
        if n = AtomType.AsIs then
          let v := atomized.getD st.nextIndex .cundef
          .ok (serScalar v { st with nextIndex := st.nextIndex + 1 })
        else if n < 0 then
          -- back-reference: serializePosInt((~type << 2) | BackReference)
          let bytes := serializePosInt (jsOr (jsShl (jsNot n) 2) 2)
          .ok { st with byteLength := st.byteLength + bytes.length,
                        iolist := st.iolist ++ (bytes.map Chunk.byte) }
        else
          let atomType := jsAnd n 7
          let untilIx := jsShr n 3
          let tyTag := jsOr (jsShl atomType 1) 1
          let index := st.iolist.length
          let start := st.byteLength
          let st1 := { st with iolist := st.iolist ++ [Chunk.byte 0] }
          if atomType = AtomType.Array ∨ atomType = AtomType.Set ∨
              atomType = AtomType.Custom then
            match serChildrenF (serializeNext atomized fuel) fuel untilIx st1 with
            | .error e => .error e
            | .ok (st2, _) => .ok (serPopJump tyTag index start st2)
          else if atomType = AtomType.Object ∨ atomType = AtomType.Map then
            match serChildrenF (serializeNext atomized fuel) fuel untilIx st1 with
            | .error e => .error e
            | .ok (st2, numKeys) =>
              serValuesF (serializeNext atomized fuel) numKeys
                (serPopJump tyTag index start st2)
          else .error .impossible
    | v => .ok (serScalar v st)

/-- `serialize(atomized)`: flatten the iolist to the final byte array. -/
def serialize (fuel : Nat) (atomized : List Cell) :
    Except JsError (List Nat) :=
  match serializeNext atomized fuel { iolist := [], byteLength := 0, nextIndex := 0 } with
  | .error e => .error e
  | .ok st => .ok ((st.iolist.map (fun c => match c with
      | .byte b => [b]
      | .blob bs => bs)).flatten)

/-! ### Binary deserialization -/

/-- Byte-reader state of the deserializer: the byte array, the cursor, and
the `trickInt` slot holding an inline integer already decoded together with
its `AsIs` marker. -/
structure ByteRd where
  full : List Nat
  nextIndex : Nat
  trickInt : Option Int
deriving DecidableEq, Repr

/-- The `while (byte & 0x80)` accumulation loop of `readVarInt`.  The source
loop is bounded by the input: a read past the end yields `undefined`, which
the bitwise operators coerce to `0`, stopping the loop; `fuel` is given as
`full.length + 1`, which that bound makes sufficient. -/
def readVarIntAux (full : List Nat) (fuel : Nat) (byte : Int) (int : Int)
    (bitlength : Int) (next : Nat) : Int × Nat :=
  match fuel with
  | 0 => (int, next)
  | fuel + 1 =>
    if jsAnd byte 128 ≠ 0 then
      let b2 : Int := Int.ofNat (full.getD next 0)
      readVarIntAux full fuel b2 (jsOr int (jsShl (jsAnd b2 127) bitlength))
        (bitlength + 7) (next + 1)
    else (int, next)

/-- `readVarInt(firstByte, trashBits)` of the source. -/
def readVarInt (full : List Nat) (firstByte : Int) (trashBits : Int)
    (next : Nat) : Int × Nat :=
  readVarIntAux full (full.length + 1) firstByte
    (jsShr (jsAnd firstByte 127) trashBits) (7 - trashBits) next

/-- `readNext_` of the deserializer. -/
def byteReadNext : ReadFn ByteRd := fun untilIx rd =>
  match rd.trickInt with
  | some v => .ok (.cell (.cint v), { rd with trickInt := none })
  | none =>
    if untilIx = some (Int.ofNat rd.nextIndex) then .ok (.pop, rd)
    else if rd.nextIndex = rd.full.length then .error .incompleteData
    else
      let byte : Int := Int.ofNat (rd.full.getD rd.nextIndex 0)
      let rd := { rd with nextIndex := rd.nextIndex + 1 }
      if jsAnd byte STComplexAtom ≠ 0 then
        if jsAnd byte 15 = STString then
          let lp := readVarInt rd.full byte 4 rd.nextIndex
          let endIndex := lp.2 + lp.1.toNat
          let str := utf8Decode ((rd.full.drop lp.2).take lp.1.toNat)
          .ok (.cell (.cstr str), { rd with nextIndex := endIndex })
        else
          -- a complex atom: rebuild the header word in byte coordinates
          let lp := readVarInt rd.full byte 4 rd.nextIndex
          let untilPos : Int := Int.ofNat lp.2 + lp.1
          .ok (.cell (.cint (jsOr (jsShl untilPos 3) (jsAnd (jsShr byte 1) 7))),
               { rd with nextIndex := lp.2 })
      else if jsAnd byte STBackReference ≠ 0 then
        let lp := readVarInt rd.full byte 2 rd.nextIndex
        .ok (.cell (.cint (jsNot lp.1)), { rd with nextIndex := lp.2 })
      else if jsAnd byte STInt ≠ 0 then
        let lp := readVarInt rd.full byte 3 rd.nextIndex
        let twiddled := lp.1
        let v := if jsAnd twiddled 1 ≠ 0 then -(jsShrU twiddled 1) else jsShrU twiddled 1
        .ok (.cell (.cint AtomType.AsIs),
             { rd with nextIndex := lp.2, trickInt := some v })
      else
        if byte = STVoid then .ok (.cell .cundef, rd)
        else if byte = STNull then .ok (.cell .cnull, rd)
        else if byte = STTrue then .ok (.cell (.cbool true), rd)
        else if byte = STFalse then .ok (.cell (.cbool false), rd)
        else if byte = STNaN then .ok (.cell .cnan, rd)
        else if byte = STFloat64 then
          if rd.nextIndex + 8 ≤ rd.full.length then
            let bs := (rd.full.drop rd.nextIndex).take 8
            let bits := bs.foldl (fun acc b => acc * 256 + b) 0
            .ok (.cell (.cf64 bits), { rd with nextIndex := rd.nextIndex + 8 })
          else .error .incompleteData
        else .error (.badByte byte.toNat)

/-- `deserializer(custom)(full)`.  The source's trailing-content check is
commented out, so any bytes left after the top-level value are ignored. -/
def deserialize (fuel : Nat) (full : List Nat) :
    Except JsError (DVal × RbSt ByteRd) :=
  let st0 : RbSt ByteRd :=
    { rd := { full := full, nextIndex := 0, trickInt := none }, cache := [],
      defs := [], nextId := 0 }
  nextValue byteReadNext fuel st0

/-! ### The encoder-decoder correspondence

`regId` reads off, for an input heap id, the decoded node id registered for
it: the reference table gives the complement of the atom-index, and the
decoder cache holds the decoded value at that index. -/

/-- The atom-index named by a (negative) reference-table entry (`~r`). -/
def derefIdx (r : Int) : Nat := (-(r + 1)).toNat

/-- The decoded value at the cache slot a reference-table entry names, when
it is a node reference. -/
def derefVal (C : List DVal) (r : Int) : Option Nat :=
  match C[derefIdx r]? with
  | some (.dref j) => some j
  | _ => none

/-- The decoded node id registered for input node `id`. -/
def regId (refs : List (RKey × Int)) (C : List DVal) (id : Nat) : Option Nat :=
  (refsGet refs (.kref id)).bind (derefVal C)

/-- Correspondence between an input value and a decoded value, relative to
the reference table and the decoder cache. -/
def valTrans (refs : List (RKey × Int)) (C : List DVal) (v : JSVal)
    (dv : DVal) : Prop :=
  match v with
  | .prim p => dv = .prim p
  | .ref id => ∃ j, regId refs C id = some j ∧ dv = .dref j

/-- Correspondence between an input heap node and a decoded node: pointwise
on children, preserving order. -/
def nodeTrans (refs : List (RKey × Int)) (C : List DVal) :
    HNode → DNode → Prop
  | .harr es, .darr ds => List.Forall₂ (valTrans refs C) es ds
  | .hobj fs, .dobj gs =>
    List.Forall₂ (fun f g => g.1 = f.1 ∧ valTrans refs C f.2 g.2) fs gs
  | .hmap ps, .dmap qs =>
    List.Forall₂ (fun p q => valTrans refs C p.1 q.1 ∧ valTrans refs C p.2 q.2)
      ps qs
  | .hset es, .dset ds => List.Forall₂ (valTrans refs C) es ds
  | _, _ => False

/-- What a live reference-table entry means on the decoder side: the entry
is negative, its atom-index is a live cache slot, and that slot holds the
decoded form of the key (a string, a number, or an allocated node id below
the decoder's id counter). -/
def keyCorr (C : List DVal) (m : Nat) (k : RKey) (r : Int) : Prop :=
  r < 0 ∧ -2147483648 ≤ r ∧
  ∃ dv, C[derefIdx r]? = some dv ∧
    match k with
    | .kstr s => dv = .prim (.pstr s)
    | .knum n => dv = .prim (.pnum n)
    | .kref id => ∃ j, dv = .dref j ∧ j < m
    | _ => False

/-- The simulation invariant between the encoder reference table and the
decoder state (cache `C`, node log `D`, id counter `m`); `opens` lists the
input ids of currently-open composite frames (ancestors of the current
write), which are registered but not yet logged. -/
structure Inv (H : Heap) (refs : List (RKey × Int)) (C : List DVal)
    (D : List (Nat × DNode)) (m : Nat) (opens : List Nat) : Prop where
  nodupKeys : (refs.map Prod.fst).Nodup
  corr : ∀ k r, (k, r) ∈ refs → keyCorr C m k r
  inj : ∀ id1 id2 j, regId refs C id1 = some j → regId refs C id2 = some j →
    id1 = id2
  nodupDefs : (D.map Prod.fst).Nodup
  defsLt : ∀ e, e ∈ D → e.1 < m
  defsCorr : ∀ j node, (j, node) ∈ D →
    ∃ id, regId refs C id = some j ∧
      nodeTrans refs C (H.getD id (.harr [])) node
  closedCorr : ∀ id r, (.kref id, r) ∈ refs → id ∉ opens →
    ∃ j node, regId refs C id = some j ∧ (j, node) ∈ D

/-- A heap with no custom-encoded nodes (the default-builder fragment). -/
def NoCustom (H : Heap) : Prop :=
  ∀ n, n ∈ H → match n with | .hcustom _ => False | _ => True

/-- Well-formedness mirroring what JS guarantees of real objects: object
keys are distinct, and map keys and set elements are distinct under
SameValueZero (the `keyOf` key). -/
def WFHeap (H : Heap) : Prop :=
  NoCustom H ∧
  ∀ n, n ∈ H →
    match n with
    | .hobj fs => (fs.map Prod.fst).Nodup
    | .hmap ps => (ps.map (fun p => keyOf p.1)).Nodup
    | .hset es => (es.map keyOf).Nodup
    | _ => True

/-! ### Arithmetic facts about the JS operators on in-range values -/

theorem toInt32_of_nonneg {n : Int} (h0 : 0 ≤ n) (h1 : n < 2147483648) :
    toInt32 n = n := by
  simp only [toInt32, toUint32]; split <;> omega

theorem toInt32_of_neg {n : Int} (h0 : -2147483648 ≤ n) (h1 : n < 0) :
    toInt32 n = n := by
  simp only [toInt32, toUint32]; split <;> omega

theorem jsNot_eq {n : Int} (h0 : -2147483648 ≤ n) (h1 : n < 2147483648) :
    jsNot n = -(n + 1) := by
  simp only [jsNot, toInt32, toUint32]
  split <;> split <;> omega

theorem landN_zero_right : ∀ f a, landN f a 0 = 0 := by
  intro f
  induction f with
  | zero => intro a; rfl
  | succ f ih => intro a; simp [landN, ih]

/-- Splitting off the low bit of a modulus. -/
theorem mod_two_split (x n : ℕ) : x % (2 ^ (n + 1)) = x % 2 + 2 * (x / 2 % 2 ^ n) := by
  rw [pow_succ', Nat.mod_mul]

theorem lorN_zero_right : ∀ f a, lorN f a 0 = a % 2 ^ f := by
  intro f
  induction f with
  | zero => intro a; simp [lorN, Nat.mod_one]
  | succ f ih =>
    intro a
    have key := mod_two_split a f
    simp only [lorN, ih, Nat.zero_mod, Nat.zero_div,
      Nat.max_eq_left (Nat.zero_le _)]
    omega

theorem landN_mask : ∀ f a m, landN f a (2 ^ m - 1) = a % 2 ^ min m f := by
  intro f
  induction f with
  | zero => intro a m; simp [landN, Nat.mod_one]
  | succ f ih =>
    intro a m
    match m with
    | 0 => simp [landN, landN_zero_right, Nat.mod_one]
    | m + 1 =>
      have hpos : 0 < 2 ^ m := pow_pos (by norm_num) m
      have h2 : 2 ^ (m + 1) = 2 * 2 ^ m := by rw [pow_succ']
      have hm : (2 ^ (m + 1) - 1) % 2 = 1 := by omega
      have hd : (2 ^ (m + 1) - 1) / 2 = 2 ^ m - 1 := by omega
      have hmin : min (m + 1) (f + 1) = min m f + 1 := by omega
      have key := mod_two_split a (min m f)
      simp only [landN, hm, hd, ih, hmin]
      omega

theorem landN_bit : ∀ f a j, j < f →
    landN f a (2 ^ j) = 2 ^ j * (a / 2 ^ j % 2) := by
  intro f
  induction f with
  | zero => omega
  | succ f ih =>
    intro a j hj
    match j with
    | 0 => simp [landN, landN_zero_right]
    | j + 1 =>
      have hpos : 0 < 2 ^ j := pow_pos (by norm_num) j
      have h2 : 2 ^ (j + 1) = 2 * 2 ^ j := by rw [pow_succ']
      have hm : (2 ^ (j + 1)) % 2 = 0 := by omega
      have hd : (2 ^ (j + 1)) / 2 = 2 ^ j := by omega
      have hdd : a / 2 / 2 ^ j = a / 2 ^ (j + 1) := by
        rw [Nat.div_div_eq_div_mul, h2]
      simp only [landN, hm, hd, ih (a / 2) j (by omega), hdd]
      rw [h2]; ring

theorem lorN_disj : ∀ f a k m, k < 2 ^ m → a % 2 ^ m = 0 →
    lorN f a k = a % 2 ^ f + k % 2 ^ f := by
  intro f
  induction f with
  | zero => intro a k m _ _; simp [lorN, Nat.mod_one]
  | succ f ih =>
    intro a k m hk ha
    match m with
    | 0 =>
      have : k = 0 := by omega
      subst this
      simp [lorN_zero_right]
    | m + 1 =>
      have hsplit := mod_two_split a m
      have ha2 : a % 2 = 0 := by omega
      have hmax : max (a % 2) (k % 2) = k % 2 := by omega
      have hrec : (a / 2) % 2 ^ m = 0 := by omega
      have hA := mod_two_split a f
      have hK := mod_two_split k f
      simp only [lorN, hmax, ih (a / 2) (k / 2) m (by omega) hrec]
      omega
theorem toUint32_of_nonneg {n : Int} (h0 : 0 ≤ n) (h1 : n < 4294967296) :
    toUint32 n = n := by
  simp only [toUint32]; omega

theorem jsAnd_seven {n : Int} (h0 : 0 ≤ n) (h1 : n < 4294967296) :
    jsAnd n 7 = n % 8 := by
  have h7 : (toUint32 7).toNat = 2 ^ 3 - 1 := by decide
  simp only [jsAnd, toUint32_of_nonneg h0 h1, h7, landN_mask]
  have : n.toNat % 2 ^ min 3 32 = (n % 8).toNat := by
    simp only [show min 3 32 = 3 by decide]
    omega
  rw [this, show Int.ofNat (n % 8).toNat = n % 8 by simp; omega]
  exact toInt32_of_nonneg (by omega) (by omega)

theorem jsShr_three {n : Int} (h0 : 0 ≤ n) (h1 : n < 2147483648) :
    jsShr n 3 = n / 8 := by
  simp only [jsShr, toInt32_of_nonneg h0 h1, toUint32]
  have h3 : (((3 : Int) % 4294967296).toNat % 32) = 3 := by decide
  rw [h3, if_pos h0]
  norm_num

theorem jsShl_three {n : Int} (h0 : 0 ≤ n) (h1 : n < 268435456) :
    jsShl n 3 = 8 * n := by
  simp only [jsShl, toUint32]
  have h3 : (((3 : Int) % 4294967296).toNat % 32) = 3 := by decide
  rw [h3, Int.emod_eq_of_lt h0 (by omega)]
  rw [show ((2 : Int) ^ 3) = 8 from rfl]
  rw [toInt32_of_nonneg (by omega) (by omega)]
  omega

theorem jsOr_header {L : Nat} {k : Int} (hL : L < 268435456) (hk0 : 0 ≤ k)
    (hk : k < 8) : jsOr (jsShl (Int.ofNat L) 3) k = 8 * L + k := by
  simp only [Int.ofNat_eq_coe]
  rw [jsShl_three (by omega) (by omega)]
  simp only [jsOr, toUint32]
  rw [Int.emod_eq_of_lt (by omega) (by omega),
      Int.emod_eq_of_lt (by omega) (by omega)]
  have h8 : ((8 : Int) * (L : Int)).toNat % 2 ^ 3 = 0 := by omega
  have hkk : k.toNat < 2 ^ 3 := by omega
  rw [lorN_disj 32 _ _ 3 hkk h8]
  simp only [Int.ofNat_eq_coe]
  push_cast
  rw [toInt32_of_nonneg (by omega) (by omega)]
  omega

/-- Decomposing a header word `8 * L + k`. -/
theorem header_decomp {L : Nat} {k : Int} (hL : L < 268435456) (hk0 : 0 ≤ k)
    (hk : k < 8) :
    jsAnd (8 * L + k) 7 = k ∧ jsShr (8 * L + k) 3 = L := by
  constructor
  · rw [jsAnd_seven (by omega) (by omega)]
    omega
  · rw [jsShr_three (by omega) (by omega)]
    omega
/-! ### Reference-table and fold lemmas -/

theorem refsGet_nil (k : RKey) : refsGet [] k = none := rfl

theorem refsGet_cons (e : RKey × Int) (rest : List (RKey × Int)) (k : RKey) :
    refsGet (e :: rest) k = if e.1 = k then some e.2 else refsGet rest k := by
  simp only [refsGet, List.find?]
  by_cases h : e.1 = k
  · simp [h]
  · simp [h]

theorem refsGet_append_left {l1 : List (RKey × Int)} {k : RKey} {r : Int}
    (l2 : List (RKey × Int)) (h : refsGet l1 k = some r) :
    refsGet (l1 ++ l2) k = some r := by
  induction l1 with
  | nil => simp [refsGet_nil] at h
  | cons e rest ih =>
    rw [List.cons_append, refsGet_cons]
    rw [refsGet_cons] at h
    split <;> simp_all

theorem refsGet_append_right {l1 : List (RKey × Int)} {k : RKey}
    (l2 : List (RKey × Int)) (h : refsGet l1 k = none) :
    refsGet (l1 ++ l2) k = refsGet l2 k := by
  induction l1 with
  | nil => simp
  | cons e rest ih =>
    rw [refsGet_cons] at h
    rw [List.cons_append, refsGet_cons]
    split <;> simp_all

theorem refsGet_mem {refs : List (RKey × Int)} {k : RKey} {r : Int}
    (h : refsGet refs k = some r) : (k, r) ∈ refs := by
  induction refs with
  | nil => simp [refsGet_nil] at h
  | cons e rest ih =>
    rw [refsGet_cons] at h
    split at h
    · next he => simp_all [Prod.ext_iff]
    · simp_all

theorem refsGet_eq_none_of_not_mem {refs : List (RKey × Int)} {k : RKey}
    (h : k ∉ refs.map Prod.fst) : refsGet refs k = none := by
  induction refs with
  | nil => rfl
  | cons e rest ih =>
    rw [refsGet_cons]
    simp only [List.map_cons, List.mem_cons] at h
    push_neg at h
    rw [if_neg (fun he => h.1 he.symm)]
    exact ih h.2

theorem not_mem_of_refsGet_eq_none {refs : List (RKey × Int)} {k : RKey}
    (h : refsGet refs k = none) : k ∉ refs.map Prod.fst := by
  induction refs with
  | nil => simp
  | cons e rest ih =>
    rw [refsGet_cons] at h
    split at h
    · simp_all
    · next hne =>
      simp only [List.map_cons, List.mem_cons]
      push_neg
      exact ⟨fun he => absurd he.symm hne, ih h⟩

theorem mem_refsGet {refs : List (RKey × Int)} {k : RKey} {r : Int}
    (hnd : (refs.map Prod.fst).Nodup) (h : (k, r) ∈ refs) :
    refsGet refs k = some r := by
  induction refs with
  | nil => simp at h
  | cons e rest ih =>
    rw [refsGet_cons]
    simp only [List.map_cons, List.nodup_cons] at hnd
    rcases List.mem_cons.mp h with he | hm
    · subst he; simp
    · have : e.1 ≠ k := by
        intro hk
        exact hnd.1 (hk ▸ (List.mem_map.mpr ⟨(k, r), hm, rfl⟩))
      rw [if_neg this]
      exact ih hnd.2 hm

theorem refsSet_not_mem {refs : List (RKey × Int)} {k : RKey} (v : Int)
    (h : refsGet refs k = none) : refsSet refs k v = refs ++ [(k, v)] := by
  induction refs with
  | nil => rfl
  | cons e rest ih =>
    rw [refsGet_cons] at h
    rw [refsSet]
    split at h
    · simp_all
    · next hne =>
      rw [if_neg (by exact fun hk => hne hk)]
      rw [List.cons_append]
      congr 1
      exact ih h

/-! the decoder's container-population folds, on distinct keys -/

theorem objSet_not_mem {fs : List (String × DVal)} {k : String} (v : DVal)
    (h : k ∉ fs.map Prod.fst) : objSet fs k v = fs ++ [(k, v)] := by
  induction fs with
  | nil => rfl
  | cons e rest ih =>
    simp only [List.map_cons, List.mem_cons] at h
    push_neg at h
    rw [objSet, if_neg (fun he => h.1 he.symm), List.cons_append]
    congr 1
    exact ih h.2

theorem objFold_nodup : ∀ (kvs acc : List (String × DVal)),
    ((acc ++ kvs).map Prod.fst).Nodup →
    kvs.foldl (fun a kv => objSet a kv.1 kv.2) acc = acc ++ kvs := by
  intro kvs
  induction kvs with
  | nil => intro acc _; simp
  | cons e rest ih =>
    intro acc hnd
    have hk : e.1 ∉ acc.map Prod.fst := by
      intro hmem
      have h2 := (List.nodup_append.mp (by simpa [List.map_append] using hnd))
      exact h2.2.2 hmem (by simp)
    rw [List.foldl_cons, objSet_not_mem _ hk]
    have := ih (acc ++ [e]) (by simpa using hnd)
    rw [this]
    simp

theorem mapSet_not_mem {ps : List (DVal × DVal)} {k : DVal} (v : DVal)
    (h : k ∉ ps.map Prod.fst) : mapSet ps k v = ps ++ [(k, v)] := by
  induction ps with
  | nil => rfl
  | cons e rest ih =>
    simp only [List.map_cons, List.mem_cons] at h
    push_neg at h
    rw [mapSet, if_neg (fun he => h.1 he.symm), List.cons_append]
    congr 1
    exact ih h.2

theorem mapFold_nodup : ∀ (kvs acc : List (DVal × DVal)),
    ((acc ++ kvs).map Prod.fst).Nodup →
    kvs.foldl (fun a kv => mapSet a kv.1 kv.2) acc = acc ++ kvs := by
  intro kvs
  induction kvs with
  | nil => intro acc _; simp
  | cons e rest ih =>
    intro acc hnd
    have hk : e.1 ∉ acc.map Prod.fst := by
      intro hmem
      have h2 := (List.nodup_append.mp (by simpa [List.map_append] using hnd))
      exact h2.2.2 hmem (by simp)
    rw [List.foldl_cons, mapSet_not_mem _ hk]
    have := ih (acc ++ [e]) (by simpa using hnd)
    rw [this]
    simp

theorem setAdd_not_mem {es : List DVal} {v : DVal} (h : v ∉ es) :
    setAdd es v = es ++ [v] := by
  rw [setAdd, if_neg (by simpa using h)]

theorem setFold_nodup : ∀ (es acc : List DVal), (acc ++ es).Nodup →
    es.foldl setAdd acc = acc ++ es := by
  intro es
  induction es with
  | nil => intro acc _; simp
  | cons e rest ih =>
    intro acc hnd
    have hk : e ∉ acc := by
      have h2 := List.nodup_append.mp hnd
      exact fun hmem => h2.2.2 hmem (by simp)
    rw [List.foldl_cons, setAdd_not_mem hk]
    have := ih (acc ++ [e]) (by simpa using hnd)
    rw [this]
    simp
/-! ### Stability of the correspondence under growth -/

theorem get?_extend {α : Type} {C : List α} (Γ : List α) {i : Nat} {dv : α}
    (h : C[i]? = some dv) : (C ++ Γ)[i]? = some dv := by
  have hi : i < C.length := by
    by_contra hge
    rw [List.getElem?_eq_none (by omega)] at h
    exact Option.noConfusion h
  rw [List.getElem?_append_left hi]
  exact h

theorem derefVal_extend {C : List DVal} {r : Int} {j : Nat} (Γ : List DVal)
    (h : derefVal C r = some j) : derefVal (C ++ Γ) r = some j := by
  unfold derefVal at h ⊢
  cases hc : C[derefIdx r]? with
  | none => rw [hc] at h; exact absurd h (by simp)
  | some dv =>
    rw [get?_extend Γ hc]
    rw [hc] at h
    exact h

theorem regId_extend {refs : List (RKey × Int)} {C : List DVal} {id j : Nat}
    (Δ : List (RKey × Int)) (Γ : List DVal)
    (h : regId refs C id = some j) : regId (refs ++ Δ) (C ++ Γ) id = some j := by
  unfold regId at h ⊢
  cases hg : refsGet refs (.kref id) with
  | none => rw [hg] at h; exact absurd h (by simp)
  | some r =>
    rw [hg, Option.some_bind] at h
    rw [refsGet_append_left Δ hg, Option.some_bind]
    exact derefVal_extend Γ h

theorem valTrans_extend {refs : List (RKey × Int)} {C : List DVal}
    {v : JSVal} {dv : DVal} (Δ : List (RKey × Int)) (Γ : List DVal)
    (h : valTrans refs C v dv) : valTrans (refs ++ Δ) (C ++ Γ) v dv := by
  cases v with
  | prim p => exact h
  | ref id =>
    obtain ⟨j, hj, hdv⟩ := h
    exact ⟨j, regId_extend Δ Γ hj, hdv⟩

theorem nodeTrans_extend {refs : List (RKey × Int)} {C : List DVal}
    {n : HNode} {dn : DNode} (Δ : List (RKey × Int)) (Γ : List DVal)
    (h : nodeTrans refs C n dn) : nodeTrans (refs ++ Δ) (C ++ Γ) n dn := by
  cases n <;> cases dn <;> simp only [nodeTrans] at h ⊢ <;> try exact h
  case harr.darr => exact h.imp (fun a b hab => valTrans_extend Δ Γ hab)
  case hobj.dobj =>
    exact h.imp (fun a b hab => ⟨hab.1, valTrans_extend Δ Γ hab.2⟩)
  case hmap.dmap =>
    exact h.imp (fun a b hab =>
      ⟨valTrans_extend Δ Γ hab.1, valTrans_extend Δ Γ hab.2⟩)
  case hset.dset => exact h.imp (fun a b hab => valTrans_extend Δ Γ hab)

theorem keyCorr_extend {C : List DVal} {m m' : Nat} {k : RKey} {r : Int}
    (Γ : List DVal) (hm : m ≤ m') (h : keyCorr C m k r) :
    keyCorr (C ++ Γ) m' k r := by
  obtain ⟨h1, h2, dv, h3, h4⟩ := h
  refine ⟨h1, h2, dv, get?_extend Γ h3, ?_⟩
  cases k <;> simp_all
  next id => obtain ⟨j, hj, hjm⟩ := h4; exact ⟨j, hj, by omega⟩

/-- Appending unregistered values to the cache alone preserves the
invariant. -/
theorem Inv_extend_cache {H : Heap} {refs : List (RKey × Int)} {C : List DVal}
    {D : List (Nat × DNode)} {m : Nat} {opens : List Nat} (Γ : List DVal)
    (inv : Inv H refs C D m opens) : Inv H refs (C ++ Γ) D m opens := by
  have hre : ∀ id j, regId refs (C ++ Γ) id = some j → regId refs C id = some j := by
    intro id j h
    unfold regId at h ⊢
    cases hg : refsGet refs (.kref id) with
    | none => rw [hg] at h; exact absurd h (by simp)
    | some r =>
      rw [hg, Option.some_bind] at h
      rw [Option.some_bind]
      obtain ⟨_, _, dv, h3, _⟩ := inv.corr _ _ (refsGet_mem hg)
      have hb : derefIdx r < C.length := by
        by_contra hge
        rw [List.getElem?_eq_none (by omega)] at h3
        exact Option.noConfusion h3
      unfold derefVal at h ⊢
      rw [List.getElem?_append_left hb] at h
      exact h
  refine ⟨inv.nodupKeys, ?_, ?_, inv.nodupDefs, inv.defsLt, ?_, ?_⟩
  · intro k r hmem
    have h := inv.corr k r hmem
    have : refs ++ [] = refs := by simp
    simpa [this] using keyCorr_extend Γ (le_refl m) h
  · intro id1 id2 j h1 h2
    exact inv.inj id1 id2 j (hre _ _ h1) (hre _ _ h2)
  · intro j node hmem
    obtain ⟨id, h1, h2⟩ := inv.defsCorr j node hmem
    refine ⟨id, ?_, ?_⟩
    · have := regId_extend [] Γ h1
      simpa using this
    · have := nodeTrans_extend [] Γ h2
      simpa using this
  · intro id r hmem hop
    obtain ⟨j, node, h1, h2⟩ := inv.closedCorr id r hmem hop
    refine ⟨j, node, ?_, h2⟩
    have := regId_extend [] Γ h1
    simpa using this
/-! ### Invariant preservation at registration and node close -/

theorem refsGet_snoc_ne {refs : List (RKey × Int)} {k k0 : RKey} {v : Int}
    (h : k0 ≠ k) : refsGet (refs ++ [(k0, v)]) k = refsGet refs k := by
  cases hg : refsGet refs k with
  | some r => exact refsGet_append_left _ hg
  | none =>
    rw [refsGet_append_right _ hg, refsGet_cons, if_neg h]
    rfl

theorem regId_snoc_self {refs : List (RKey × Int)} {C : List DVal} {id : Nat}
    (m : Nat) (hg : refsGet refs (.kref id) = none) :
    regId (refs ++ [(.kref id, -((C.length : Int) + 1))]) (C ++ [.dref m])
      id = some m := by
  unfold regId
  have hidx : derefIdx (-((C.length : Int) + 1)) = C.length := by
    unfold derefIdx; omega
  rw [refsGet_append_right _ hg, refsGet_cons, if_pos rfl, Option.some_bind]
  unfold derefVal
  rw [hidx, List.getElem?_concat_length]

/-- Appending one fresh entry whose slot is the newly pushed cache cell:
how `regId` of other ids is unaffected. -/
theorem regId_snoc_other {refs : List (RKey × Int)} {C : List DVal} {m : Nat}
    {k0 : RKey} {v : Int} (dv : DVal)
    (corr : ∀ k r, (k, r) ∈ refs → keyCorr C m k r)
    {id : Nat} (hne : k0 ≠ .kref id) :
    regId (refs ++ [(k0, v)]) (C ++ [dv]) id = regId refs C id := by
  unfold regId
  rw [refsGet_snoc_ne hne]
  cases hg : refsGet refs (.kref id) with
  | none => rfl
  | some r =>
    simp only [Option.some_bind]
    obtain ⟨_, _, dw, h3, _⟩ := corr _ _ (refsGet_mem hg)
    have hb : derefIdx r < C.length := by
      by_contra hge
      rw [List.getElem?_eq_none (by omega)] at h3
      exact Option.noConfusion h3
    unfold derefVal
    rw [List.getElem?_append_left hb]

/-- Any registered id maps below the id counter. -/
theorem regId_lt {H : Heap} {refs : List (RKey × Int)} {C : List DVal}
    {D : List (Nat × DNode)} {m : Nat} {opens : List Nat}
    (inv : Inv H refs C D m opens) {id j : Nat}
    (h : regId refs C id = some j) : j < m := by
  unfold regId at h
  cases hg : refsGet refs (.kref id) with
  | none => rw [hg] at h; exact absurd h (by simp)
  | some r =>
    rw [hg, Option.some_bind] at h
    obtain ⟨_, _, dw, h3, j', hdw, hj'⟩ := inv.corr _ _ (refsGet_mem hg)
    unfold derefVal at h
    rw [h3, hdw] at h
    simp only [Option.some.injEq] at h
    omega

/-- Registering a cacheable scalar: fresh key, value is the complement of
the cache slot where the decoder pushes the scalar. -/
theorem Inv_register_prim {H : Heap} {refs : List (RKey × Int)} {C : List DVal}
    {D : List (Nat × DNode)} {m : Nat} {opens : List Nat} {k : RKey} {dv : DVal}
    (inv : Inv H refs C D m opens) (hg : refsGet refs k = none)
    (hL : (C.length : Int) + 1 ≤ 2147483648)
    (hk : (∃ s, k = .kstr s ∧ dv = .prim (.pstr s)) ∨
          (∃ n, k = .knum n ∧ dv = .prim (.pnum n))) :
    Inv H (refs ++ [(k, -((C.length : Int) + 1))]) (C ++ [dv]) D m opens := by
  have hkref : ∀ id : Nat, k ≠ .kref id := by
    rcases hk with ⟨s, rfl, _⟩ | ⟨n, rfl, _⟩ <;> intro id h <;> exact RKey.noConfusion h
  have hre : ∀ id, regId (refs ++ [(k, -((C.length : Int) + 1))]) (C ++ [dv]) id =
      regId refs C id := fun id => regId_snoc_other dv inv.corr (hkref id)
  refine ⟨?_, ?_, ?_, inv.nodupDefs, inv.defsLt, ?_, ?_⟩
  · rw [List.map_append, List.nodup_append]
    exact ⟨inv.nodupKeys, by simp, by
      intro a ha hb
      simp only [List.map_cons, List.map_nil, List.mem_singleton] at hb
      subst hb
      exact not_mem_of_refsGet_eq_none hg ha⟩
  · intro k1 r1 hmem
    rcases List.mem_append.mp hmem with hold | hnew
    · exact keyCorr_extend [dv] (le_refl m) (inv.corr k1 r1 hold)
    · simp only [List.mem_singleton, Prod.mk.injEq] at hnew
      obtain ⟨rfl, rfl⟩ := hnew
      refine ⟨by omega, by omega, dv, ?_, ?_⟩
      · have hidx : derefIdx (-((C.length : Int) + 1)) = C.length := by
          unfold derefIdx; omega
        rw [hidx]
        simp
      · rcases hk with ⟨s, rfl, rfl⟩ | ⟨n, rfl, rfl⟩ <;> simp
  · intro id1 id2 j h1 h2
    rw [hre] at h1 h2
    exact inv.inj id1 id2 j h1 h2
  · intro j node hmem
    obtain ⟨id, h1, h2⟩ := inv.defsCorr j node hmem
    exact ⟨id, by rw [hre]; exact h1, nodeTrans_extend _ [dv] h2⟩
  · intro id r hmem hop
    have hne : (RKey.kref id, r) ∈ refs := by
      rcases List.mem_append.mp hmem with hold | hnew
      · exact hold
      · simp only [List.mem_singleton, Prod.mk.injEq] at hnew
        exact absurd hnew.1.symm (hkref id)
    obtain ⟨j, node, h1, h2⟩ := inv.closedCorr id r hne hop
    exact ⟨j, node, by rw [hre]; exact h1, h2⟩

/-- Registering a composite at `AllowSelfReference` time: fresh id key,
the decoder allocates node `m` at the same cache slot. -/
theorem Inv_register_node {H : Heap} {refs : List (RKey × Int)} {C : List DVal}
    {D : List (Nat × DNode)} {m : Nat} {opens : List Nat} {id : Nat}
    (inv : Inv H refs C D m opens) (hg : refsGet refs (.kref id) = none)
    (hL : (C.length : Int) + 1 ≤ 2147483648) :
    Inv H (refs ++ [(.kref id, -((C.length : Int) + 1))]) (C ++ [.dref m]) D
      (m + 1) (id :: opens) := by
  have hre : ∀ id0, id0 ≠ id →
      regId (refs ++ [(.kref id, -((C.length : Int) + 1))]) (C ++ [.dref m]) id0 =
      regId refs C id0 := by
    intro id0 hne
    exact regId_snoc_other _ inv.corr (by intro h; exact hne (RKey.kref.inj h).symm)
  have hself := @regId_snoc_self refs C id m hg
  refine ⟨?_, ?_, ?_, inv.nodupDefs, ?_, ?_, ?_⟩
  · rw [List.map_append, List.nodup_append]
    exact ⟨inv.nodupKeys, by simp, by
      intro a ha hb
      simp only [List.map_cons, List.map_nil, List.mem_singleton] at hb
      subst hb
      exact not_mem_of_refsGet_eq_none hg ha⟩
  · intro k1 r1 hmem
    rcases List.mem_append.mp hmem with hold | hnew
    · exact keyCorr_extend [.dref m] (by omega) (inv.corr k1 r1 hold)
    · simp only [List.mem_singleton, Prod.mk.injEq] at hnew
      obtain ⟨rfl, rfl⟩ := hnew
      refine ⟨by omega, by omega, .dref m, ?_, m, rfl, by omega⟩
      have hidx : derefIdx (-((C.length : Int) + 1)) = C.length := by
        unfold derefIdx; omega
      rw [hidx]
      simp
  · intro id1 id2 j h1 h2
    by_cases e1 : id1 = id <;> by_cases e2 : id2 = id
    · omega
    · subst e1
      rw [hself] at h1
      rw [hre id2 e2] at h2
      have := regId_lt inv h2
      simp only [Option.some.injEq] at h1
      omega
    · subst e2
      rw [hself] at h2
      rw [hre id1 e1] at h1
      have := regId_lt inv h1
      simp only [Option.some.injEq] at h2
      omega
    · rw [hre id1 e1] at h1
      rw [hre id2 e2] at h2
      exact inv.inj id1 id2 j h1 h2
  · intro e he
    have := inv.defsLt e he
    omega
  · intro j node hmem
    obtain ⟨id0, h1, h2⟩ := inv.defsCorr j node hmem
    have hne : id0 ≠ id := by
      intro h
      subst h
      unfold regId at h1
      rw [hg] at h1
      exact absurd h1 (by simp)
    exact ⟨id0, by rw [hre id0 hne]; exact h1, nodeTrans_extend _ [.dref m] h2⟩
  · intro id0 r hmem hop
    simp only [List.mem_cons] at hop
    push_neg at hop
    have hne : (RKey.kref id0, r) ∈ refs := by
      rcases List.mem_append.mp hmem with hold | hnew
      · exact hold
      · simp only [List.mem_singleton, Prod.mk.injEq] at hnew
        exact absurd (RKey.kref.inj hnew.1) hop.1
    obtain ⟨j, node, h1, h2⟩ := inv.closedCorr id0 r hne hop.2
    exact ⟨j, node, by rw [hre id0 hop.1]; exact h1, h2⟩

/-- Closing a composite: log its final contents and pop it off the open
stack. -/
theorem Inv_close_node {H : Heap} {refs : List (RKey × Int)} {C : List DVal}
    {D : List (Nat × DNode)} {m : Nat} {opens : List Nat} {id j : Nat}
    {node : DNode}
    (inv : Inv H refs C D m (id :: opens)) (hreg : regId refs C id = some j)
    (hfresh : j ∉ D.map Prod.fst)
    (htr : nodeTrans refs C (H.getD id (.harr [])) node) :
    Inv H refs C (D ++ [(j, node)]) m opens := by
  refine ⟨inv.nodupKeys, inv.corr, inv.inj, ?_, ?_, ?_, ?_⟩
  · rw [List.map_append, List.nodup_append]
    exact ⟨inv.nodupDefs, by simp, by
      intro a ha hb
      simp only [List.map_cons, List.map_nil, List.mem_singleton] at hb
      subst hb
      exact hfresh ha⟩
  · intro e he
    rcases List.mem_append.mp he with hold | hnew
    · exact inv.defsLt e hold
    · simp only [List.mem_singleton] at hnew
      subst hnew
      exact regId_lt inv hreg
  · intro j0 node0 hmem
    rcases List.mem_append.mp hmem with hold | hnew
    · exact inv.defsCorr j0 node0 hold
    · simp only [List.mem_singleton, Prod.mk.injEq] at hnew
      obtain ⟨rfl, rfl⟩ := hnew
      exact ⟨id, hreg, htr⟩
  · intro id0 r hmem hop
    by_cases he : id0 = id
    · subst he
      exact ⟨j, node, hreg, by simp⟩
    · obtain ⟨j0, node0, h1, h2⟩ := inv.closedCorr id0 r hmem (by
        simp only [List.mem_cons]
        push_neg
        exact ⟨he, hop⟩)
      exact ⟨j0, node0, h1, List.mem_append_left _ h2⟩
/-! ### Positional list lemmas -/

theorem getElem?_append_mid {α : Type} (pre l rest : List α) (i : Nat)
    (h : i < l.length) : (pre ++ l ++ rest)[pre.length + i]? = l[i]? := by
  rw [List.append_assoc]
  rw [List.getElem?_append_right (by omega)]
  rw [Nat.add_sub_cancel_left]
  rw [List.getElem?_append_left h]

theorem getD_append_mid {α : Type} (pre l rest : List α) (i : Nat) (d : α)
    (h : i < l.length) : (pre ++ l ++ rest).getD (pre.length + i) d = l.getD i d := by
  rw [List.getD_eq_getElem?_getD, List.getD_eq_getElem?_getD,
    getElem?_append_mid pre l rest i h]

theorem set_append_left {α : Type} :
    ∀ (l1 l2 : List α) (i : Nat) (c : α), i < l1.length →
      (l1 ++ l2).set i c = l1.set i c ++ l2 := by
  intro l1
  induction l1 with
  | nil => intro l2 i c h; simp at h
  | cons e rest ih =>
    intro l2 i c h
    cases i with
    | zero => rfl
    | succ i =>
      simp only [List.cons_append, List.set]
      rw [List.append_eq, ih l2 i c (by simpa using h)]

theorem set_append_right {α : Type} :
    ∀ (l1 l2 : List α) (i : Nat) (c : α),
      (l1 ++ l2).set (l1.length + i) c = l1 ++ l2.set i c := by
  intro l1
  induction l1 with
  | nil => intro l2 i c; simp
  | cons e rest ih =>
    intro l2 i c
    simp only [List.cons_append, List.length_cons]
    have : rest.length + 1 + i = (rest.length + i) + 1 := by omega
    rw [this]
    simp only [List.set]
    rw [ih l2 i c]

theorem set_append_mid {α : Type} (pre l rest : List α) (i : Nat) (c : α)
    (h : i < l.length) :
    (pre ++ l ++ rest).set (pre.length + i) c = pre ++ l.set i c ++ rest := by
  rw [List.append_assoc, set_append_right, set_append_left l rest i c h,
    List.append_assoc]

/-! ### Command-sequence lemmas -/

theorem runCmds_nil (w : WCmd → AtSt → Except JsError AtSt) (st : AtSt) :
    runCmds w [] st = .ok st := rfl

theorem runCmds_cons_ok {w : WCmd → AtSt → Except JsError AtSt} {c : WCmd}
    {st st2 : AtSt} (cs : List WCmd) (hw : w c st = .ok st2) :
    runCmds w (c :: cs) st = runCmds w cs st2 := by
  simp only [runCmds, hw]

theorem runCmds_append (w : WCmd → AtSt → Except JsError AtSt)
    (l1 l2 : List WCmd) (st : AtSt) :
    runCmds w (l1 ++ l2) st =
      match runCmds w l1 st with
      | .error e => .error e
      | .ok st2 => runCmds w l2 st2 := by
  induction l1 generalizing st with
  | nil => simp [runCmds]
  | cons c rest ih =>
    rw [List.cons_append]
    simp only [runCmds]
    cases w c st with
    | error e => rfl
    | ok st2 => exact ih st2

theorem runCmds_append_ok {w : WCmd → AtSt → Except JsError AtSt}
    {l1 : List WCmd} {st st2 : AtSt} (l2 : List WCmd)
    (h : runCmds w l1 st = .ok st2) :
    runCmds w (l1 ++ l2) st = runCmds w l2 st2 := by
  rw [runCmds_append, h]

/-! ### Single `write` steps -/

theorem write_raw (recurse : JSVal → AtSt → Except JsError AtSt) (c : Cell)
    (st : AtSt) :
    write recurse (.raw c) st = .ok { st with output := st.output ++ [c] } := rfl

theorem write_asIs_int (recurse : JSVal → AtSt → Except JsError AtSt)
    {n : JSNumber} (hn : n.isInt = true) (st : AtSt) :
    write recurse (.asIs n) st =
      .ok { st with output := st.output ++ [.cint AtomType.AsIs, cellOfNum n] } := by
  simp only [write, hn, if_true]

theorem write_pushJump (recurse : JSVal → AtSt → Except JsError AtSt)
    (kind : Int) (st : AtSt) :
    write recurse (.pushJump kind) st =
      .ok { st with jumps := st.output.length :: st.jumps,
                    output := st.output ++ [.cint kind] } := rfl

theorem write_allowSelf_active (recurse : JSVal → AtSt → Except JsError AtSt)
    {st : AtSt} (h : st.activeVal ≠ .kRAW) (h2 : st.activeIndex ≥ 0) :
    write recurse .allowSelf st =
      .ok { st with activeIndex := jsNot st.activeIndex,
                    refs := refsSet st.refs st.activeVal (jsNot st.activeIndex),
                    activeVal := .kRAW } := by
  simp only [write, if_pos h, if_pos h2]

theorem write_popJump_ok (recurse : JSVal → AtSt → Except JsError AtSt)
    {st : AtSt} {i : Nat} {restJ : List Nat} (hj : st.jumps = i :: restJ)
    (hguard : jsShr (jsOr (jsShl (Int.ofNat st.output.length) 3)
        (cellToInt (st.output.getD i (.cint 0)))) 3 = Int.ofNat st.output.length) :
    write recurse .popJump st =
      .ok { st with jumps := restJ,
                    output := st.output.set i (.cint (jsOr
                      (jsShl (Int.ofNat st.output.length) 3)
                      (cellToInt (st.output.getD i (.cint 0))))) } := by
  simp only [write, hj]
  rw [if_neg (by rw [hguard]; exact fun hc => hc rfl)]

theorem write_child_backref (recurse : JSVal → AtSt → Except JsError AtSt)
    {st : AtSt} {v : JSVal} {known : Int} (hai : st.activeIndex < 0)
    (hg : refsGet st.refs (keyOf v) = some known) (hk : known ≠ 0) :
    write recurse (.child v) st =
      .ok { st with atomIndex := st.atomIndex + 1,
                    output := st.output ++ [.cint known] } := by
  simp only [write, if_neg (by omega : ¬ st.activeIndex ≥ 0), hg]
  rw [if_neg hk]

theorem write_child_new (recurse : JSVal → AtSt → Except JsError AtSt)
    {st : AtSt} {v : JSVal} (hai : st.activeIndex < 0)
    (hg : refsGet st.refs (keyOf v) = none) :
    write recurse (.child v) st =
      recurse v { st with atomIndex := st.atomIndex + 1 } := by
  simp only [write, if_neg (by omega : ¬ st.activeIndex ≥ 0), hg]

/-! ### Single reader steps -/

theorem cellReadNext_none_read {full : List Cell} {i : Nat}
    (h : i < full.length) :
    cellReadNext none ⟨full, i⟩ =
      .ok (.cell (full.getD i .cundef), ⟨full, i + 1⟩) := by
  simp only [cellReadNext]
  split
  · next hc => exact absurd hc (by simp)
  · split
    · next hc => omega
    · rfl

theorem cellReadNext_until_read {full : List Cell} {i : Nat} {u : Int}
    (hne : u ≠ Int.ofNat i) (h : i < full.length) :
    cellReadNext (some u) ⟨full, i⟩ =
      .ok (.cell (full.getD i .cundef), ⟨full, i + 1⟩) := by
  simp only [cellReadNext]
  split
  · next hc => exact absurd (by simpa using hc) hne
  · split
    · next hc => omega
    · rfl

theorem cellReadNext_until_pop (full : List Cell) (i : Nat) :
    cellReadNext (some (Int.ofNat i)) ⟨full, i⟩ = .ok (.pop, ⟨full, i⟩) := by
  simp [cellReadNext]

/-! ### Output growth is monotone -/

theorem write_len_mono {recurse : JSVal → AtSt → Except JsError AtSt}
    (hrec : ∀ v st st', recurse v st = .ok st' →
      st.output.length ≤ st'.output.length)
    (c : WCmd) (st st' : AtSt) (h : write recurse c st = .ok st') :
    st.output.length ≤ st'.output.length := by
  cases c with
  | raw cell =>
    rw [write_raw] at h
    cases h
    simp
  | asIs n =>
    simp only [write] at h
    split at h <;> (cases h; simp)
  | pushJump kind =>
    rw [write_pushJump] at h
    cases h
    simp
  | popJump =>
    simp only [write] at h
    split at h
    · exact Except.noConfusion h
    · split at h
      · exact Except.noConfusion h
      · cases h
        simp
  | allowSelf =>
    simp only [write] at h
    split at h
    · cases h; simp
    · cases h; simp
  | child v =>
    simp only [write] at h
    split at h
    · split at h
      · exact Except.noConfusion h
      · cases h
        split <;> simp
    · have := hrec _ _ _ h
      revert this
      split <;> (intro this; simpa using this)

theorem runCmds_len_mono {w : WCmd → AtSt → Except JsError AtSt}
    (hw : ∀ c st st', w c st = .ok st' → st.output.length ≤ st'.output.length) :
    ∀ (cs : List WCmd) (st st' : AtSt), runCmds w cs st = .ok st' →
      st.output.length ≤ st'.output.length := by
  intro cs
  induction cs with
  | nil =>
    intro st st' h
    cases h
    exact le_refl _
  | cons c rest ih =>
    intro st st' h
    simp only [runCmds] at h
    cases hc : w c st with
    | error e => rw [hc] at h; exact Except.noConfusion h
    | ok st2 =>
      rw [hc] at h
      exact le_trans (hw c st st2 hc) (ih st2 st' h)

/-- The registration step at the close of `atomizeValue` only rewrites the
reference table. -/
theorem atClose_output (cfg : CustomCfg) (H : Heap) (v : JSVal) (st2 : AtSt) :
    (if (plan cfg H v).2 = true then
        if st2.activeIndex ≥ 0 then
          { st2 with refs := refsSet st2.refs (keyOf v) (jsNot st2.activeIndex) }
        else st2
      else
        if st2.activeIndex < 0 then
          { st2 with refs := refsErase st2.refs (keyOf v) }
        else st2).output = st2.output := by
  split <;> split <;> rfl

theorem atomizeValue_len_mono (cfg : CustomCfg) (H : Heap) :
    ∀ (fuel : Nat) (v : JSVal) (st st' : AtSt),
      atomizeValue cfg H fuel v st = .ok st' →
      st.output.length ≤ st'.output.length := by
  intro fuel
  induction fuel with
  | zero => intro v st st' h; exact Except.noConfusion h
  | succ fuel ih =>
    intro v st st' h
    simp only [atomizeValue] at h
    cases hrun : runCmds (write (atomizeValue cfg H fuel)) (plan cfg H v).1
        { st with activeVal := keyOf v, activeIndex := st.atomIndex } with
    | error e => rw [hrun] at h; exact Except.noConfusion h
    | ok st2 =>
      rw [hrun] at h
      dsimp only at h
      have h1 : st.output.length ≤ st2.output.length := by
        have := runCmds_len_mono
          (fun c s s' hc => write_len_mono (fun v s s' hr => ih v s s' hr) c s s' hc)
          _ _ _ hrun
        simpa using this
      rw [atClose_output cfg H v st2] at h
      split at h
      · exact Except.noConfusion h
      · cases h
        simpa using h1

/-! ### The decoder folds on distinct keys -/

theorem objFold_eq : ∀ (kvs acc : List (String × DVal)),
    ((acc ++ kvs).map Prod.fst).Nodup →
    kvs.foldl (fun a kv => objSet a kv.1 kv.2) acc = acc ++ kvs := by
  intro kvs
  induction kvs with
  | nil => intro acc h; simp
  | cons kv rest ih =>
    intro acc h
    have h0 : ((acc ++ [kv] ++ rest).map Prod.fst).Nodup := by
      rwa [List.append_assoc, List.singleton_append]
    simp only [List.map_append, List.map_cons, List.nodup_append] at h
    have hk : kv.1 ∉ acc.map Prod.fst := fun hm => h.2.2 hm (by simp)
    simp only [List.foldl_cons]
    rw [objSet_not_mem kv.2 hk]
    have h2 := ih (acc ++ [(kv.1, kv.2)]) (by simpa using h0)
    rw [h2, List.append_assoc, List.singleton_append]

theorem mapFold_eq : ∀ (kvs acc : List (DVal × DVal)),
    ((acc ++ kvs).map Prod.fst).Nodup →
    kvs.foldl (fun a kv => mapSet a kv.1 kv.2) acc = acc ++ kvs := by
  intro kvs
  induction kvs with
  | nil => intro acc h; simp
  | cons kv rest ih =>
    intro acc h
    have h0 : ((acc ++ [kv] ++ rest).map Prod.fst).Nodup := by
      rwa [List.append_assoc, List.singleton_append]
    simp only [List.map_append, List.map_cons, List.nodup_append] at h
    have hk : kv.1 ∉ acc.map Prod.fst := fun hm => h.2.2 hm (by simp)
    simp only [List.foldl_cons]
    rw [mapSet_not_mem kv.2 hk]
    have h2 := ih (acc ++ [(kv.1, kv.2)]) (by simpa using h0)
    rw [h2, List.append_assoc, List.singleton_append]

theorem setFold_eq : ∀ (es acc : List DVal), (acc ++ es).Nodup →
    es.foldl setAdd acc = acc ++ es := by
  intro es
  induction es with
  | nil => intro acc h; simp
  | cons e rest ih =>
    intro acc h
    have h0 : (acc ++ [e] ++ rest).Nodup := by
      rwa [List.append_assoc, List.singleton_append]
    simp only [List.nodup_append] at h
    have hk : e ∉ acc := fun hm => h.2.2 hm (by simp)
    simp only [List.foldl_cons]
    rw [setAdd_not_mem hk]
    have h2 := ih (acc ++ [e]) (by simpa using h0)
    rw [h2, List.append_assoc, List.singleton_append]

/-! ### Distinct keys decode to distinct values -/

theorem keyOf_inj : ∀ (v1 v2 : JSVal), keyOf v1 = keyOf v2 → v1 = v2 := by
  intro v1 v2 h
  cases v1 with
  | ref i =>
    cases v2 with
    | ref j => simp only [keyOf, RKey.kref.injEq] at h; rw [h]
    | prim q => cases q <;> exact RKey.noConfusion h
  | prim p =>
    cases v2 with
    | ref j => cases p <;> exact RKey.noConfusion h
    | prim q => cases p <;> cases q <;> simp_all [keyOf]

theorem valTrans_inj {refs : List (RKey × Int)} {C : List DVal}
    (inj : ∀ id1 id2 j, regId refs C id1 = some j → regId refs C id2 = some j →
      id1 = id2)
    {v1 v2 : JSVal} {dv1 dv2 : DVal} (h1 : valTrans refs C v1 dv1)
    (h2 : valTrans refs C v2 dv2) (hne : keyOf v1 ≠ keyOf v2) : dv1 ≠ dv2 := by
  intro he
  subst he
  cases v1 with
  | prim p =>
    cases v2 with
    | prim q =>
      simp only [valTrans] at h1 h2
      rw [h1] at h2
      exact hne (by rw [DVal.prim.inj h2])
    | ref id =>
      obtain ⟨j, _, hdv⟩ := h2
      rw [hdv] at h1
      exact DVal.noConfusion h1
  | ref id1 =>
    cases v2 with
    | prim q =>
      obtain ⟨j, _, hdv⟩ := h1
      rw [hdv] at h2
      exact DVal.noConfusion h2
    | ref id2 =>
      obtain ⟨j1, hr1, hdv1⟩ := h1
      obtain ⟨j2, hr2, hdv2⟩ := h2
      rw [hdv1] at hdv2
      have := DVal.dref.inj hdv2
      subst this
      exact hne (by rw [inj id1 id2 j1 hr1 hr2])

theorem forall2_mem_right {α β : Type} {R : α → β → Prop} :
    ∀ {as : List α} {bs : List β}, List.Forall₂ R as bs →
      ∀ b ∈ bs, ∃ a ∈ as, R a b := by
  intro as bs h
  induction h with
  | nil => intro b hb; simp at hb
  | cons hab _ ih =>
    intro b hb
    rcases List.mem_cons.mp hb with rfl | hb2
    · exact ⟨_, by simp, hab⟩
    · obtain ⟨a, ha, hr⟩ := ih b hb2
      exact ⟨a, by simp [ha], hr⟩

theorem forall2_keyOf_nodup {refs : List (RKey × Int)} {C : List DVal}
    (inj : ∀ id1 id2 j, regId refs C id1 = some j → regId refs C id2 = some j →
      id1 = id2) :
    ∀ {ks : List JSVal} {dks : List DVal},
      List.Forall₂ (valTrans refs C) ks dks → (ks.map keyOf).Nodup →
      dks.Nodup := by
  intro ks dks h
  induction h with
  | nil => intro _; exact List.nodup_nil
  | @cons k dk ks' dks' hkd htail ih =>
    intro hnd
    simp only [List.map_cons, List.nodup_cons] at hnd
    refine List.nodup_cons.mpr ⟨?_, ih hnd.2⟩
    intro hm
    obtain ⟨k', hk', hkd'⟩ := forall2_mem_right htail dk hm
    have hne : keyOf k ≠ keyOf k' := by
      intro he
      exact hnd.1 (he ▸ List.mem_map.mpr ⟨k', hk', rfl⟩)
    exact valTrans_inj inj hkd hkd' hne rfl
/-! ### The encoder–rebuilder simulation statements

Each statement relates one encoder step (a child write, a whole
`atomizeValue` frame, or a builder's child segment) to the decoder run over
the cells that step emitted.  The decoder's cache/defs/counter growth is
stream-independent, so it is quantified before the surrounding stream
(`pre`, `rest`); the run equation then holds whenever the emitted region
sits at the position the encoder's absolute header offsets name
(`pre.length + Δ.length = outLen'`). -/

/-- Decoder-side conclusion for one value occurrence: with the cursor just
past the first cell of `Δ`, `rebuildValue` (at any large enough fuel)
consumes the rest of `Δ`; wrapping the result caches the decoded value at
slot `C.length`, in lockstep with the encoder's atom-index. -/
def DecConcl (H : Heap) (refs' : List (RKey × Int)) (v : JSVal)
    (Δ : List Cell) (atom' : Int) (outLen' : Nat) (opens : List Nat)
    (C : List DVal) (D : List (Nat × DNode)) (m : Nat) : Prop :=
  ∃ (res : Option DVal) (dv : DVal) (Γ2 Γ : List DVal)
    (Δd : List (Nat × DNode)) (m' : Nat),
    (∀ (rd : CellRd) (dfs : List (Nat × DNode)) (nid : Nat),
      pushWrap C.length res ⟨rd, C ++ Γ2, dfs, nid⟩ = (dv, ⟨rd, C ++ Γ, dfs, nid⟩)) ∧
    (C ++ Γ)[C.length]? = some dv ∧
    (∀ en ∈ Δd, m ≤ en.1) ∧
    m ≤ m' ∧
    (((C ++ Γ).length : Int) = atom' + 1) ∧
    (C ++ Γ).length ≤ outLen' ∧
    valTrans refs' (C ++ Γ) v dv ∧
    Inv H refs' (C ++ Γ) (D ++ Δd) m' opens ∧
    ∀ (pre rest : List Cell), pre.length + Δ.length = outLen' →
      ∃ g0, ∀ g, g0 ≤ g →
        rebuildValue cellReadNext g (Δ.getD 0 .cundef)
          ⟨⟨pre ++ Δ ++ rest, pre.length + 1⟩, C, D, m⟩ =
        .ok (res, ⟨⟨pre ++ Δ ++ rest, pre.length + Δ.length⟩, C ++ Γ2, D ++ Δd, m'⟩)

/-- Decoder-side conclusion for a child segment: `rebuildUntil` over the
segment's cells, stopping at the segment's end offset. -/
def SegChConcl (H : Heap) (refs' : List (RKey × Int)) (vs : List JSVal)
    (Δ : List Cell) (atom' : Int) (outLen' : Nat) (opens : List Nat)
    (C : List DVal) (D : List (Nat × DNode)) (m : Nat) : Prop :=
  ∃ (dvs : List DVal) (Γ : List DVal) (Δd : List (Nat × DNode)) (m' : Nat),
    (∀ en ∈ Δd, m ≤ en.1) ∧
    m ≤ m' ∧
    (((C ++ Γ).length : Int) = atom' + 1) ∧
    (C ++ Γ).length ≤ outLen' ∧
    List.Forall₂ (valTrans refs' (C ++ Γ)) vs dvs ∧
    Inv H refs' (C ++ Γ) (D ++ Δd) m' opens ∧
    (∃ Δs : List (List Cell), Δ = Δs.flatten ∧ Δs.length = vs.length ∧
      ∀ d ∈ Δs, d ≠ []) ∧
    ∀ (pre rest : List Cell), pre.length + Δ.length = outLen' →
      ∃ g0, ∀ gVal gIter, g0 ≤ gVal → g0 ≤ gIter →
        rebuildUntilF cellReadNext (rebuildValue cellReadNext gVal) gIter
          (Int.ofNat (pre.length + Δ.length))
          ⟨⟨pre ++ Δ ++ rest, pre.length⟩, C, D, m⟩ =
        .ok (dvs, ⟨⟨pre ++ Δ ++ rest, pre.length + Δ.length⟩, C ++ Γ, D ++ Δd, m'⟩)

/-- Decoder-side conclusion for a value segment: `readValues` of the
segment's values (the Object/Map population loop). -/
def SegValsConcl (H : Heap) (refs' : List (RKey × Int)) (vs : List JSVal)
    (Δ : List Cell) (atom' : Int) (outLen' : Nat) (opens : List Nat)
    (C : List DVal) (D : List (Nat × DNode)) (m : Nat) : Prop :=
  ∃ (dvs : List DVal) (Γ : List DVal) (Δd : List (Nat × DNode)) (m' : Nat),
    (∀ en ∈ Δd, m ≤ en.1) ∧
    m ≤ m' ∧
    (((C ++ Γ).length : Int) = atom' + 1) ∧
    (C ++ Γ).length ≤ outLen' ∧
    List.Forall₂ (valTrans refs' (C ++ Γ)) vs dvs ∧
    Inv H refs' (C ++ Γ) (D ++ Δd) m' opens ∧
    (∃ Δs : List (List Cell), Δ = Δs.flatten ∧ Δs.length = vs.length ∧
      ∀ d ∈ Δs, d ≠ []) ∧
    ∀ (pre rest : List Cell), pre.length + Δ.length = outLen' →
      ∃ g0, ∀ g, g0 ≤ g →
        readValuesF cellReadNext (rebuildValue cellReadNext g) vs.length
          ⟨⟨pre ++ Δ ++ rest, pre.length⟩, C, D, m⟩ =
        .ok (dvs, ⟨⟨pre ++ Δ ++ rest, pre.length + Δ.length⟩, C ++ Γ, D ++ Δd, m'⟩)

/-- Simulation of one `write(child)` call under the default builders. -/
def ChildSimP (H : Heap) (fuel : Nat) : Prop :=
  ∀ (v : JSVal) (e e' : AtSt) (C : List DVal) (D : List (Nat × DNode))
    (m : Nat) (opens : List Nat),
    write (atomizeValue defaultCfg H fuel) (.child v) e = .ok e' →
    WFHeap H →
    Inv H e.refs C D m opens →
    (C.length : Int) = e.atomIndex + 1 →
    C.length ≤ e.output.length →
    e'.output.length ≤ 67108864 →
    e.activeIndex < 0 →
    ∃ Δ newRefs,
      e'.output = e.output ++ Δ ∧ Δ ≠ [] ∧
      e'.refs = e.refs ++ newRefs ∧
      e'.jumps = e.jumps ∧ e'.activeVal = e.activeVal ∧
      e'.activeIndex = e.activeIndex ∧
      DecConcl H e'.refs v Δ e'.atomIndex e'.output.length opens C D m

/-- Simulation of one `atomizeValue` frame for an unregistered value. -/
def ValSimP (H : Heap) (fuel : Nat) : Prop :=
  ∀ (v : JSVal) (e e' : AtSt) (C : List DVal) (D : List (Nat × DNode))
    (m : Nat) (opens : List Nat),
    atomizeValue defaultCfg H fuel v e = .ok e' →
    WFHeap H →
    Inv H e.refs C D m opens →
    (C.length : Int) = e.atomIndex →
    C.length ≤ e.output.length →
    e'.output.length ≤ 67108864 →
    refsGet e.refs (keyOf v) = none →
    ∃ Δ newRefs,
      e'.output = e.output ++ Δ ∧ Δ ≠ [] ∧
      e'.refs = e.refs ++ newRefs ∧
      e'.jumps = e.jumps ∧ e'.activeVal = e.activeVal ∧
      e'.activeIndex = e.activeIndex ∧
      DecConcl H e'.refs v Δ e'.atomIndex e'.output.length opens C D m

/-- Simulation of a builder's child-segment (the cells between a composite's
header and its `until` offset). -/
def SegChP (H : Heap) (fuel : Nat) : Prop :=
  ∀ (vs : List JSVal) (e e' : AtSt) (C : List DVal) (D : List (Nat × DNode))
    (m : Nat) (opens : List Nat),
    runCmds (write (atomizeValue defaultCfg H fuel)) (vs.map .child) e = .ok e' →
    WFHeap H →
    Inv H e.refs C D m opens →
    (C.length : Int) = e.atomIndex + 1 →
    C.length ≤ e.output.length →
    e'.output.length ≤ 67108864 →
    e.activeIndex < 0 →
    ∃ Δ newRefs,
      e'.output = e.output ++ Δ ∧
      e'.refs = e.refs ++ newRefs ∧
      e'.jumps = e.jumps ∧ e'.activeVal = e.activeVal ∧
      e'.activeIndex = e.activeIndex ∧
      SegChConcl H e'.refs vs Δ e'.atomIndex e'.output.length opens C D m

/-- Simulation of a builder's value-segment (the cells after an Object/Map
`until` offset). -/
def SegValsP (H : Heap) (fuel : Nat) : Prop :=
  ∀ (vs : List JSVal) (e e' : AtSt) (C : List DVal) (D : List (Nat × DNode))
    (m : Nat) (opens : List Nat),
    runCmds (write (atomizeValue defaultCfg H fuel)) (vs.map .child) e = .ok e' →
    WFHeap H →
    Inv H e.refs C D m opens →
    (C.length : Int) = e.atomIndex + 1 →
    C.length ≤ e.output.length →
    e'.output.length ≤ 67108864 →
    e.activeIndex < 0 →
    ∃ Δ newRefs,
      e'.output = e.output ++ Δ ∧
      e'.refs = e.refs ++ newRefs ∧
      e'.jumps = e.jumps ∧ e'.activeVal = e.activeVal ∧
      e'.activeIndex = e.activeIndex ∧
      SegValsConcl H e'.refs vs Δ e'.atomIndex e'.output.length opens C D m
/-! ### Child writes: back-references and recursion -/

theorem childSim_of_valSim {H : Heap} {fuel : Nat} (hval : ValSimP H fuel) :
    ChildSimP H fuel := by
  intro v e e' C D m opens hrun hWF hInv hAtom hLen hB hActive
  cases hg : refsGet e.refs (keyOf v) with
  | some known =>
    obtain ⟨hneg, hlo, dv, hslot, hkind⟩ := hInv.corr _ _ (refsGet_mem hg)
    have hk0 : known ≠ 0 := by omega
    rw [write_child_backref _ hActive hg hk0] at hrun
    injection hrun with hrun
    subst hrun
    refine ⟨[.cint known], [], rfl, by simp, by simp, rfl, rfl, rfl,
      some dv, dv, [], [dv], [], m,
      by intro rd dfs nid; simp [pushWrap],
      List.getElem?_concat_length C dv, by simp, le_refl m, ?_, ?_, ?_, ?_, ?_⟩
    · simp only [List.length_append, List.length_cons, List.length_nil]
      push_cast
      omega
    · simp only [List.length_append, List.length_cons, List.length_nil]
      omega
    · cases v with
      | prim p =>
        cases p with
        | pstr s =>
          simp only [keyOf] at hkind
          simp only [valTrans]
          exact hkind
        | pnum n =>
          simp only [keyOf] at hkind
          simp only [valTrans]
          exact hkind
        | pbool b => simp only [keyOf] at hkind
        | pnull => simp only [keyOf] at hkind
        | undef => simp only [keyOf] at hkind
      | ref id =>
        simp only [keyOf] at hkind hg
        obtain ⟨j, hdv, hjm⟩ := hkind
        refine ⟨j, ?_, hdv⟩
        unfold regId
        rw [hg, Option.some_bind]
        unfold derefVal
        rw [get?_extend [dv] hslot, hdv]
    · simpa using Inv_extend_cache [dv] hInv
    · intro pre rest hplen
      refine ⟨1, ?_⟩
      intro g hg1
      cases g with
      | zero => exact absurd hg1 (by omega)
      | succ g =>
        have hcell : ([Cell.cint known].getD 0 .cundef) = .cint known := rfl
        rw [hcell]
        simp only [rebuildValue]
        rw [if_pos hneg]
        have hj : (jsNot known).toNat = derefIdx known := by
          rw [jsNot_eq hlo (by omega)]
          rfl
        rw [hj]
        have hgd : (⟨⟨pre ++ [.cint known] ++ rest, pre.length + 1⟩, C, D,
            m⟩ : RbSt CellRd).cache.getD (derefIdx known) (.prim .undef) = dv := by
          show C.getD (derefIdx known) (.prim .undef) = dv
          rw [List.getD_eq_getElem?_getD, hslot]
          rfl
        rw [hgd]
        simp
  | none =>
    rw [write_child_new _ hActive hg] at hrun
    obtain ⟨Δ, newRefs, ho, hne, hr, hj, hav, hai, hdec⟩ :=
      hval v { e with atomIndex := e.atomIndex + 1 } e' C D m opens hrun hWF
        hInv (by simpa using hAtom) hLen hB hg
    exact ⟨Δ, newRefs, ho, hne, hr, hj, hav, hai, hdec⟩
/-! ### Child segments compose -/

theorem runCmds_cons_err {w : WCmd → AtSt → Except JsError AtSt} {c : WCmd}
    {st : AtSt} {er : JsError} (cs : List WCmd) (hw : w c st = .error er) :
    runCmds w (c :: cs) st = .error er := by
  simp only [runCmds, hw]

theorem getD_append_first {α : Type} (pre l rest : List α) (d : α)
    (h : 0 < l.length) : (pre ++ l ++ rest).getD pre.length d = l.getD 0 d := by
  have := getD_append_mid pre l rest 0 d h
  simpa using this

theorem segCh_of_childSim {H : Heap} {fuel : Nat} (hch : ChildSimP H fuel) :
    SegChP H fuel := by
  intro vs
  induction vs with
  | nil =>
    intro e e' C D m opens hrun hWF hInv hAtom hLen hB hActive
    rw [List.map_nil, runCmds_nil] at hrun
    injection hrun with hrun
    subst hrun
    refine ⟨[], [], by simp, by simp, rfl, rfl, rfl,
      [], [], [], m, by simp, le_refl m, by simpa using hAtom,
      by simpa using hLen, List.Forall₂.nil, by simpa using hInv,
      ⟨[], rfl, rfl, by simp⟩, ?_⟩
    intro pre rest hplen
    refine ⟨1, ?_⟩
    intro gVal gIter hgv hgi
    cases gIter with
    | zero => exact absurd hgi (by omega)
    | succ git =>
      simp only [List.length_nil, Nat.add_zero, List.append_nil]
      simp only [rebuildUntilF]
      rw [cellReadNext_until_pop]
  | cons v vsr ih =>
    intro e e' C D m opens hrun hWF hInv hAtom hLen hB hActive
    rw [List.map_cons] at hrun
    cases hw : write (atomizeValue defaultCfg H fuel) (.child v) e with
    | error er =>
      rw [runCmds_cons_err _ hw] at hrun
      exact Except.noConfusion hrun
    | ok e1 =>
      rw [runCmds_cons_ok _ hw] at hrun
      have hmono1 : e1.output.length ≤ e'.output.length :=
        runCmds_len_mono
          (fun c s s' hc =>
            write_len_mono (atomizeValue_len_mono defaultCfg H fuel) c s s' hc)
          _ _ _ hrun
      obtain ⟨Δ1, nR1, ho1, hne1, hr1, hj1, hav1, hai1, hdec1⟩ :=
        hch v e e1 C D m opens hw hWF hInv hAtom hLen (le_trans hmono1 hB)
          hActive
      obtain ⟨res1, dv1, Γ2, Γ1, Δd1, m1, hpush1, hslot1, hΔd1, hm1, hlock1,
        hclen1, hvt1, hInv1, hrun1⟩ := hdec1
      obtain ⟨Δr, nRr, hor, hrr, hjr, havr, hair, hsegr⟩ :=
        ih e1 e' (C ++ Γ1) (D ++ Δd1) m1 opens hrun hWF hInv1 hlock1 hclen1
          hB (by rw [hai1]; exact hActive)
      obtain ⟨dvsr, Γr, Δdr, mr, hΔdr, hmr, hlockr, hclenr, hfar, hInvr,
        hΔsr, hrunr⟩ := hsegr
      have hΔ1pos : 0 < Δ1.length := List.length_pos.mpr hne1
      refine ⟨Δ1 ++ Δr, nR1 ++ nRr, ?_, ?_, hjr.trans hj1, havr.trans hav1,
        hair.trans hai1, dv1 :: dvsr, Γ1 ++ Γr, Δd1 ++ Δdr, mr, ?_,
        le_trans hm1 hmr, ?_, ?_, ?_, ?_, ?_, ?_⟩
      · rw [hor, ho1, List.append_assoc]
      · rw [hrr, hr1, List.append_assoc]
      · intro en hen
        rcases List.mem_append.mp hen with h1 | h2
        · exact hΔd1 en h1
        · exact le_trans hm1 (hΔdr en h2)
      · rw [← List.append_assoc]
        exact hlockr
      · rw [← List.append_assoc]
        exact hclenr
      · refine List.Forall₂.cons ?_ ?_
        · have := valTrans_extend nRr Γr hvt1
          rw [← hrr, List.append_assoc] at this
          exact this
        · rw [← List.append_assoc]
          exact hfar
      · simp only [← List.append_assoc]
        exact hInvr
      · obtain ⟨Δsr, hfl, hln, hmem⟩ := hΔsr
        refine ⟨Δ1 :: Δsr, ?_, ?_, ?_⟩
        · rw [List.flatten_cons, hfl]
        · simp [hln]
        · intro d hd
          rcases List.mem_cons.mp hd with rfl | hd2
          · exact hne1
          · exact hmem d hd2
      · intro pre rest hplen
        simp only [List.length_append] at hplen
        have hpre : pre.length = e.output.length := by
          have h1 : e'.output.length = e.output.length + Δ1.length + Δr.length := by
            rw [hor, ho1]
            simp only [List.length_append]
          omega
        have hlen1 : pre.length + Δ1.length = e1.output.length := by
          rw [ho1, List.length_append, hpre]
        obtain ⟨g01, hG1⟩ := hrun1 pre (Δr ++ rest) hlen1
        have hlenr : (pre ++ Δ1).length + Δr.length = e'.output.length := by
          have h2 : e'.output.length = e1.output.length + Δr.length := by
            rw [hor, List.length_append]
          simp only [List.length_append]
          omega
        obtain ⟨g0r, hGr⟩ := hrunr (pre ++ Δ1) rest hlenr
        refine ⟨max g01 g0r + 1, ?_⟩
        intro gVal gIter hgv hgi
        cases gIter with
        | zero => exact absurd hgi (by omega)
        | succ git =>
          have hS1 : pre ++ Δ1 ++ (Δr ++ rest) = pre ++ (Δ1 ++ Δr) ++ rest := by
            simp [List.append_assoc]
          have hS2 : pre ++ Δ1 ++ Δr ++ rest = pre ++ (Δ1 ++ Δr) ++ rest := by
            simp [List.append_assoc]
          rw [hS1] at hG1
          rw [List.length_append, hS2] at hGr
          simp only [rebuildUntilF]
          rw [cellReadNext_until_read (by
              intro hc
              have : pre.length + (Δ1 ++ Δr).length = pre.length :=
                Int.ofNat.inj hc
              simp only [List.length_append] at this
              omega)
            (by simp only [List.length_append]; omega)]
          dsimp only
          rw [getD_append_first pre (Δ1 ++ Δr) rest _ (by simp; omega)]
          have hty : (Δ1 ++ Δr).getD 0 .cundef = Δ1.getD 0 .cundef := by
            cases Δ1 with
            | nil => exact absurd rfl hne1
            | cons c cs => rfl
          rw [hty]
          rw [hG1 gVal (by omega)]
          dsimp only
          rw [hpush1]
          dsimp only
          have huntil : (Int.ofNat (pre.length + (Δ1 ++ Δr).length)) =
              Int.ofNat (pre.length + Δ1.length + Δr.length) := by
            simp only [List.length_append]
            rw [Nat.add_assoc]
          rw [huntil, hGr gVal git (by omega) (by omega)]
          dsimp only
          simp only [List.append_assoc, List.length_append, Nat.add_assoc]

/-! ### Value segments compose -/

theorem segVals_of_childSim {H : Heap} {fuel : Nat} (hch : ChildSimP H fuel) :
    SegValsP H fuel := by
  intro vs
  induction vs with
  | nil =>
    intro e e' C D m opens hrun hWF hInv hAtom hLen hB hActive
    rw [List.map_nil, runCmds_nil] at hrun
    injection hrun with hrun
    subst hrun
    refine ⟨[], [], by simp, by simp, rfl, rfl, rfl,
      [], [], [], m, by simp, le_refl m, by simpa using hAtom,
      by simpa using hLen, List.Forall₂.nil, by simpa using hInv,
      ⟨[], rfl, rfl, by simp⟩, ?_⟩
    intro pre rest hplen
    refine ⟨1, ?_⟩
    intro g hg1
    simp only [List.length_nil, Nat.add_zero, List.append_nil]
    simp only [readValuesF]
  | cons v vsr ih =>
    intro e e' C D m opens hrun hWF hInv hAtom hLen hB hActive
    rw [List.map_cons] at hrun
    cases hw : write (atomizeValue defaultCfg H fuel) (.child v) e with
    | error er =>
      rw [runCmds_cons_err _ hw] at hrun
      exact Except.noConfusion hrun
    | ok e1 =>
      rw [runCmds_cons_ok _ hw] at hrun
      have hmono1 : e1.output.length ≤ e'.output.length :=
        runCmds_len_mono
          (fun c s s' hc =>
            write_len_mono (atomizeValue_len_mono defaultCfg H fuel) c s s' hc)
          _ _ _ hrun
      obtain ⟨Δ1, nR1, ho1, hne1, hr1, hj1, hav1, hai1, hdec1⟩ :=
        hch v e e1 C D m opens hw hWF hInv hAtom hLen (le_trans hmono1 hB)
          hActive
      obtain ⟨res1, dv1, Γ2, Γ1, Δd1, m1, hpush1, hslot1, hΔd1, hm1, hlock1,
        hclen1, hvt1, hInv1, hrun1⟩ := hdec1
      obtain ⟨Δr, nRr, hor, hrr, hjr, havr, hair, hsegr⟩ :=
        ih e1 e' (C ++ Γ1) (D ++ Δd1) m1 opens hrun hWF hInv1 hlock1 hclen1
          hB (by rw [hai1]; exact hActive)
      obtain ⟨dvsr, Γr, Δdr, mr, hΔdr, hmr, hlockr, hclenr, hfar, hInvr,
        hΔsr, hrunr⟩ := hsegr
      have hΔ1pos : 0 < Δ1.length := List.length_pos.mpr hne1
      refine ⟨Δ1 ++ Δr, nR1 ++ nRr, ?_, ?_, hjr.trans hj1, havr.trans hav1,
        hair.trans hai1, dv1 :: dvsr, Γ1 ++ Γr, Δd1 ++ Δdr, mr, ?_,
        le_trans hm1 hmr, ?_, ?_, ?_, ?_, ?_, ?_⟩
      · rw [hor, ho1, List.append_assoc]
      · rw [hrr, hr1, List.append_assoc]
      · intro en hen
        rcases List.mem_append.mp hen with h1 | h2
        · exact hΔd1 en h1
        · exact le_trans hm1 (hΔdr en h2)
      · rw [← List.append_assoc]
        exact hlockr
      · rw [← List.append_assoc]
        exact hclenr
      · refine List.Forall₂.cons ?_ ?_
        · have := valTrans_extend nRr Γr hvt1
          rw [← hrr, List.append_assoc] at this
          exact this
        · rw [← List.append_assoc]
          exact hfar
      · simp only [← List.append_assoc]
        exact hInvr
      · obtain ⟨Δsr, hfl, hln, hmem⟩ := hΔsr
        refine ⟨Δ1 :: Δsr, ?_, ?_, ?_⟩
        · rw [List.flatten_cons, hfl]
        · simp [hln]
        · intro d hd
          rcases List.mem_cons.mp hd with rfl | hd2
          · exact hne1
          · exact hmem d hd2
      · intro pre rest hplen
        simp only [List.length_append] at hplen
        have hpre : pre.length = e.output.length := by
          have h1 : e'.output.length = e.output.length + Δ1.length + Δr.length := by
            rw [hor, ho1]
            simp only [List.length_append]
          omega
        have hlen1 : pre.length + Δ1.length = e1.output.length := by
          rw [ho1, List.length_append, hpre]
        obtain ⟨g01, hG1⟩ := hrun1 pre (Δr ++ rest) hlen1
        have hlenr : (pre ++ Δ1).length + Δr.length = e'.output.length := by
          have h2 : e'.output.length = e1.output.length + Δr.length := by
            rw [hor, List.length_append]
          simp only [List.length_append]
          omega
        obtain ⟨g0r, hGr⟩ := hrunr (pre ++ Δ1) rest hlenr
        refine ⟨max g01 g0r, ?_⟩
        intro g hg1
        have hS1 : pre ++ Δ1 ++ (Δr ++ rest) = pre ++ (Δ1 ++ Δr) ++ rest := by
          simp [List.append_assoc]
        have hS2 : pre ++ Δ1 ++ Δr ++ rest = pre ++ (Δ1 ++ Δr) ++ rest := by
          simp [List.append_assoc]
        rw [hS1] at hG1
        rw [List.length_append, hS2] at hGr
        rw [List.length_cons]
        simp only [readValuesF, nextValueF]
        rw [cellReadNext_none_read (by simp only [List.length_append]; omega)]
        dsimp only
        rw [getD_append_first pre (Δ1 ++ Δr) rest _ (by simp; omega)]
        have hty : (Δ1 ++ Δr).getD 0 .cundef = Δ1.getD 0 .cundef := by
          cases Δ1 with
          | nil => exact absurd rfl hne1
          | cons c cs => rfl
        rw [hty]
        rw [hG1 g (by omega)]
        dsimp only
        rw [hpush1]
        dsimp only
        rw [hGr g (by omega)]
        dsimp only
        simp only [List.append_assoc, List.length_append, Nat.add_assoc]
/-! ### The close of an `atomizeValue` frame, as a function -/

/-- The tail of `atomizeValue` after the builder ran: cacheable values are
(re)registered if no child write flipped the active index, non-cacheable
ones are unregistered if one did; then the empty-output check and the
restore of the enclosing frame. -/
def closeFrame (cache2 : Bool) (k : RKey) (prevLength : Nat) (prevVal : RKey)
    (prevIndex : Int) (st2 : AtSt) : Except JsError AtSt :=
  let st3 :=
    if cache2 then
      if st2.activeIndex ≥ 0 then
        { st2 with refs := refsSet st2.refs k (jsNot st2.activeIndex) }
      else st2
    else
      if st2.activeIndex < 0 then
        { st2 with refs := refsErase st2.refs k }
      else st2
  if st3.output.length = prevLength then .error .encodedIntoNothing
  else .ok { st3 with activeVal := prevVal, activeIndex := prevIndex }

theorem atomizeValue_succ_eq (cfg : CustomCfg) (H : Heap) (fuel : Nat)
    (v : JSVal) (st : AtSt) :
    atomizeValue cfg H (fuel + 1) v st =
      match runCmds (write (atomizeValue cfg H fuel)) (plan cfg H v).1
          { st with activeVal := keyOf v, activeIndex := st.atomIndex } with
      | .error e => .error e
      | .ok st2 => closeFrame (plan cfg H v).2 (keyOf v) st.output.length
          st.activeVal st.activeIndex st2 := rfl

/-- A successfully closed frame: cacheable, no self-registration pending
(the active index went negative at an `AllowSelfReference`). -/
theorem closeFrame_true_neg {k : RKey} {prevL : Nat} {pv : RKey} {pi : Int}
    {st2 : AtSt} (hai : st2.activeIndex < 0) (hne : st2.output.length ≠ prevL) :
    closeFrame true k prevL pv pi st2 =
      .ok { st2 with activeVal := pv, activeIndex := pi } := by
  simp only [closeFrame]
  rw [if_pos trivial, if_neg (by omega : ¬ st2.activeIndex ≥ 0), if_neg hne]

/-- A successfully closed frame: cacheable scalar, registered at close. -/
theorem closeFrame_true_nonneg {k : RKey} {prevL : Nat} {pv : RKey} {pi : Int}
    {st2 : AtSt} (hai : st2.activeIndex ≥ 0) (hne : st2.output.length ≠ prevL) :
    closeFrame true k prevL pv pi st2 =
      .ok { st2 with refs := refsSet st2.refs k (jsNot st2.activeIndex),
                     activeVal := pv, activeIndex := pi } := by
  simp only [closeFrame]
  rw [if_pos trivial, if_pos hai, if_neg (by simpa using hne)]

/-- A successfully closed frame: non-cacheable scalar, nothing to erase. -/
theorem closeFrame_false_nonneg {k : RKey} {prevL : Nat} {pv : RKey} {pi : Int}
    {st2 : AtSt} (hai : st2.activeIndex ≥ 0) (hne : st2.output.length ≠ prevL) :
    closeFrame false k prevL pv pi st2 =
      .ok { st2 with activeVal := pv, activeIndex := pi } := by
  simp only [closeFrame]
  rw [if_neg (show ¬ (false = true) by simp)]
  rw [if_neg (show ¬ st2.activeIndex < 0 by omega)]
  rw [if_neg hne]

/-- What a successful close says about the result, before the branch taken
is known. -/
theorem closeFrame_ok_output {c2 : Bool} {k : RKey} {prevL : Nat} {pv : RKey}
    {pi : Int} {st2 e' : AtSt} (h : closeFrame c2 k prevL pv pi st2 = .ok e') :
    e'.output = st2.output := by
  cases c2 with
  | false =>
    simp only [closeFrame] at h
    rw [if_neg (show ¬ (false = true) by simp)] at h
    by_cases hc : st2.activeIndex < 0
    · rw [if_pos hc] at h
      split at h
      · exact Except.noConfusion h
      · injection h with h
        subst h
        rfl
    · rw [if_neg hc] at h
      split at h
      · exact Except.noConfusion h
      · injection h with h
        subst h
        rfl
  | true =>
    simp only [closeFrame] at h
    by_cases hc : st2.activeIndex ≥ 0
    · rw [if_pos (show True from trivial), if_pos hc] at h
      split at h
      · exact Except.noConfusion h
      · injection h with h
        subst h
        rfl
    · rw [if_pos (show True from trivial), if_neg hc] at h
      split at h
      · exact Except.noConfusion h
      · injection h with h
        subst h
        rfl

/-- Full characterization of a successful `write(val, POP_JUMP)`. -/
theorem popJump_inv {recurse : JSVal → AtSt → Except JsError AtSt}
    {st st' : AtSt} (h : write recurse .popJump st = .ok st') :
    st'.refs = st.refs ∧ st'.atomIndex = st.atomIndex ∧
    st'.activeIndex = st.activeIndex ∧ st'.activeVal = st.activeVal ∧
    st'.output.length = st.output.length ∧
    ∃ i restJ, st.jumps = i :: restJ ∧ st'.jumps = restJ ∧
      st'.output = st.output.set i (.cint (jsOr
        (jsShl (Int.ofNat st.output.length) 3)
        (cellToInt (st.output.getD i (.cint 0))))) := by
  simp only [write] at h
  split at h
  · exact Except.noConfusion h
  · next i restJ heq =>
    split at h
    · exact Except.noConfusion h
    · injection h with h
      subst h
      exact ⟨rfl, rfl, rfl, rfl, by simp, i, restJ, heq, rfl, rfl⟩

/-! ### More positional helpers -/

theorem getD_append_self {α : Type} (pre l : List α) (d : α)
    (h : 0 < l.length) : (pre ++ l).getD pre.length d = l.getD 0 d := by
  have := getD_append_first pre l [] d h
  simpa using this

theorem getElem?_append_self {α : Type} (pre l : List α) {a : α}
    (h : l[0]? = some a) : (pre ++ l)[pre.length]? = some a := by
  rw [List.getElem?_append_right (le_refl _), Nat.sub_self]
  exact h

theorem set_append_first {α : Type} (pre l rest : List α) (c : α)
    (h : 0 < l.length) :
    (pre ++ l ++ rest).set pre.length c = pre ++ l.set 0 c ++ rest := by
  have := set_append_mid pre l rest 0 c h
  simpa using this
/-! ### One-step reductions of `rebuildValue` on composite headers -/

set_option maxRecDepth 16000

theorem rebuildValue_arrhdr {L : Nat} (hL : L < 268435456) (g : Nat)
    (st : RbSt CellRd) :
    rebuildValue cellReadNext (g + 1) (.cint (8 * (L : Int) + 1)) st =
      match rebuildUntilF cellReadNext (rebuildValue cellReadNext g) g
          ((L : Int))
          { st with nextId := st.nextId + 1,
                    cache := st.cache ++ [.dref st.nextId] } with
      | .error e => .error e
      | .ok (elems, st2) =>
        .ok (none, { st2 with defs := st2.defs ++ [(st.nextId, .darr elems)] }) := by
  have hhd := header_decomp (L := L) (k := 1) hL (by decide) (by decide)
  simp only [rebuildValue]
  rw [if_neg (show ¬ (8 * (L : Int) + 1) < 0 by push_cast; omega), hhd.1,
    if_neg (show ¬ (1 : Int) = AtomType.AsIs by decide),
    if_pos (show (1 : Int) = AtomType.Array from rfl), hhd.2]
  cases hU : rebuildUntilF cellReadNext (rebuildValue cellReadNext g) g
      ((L : Int))
      { st with nextId := st.nextId + 1,
                cache := st.cache ++ [.dref st.nextId] } with
  | error er => rfl
  | ok pr =>
    obtain ⟨elems2, st2⟩ := pr
    rfl

theorem rebuildValue_objhdr {L : Nat} (hL : L < 268435456) (g : Nat)
    (st : RbSt CellRd) :
    rebuildValue cellReadNext (g + 1) (.cint (8 * (L : Int) + 2)) st =
      match rebuildUntilF cellReadNext (rebuildValue cellReadNext g) g
          ((L : Int))
          { st with nextId := st.nextId + 1,
                    cache := st.cache ++ [.dref st.nextId] } with
      | .error e => .error e
      | .ok (keys, st2) =>
        match readValuesF cellReadNext (rebuildValue cellReadNext g)
            keys.length st2 with
        | .error e => .error e
        | .ok (vals, st3) =>
          .ok (none, { st3 with defs := st3.defs ++ [(st.nextId,
            .dobj ((keys.zip vals).foldl
              (fun acc kv => objSet acc (jsPropKey kv.1) kv.2) []))] }) := by
  have hhd := header_decomp (L := L) (k := 2) hL (by decide) (by decide)
  simp only [rebuildValue]
  rw [if_neg (show ¬ (8 * (L : Int) + 2) < 0 by push_cast; omega), hhd.1,
    if_neg (show ¬ (2 : Int) = AtomType.AsIs by decide),
    if_neg (show ¬ (2 : Int) = AtomType.Array by decide),
    if_pos (show (2 : Int) = AtomType.Object from rfl), hhd.2]
  cases hU : rebuildUntilF cellReadNext (rebuildValue cellReadNext g) g
      ((L : Int))
      { st with nextId := st.nextId + 1,
                cache := st.cache ++ [.dref st.nextId] } with
  | error er => rfl
  | ok pr =>
    obtain ⟨keys2, st2⟩ := pr
    dsimp only
    cases hV : readValuesF cellReadNext (rebuildValue cellReadNext g)
        keys2.length st2 with
    | error er => rfl
    | ok pr2 =>
      obtain ⟨vals2, st3⟩ := pr2
      rfl

theorem rebuildValue_maphdr {L : Nat} (hL : L < 268435456) (g : Nat)
    (st : RbSt CellRd) :
    rebuildValue cellReadNext (g + 1) (.cint (8 * (L : Int) + 3)) st =
      match rebuildUntilF cellReadNext (rebuildValue cellReadNext g) g
          ((L : Int))
          { st with nextId := st.nextId + 1,
                    cache := st.cache ++ [.dref st.nextId] } with
      | .error e => .error e
      | .ok (keys, st2) =>
        match readValuesF cellReadNext (rebuildValue cellReadNext g)
            keys.length st2 with
        | .error e => .error e
        | .ok (vals, st3) =>
          .ok (none, { st3 with defs := st3.defs ++ [(st.nextId,
            .dmap ((keys.zip vals).foldl
              (fun acc kv => mapSet acc kv.1 kv.2) []))] }) := by
  have hhd := header_decomp (L := L) (k := 3) hL (by decide) (by decide)
  simp only [rebuildValue]
  rw [if_neg (show ¬ (8 * (L : Int) + 3) < 0 by push_cast; omega), hhd.1,
    if_neg (show ¬ (3 : Int) = AtomType.AsIs by decide),
    if_neg (show ¬ (3 : Int) = AtomType.Array by decide),
    if_neg (show ¬ (3 : Int) = AtomType.Object by decide),
    if_pos (show (3 : Int) = AtomType.Map from rfl), hhd.2]
  cases hU : rebuildUntilF cellReadNext (rebuildValue cellReadNext g) g
      ((L : Int))
      { st with nextId := st.nextId + 1,
                cache := st.cache ++ [.dref st.nextId] } with
  | error er => rfl
  | ok pr =>
    obtain ⟨keys2, st2⟩ := pr
    dsimp only
    cases hV : readValuesF cellReadNext (rebuildValue cellReadNext g)
        keys2.length st2 with
    | error er => rfl
    | ok pr2 =>
      obtain ⟨vals2, st3⟩ := pr2
      rfl

theorem rebuildValue_sethdr {L : Nat} (hL : L < 268435456) (g : Nat)
    (st : RbSt CellRd) :
    rebuildValue cellReadNext (g + 1) (.cint (8 * (L : Int) + 4)) st =
      match rebuildUntilF cellReadNext (rebuildValue cellReadNext g) g
          ((L : Int))
          { st with nextId := st.nextId + 1,
                    cache := st.cache ++ [.dref st.nextId] } with
      | .error e => .error e
      | .ok (values, st2) =>
        .ok (none, { st2 with defs := st2.defs ++ [(st.nextId,
          .dset (values.foldl setAdd []))] }) := by
  have hhd := header_decomp (L := L) (k := 4) hL (by decide) (by decide)
  simp only [rebuildValue]
  rw [if_neg (show ¬ (8 * (L : Int) + 4) < 0 by push_cast; omega), hhd.1,
    if_neg (show ¬ (4 : Int) = AtomType.AsIs by decide),
    if_neg (show ¬ (4 : Int) = AtomType.Array by decide),
    if_neg (show ¬ (4 : Int) = AtomType.Object by decide),
    if_neg (show ¬ (4 : Int) = AtomType.Map by decide),
    if_pos (show (4 : Int) = AtomType.Set from rfl), hhd.2]
  cases hU : rebuildUntilF cellReadNext (rebuildValue cellReadNext g) g
      ((L : Int))
      { st with nextId := st.nextId + 1,
                cache := st.cache ++ [.dref st.nextId] } with
  | error er => rfl
  | ok pr =>
    obtain ⟨values2, st2⟩ := pr
    rfl
/-! ### Scalar frames -/

/-- The common conclusion shape of `ChildSimP` / `ValSimP`. -/
abbrev FrameConcl (H : Heap) (v : JSVal) (e e' : AtSt) (opens : List Nat)
    (C : List DVal) (D : List (Nat × DNode)) (m : Nat) : Prop :=
  ∃ Δ newRefs,
    e'.output = e.output ++ Δ ∧ Δ ≠ [] ∧
    e'.refs = e.refs ++ newRefs ∧
    e'.jumps = e.jumps ∧ e'.activeVal = e.activeVal ∧
    e'.activeIndex = e.activeIndex ∧
    DecConcl H e'.refs v Δ e'.atomIndex e'.output.length opens C D m

theorem dvalOfCell_num (n : JSNumber) :
    dvalOfCell (cellOfNum n) = .prim (.pnum n) := by
  cases n <;> rfl

theorem valSim_scalar {H : Heap} {fuel : Nat} {p : Prim} {c : Cell} {cb : Bool}
    (hplanEq : plan defaultCfg H (.prim p) = ([.raw c], cb))
    (hdec : ∀ (g : Nat) (st : RbSt CellRd),
      rebuildValue cellReadNext (g + 1) c st = .ok (some (.prim p), st))
    (hkey : cb = true →
      (∃ s, keyOf (JSVal.prim p) = .kstr s ∧ DVal.prim p = DVal.prim (.pstr s)) ∨
      (∃ n, keyOf (JSVal.prim p) = .knum n ∧ DVal.prim p = DVal.prim (.pnum n)))
    {e e' : AtSt} {C : List DVal} {D : List (Nat × DNode)} {m : Nat}
    {opens : List Nat}
    (hrun : atomizeValue defaultCfg H (fuel + 1) (.prim p) e = .ok e')
    (hInv : Inv H e.refs C D m opens)
    (hAtom : (C.length : Int) = e.atomIndex)
    (hLen : C.length ≤ e.output.length)
    (hB : e'.output.length ≤ 67108864)
    (hNotReg : refsGet e.refs (keyOf (.prim p)) = none) :
    FrameConcl H (.prim p) e e' opens C D m := by
  rw [atomizeValue_succ_eq, hplanEq] at hrun
  dsimp only at hrun
  rw [runCmds_cons_ok [] (write_raw (atomizeValue defaultCfg H fuel) c _),
    runCmds_nil] at hrun
  dsimp only at hrun
  have hge : (AtSt.mk (e.output ++ [c]) e.refs e.jumps e.atomIndex e.atomIndex
      (keyOf (.prim p))).activeIndex ≥ 0 := by
    show e.atomIndex ≥ 0
    omega
  have hneq : (AtSt.mk (e.output ++ [c]) e.refs e.jumps e.atomIndex e.atomIndex
      (keyOf (.prim p))).output.length ≠ e.output.length := by
    show (e.output ++ [c]).length ≠ e.output.length
    simp
  cases cb with
  | false =>
    rw [closeFrame_false_nonneg hge hneq] at hrun
    injection hrun with hrun
    subst hrun
    refine ⟨[c], [], rfl, by simp, by simp, rfl, rfl, rfl,
      some (.prim p), .prim p, [], [.prim p], [], m,
      by intro rd dfs nid; simp [pushWrap],
      List.getElem?_concat_length C _, by simp, le_refl m, ?_, ?_, ?_, ?_, ?_⟩
    · show ((C ++ [DVal.prim p]).length : Int) = e.atomIndex + 1
      simp only [List.length_append, List.length_cons, List.length_nil]
      push_cast
      omega
    · show (C ++ [DVal.prim p]).length ≤ (e.output ++ [c]).length
      simp only [List.length_append, List.length_cons, List.length_nil]
      omega
    · simp only [valTrans]
    · show Inv H e.refs (C ++ [DVal.prim p]) (D ++ []) m opens
      simpa using Inv_extend_cache [DVal.prim p] hInv
    · intro pre rest hplen
      refine ⟨1, ?_⟩
      intro g hg1
      cases g with
      | zero => exact absurd hg1 (by omega)
      | succ g =>
        rw [show ([c].getD 0 .cundef) = c from rfl, hdec g]
        simp
  | true =>
    rw [closeFrame_true_nonneg hge hneq] at hrun
    injection hrun with hrun
    subst hrun
    have hBe : e.output.length + 1 ≤ 67108864 := by simpa using hB
    have hnot : jsNot e.atomIndex = -((C.length : Int) + 1) := by
      rw [← hAtom, jsNot_eq (by omega) (by omega)]
    have hrefs : refsSet e.refs (keyOf (JSVal.prim p)) (jsNot e.atomIndex) =
        e.refs ++ [(keyOf (JSVal.prim p), -((C.length : Int) + 1))] := by
      rw [refsSet_not_mem _ hNotReg, hnot]
    refine ⟨[c], [(keyOf (JSVal.prim p), -((C.length : Int) + 1))], rfl,
      by simp, ?_, rfl, rfl, rfl,
      some (.prim p), .prim p, [], [.prim p], [], m,
      by intro rd dfs nid; simp [pushWrap],
      List.getElem?_concat_length C _, by simp, le_refl m, ?_, ?_, ?_, ?_, ?_⟩
    · show refsSet e.refs (keyOf (JSVal.prim p)) (jsNot e.atomIndex) = _
      rw [hrefs]
    · show ((C ++ [DVal.prim p]).length : Int) = e.atomIndex + 1
      simp only [List.length_append, List.length_cons, List.length_nil]
      push_cast
      omega
    · show (C ++ [DVal.prim p]).length ≤ (e.output ++ [c]).length
      simp only [List.length_append, List.length_cons, List.length_nil]
      omega
    · simp only [valTrans]
    · show Inv H (refsSet e.refs (keyOf (JSVal.prim p)) (jsNot e.atomIndex))
        (C ++ [DVal.prim p]) (D ++ []) m opens
      rw [hrefs]
      have hreg := Inv_register_prim hInv hNotReg
        (show (C.length : Int) + 1 ≤ 2147483648 by omega) (hkey rfl)
      simpa using hreg
    · intro pre rest hplen
      refine ⟨1, ?_⟩
      intro g hg1
      cases g with
      | zero => exact absurd hg1 (by omega)
      | succ g =>
        rw [show ([c].getD 0 .cundef) = c from rfl, hdec g]
        simp

theorem valSim_int {H : Heap} {fuel : Nat} {n : JSNumber}
    (hn : n.isInt = true)
    {e e' : AtSt} {C : List DVal} {D : List (Nat × DNode)} {m : Nat}
    {opens : List Nat}
    (hrun : atomizeValue defaultCfg H (fuel + 1) (.prim (.pnum n)) e = .ok e')
    (hInv : Inv H e.refs C D m opens)
    (hAtom : (C.length : Int) = e.atomIndex)
    (hLen : C.length ≤ e.output.length)
    (hB : e'.output.length ≤ 67108864)
    (hNotReg : refsGet e.refs (keyOf (.prim (.pnum n))) = none) :
    FrameConcl H (.prim (.pnum n)) e e' opens C D m := by
  have hplanEq : plan defaultCfg H (.prim (.pnum n)) = ([.asIs n], true) := by
    simp [plan, encodeNumber, hn]
  rw [atomizeValue_succ_eq, hplanEq] at hrun
  dsimp only at hrun
  rw [runCmds_cons_ok []
      (write_asIs_int (atomizeValue defaultCfg H fuel) hn _),
    runCmds_nil] at hrun
  dsimp only at hrun
  have hge : (AtSt.mk (e.output ++ [.cint AtomType.AsIs, cellOfNum n]) e.refs
      e.jumps e.atomIndex e.atomIndex (keyOf (.prim (.pnum n)))).activeIndex ≥ 0 := by
    show e.atomIndex ≥ 0
    omega
  have hneq : (AtSt.mk (e.output ++ [.cint AtomType.AsIs, cellOfNum n]) e.refs
      e.jumps e.atomIndex e.atomIndex
      (keyOf (.prim (.pnum n)))).output.length ≠ e.output.length := by
    show (e.output ++ [.cint AtomType.AsIs, cellOfNum n]).length ≠ e.output.length
    simp
  rw [closeFrame_true_nonneg hge hneq] at hrun
  injection hrun with hrun
  subst hrun
  have hBe : e.output.length + 2 ≤ 67108864 := by simpa using hB
  have hnot : jsNot e.atomIndex = -((C.length : Int) + 1) := by
    rw [← hAtom, jsNot_eq (by omega) (by omega)]
  have hrefs : refsSet e.refs (keyOf (JSVal.prim (.pnum n))) (jsNot e.atomIndex) =
      e.refs ++ [(keyOf (JSVal.prim (.pnum n)), -((C.length : Int) + 1))] := by
    rw [refsSet_not_mem _ hNotReg, hnot]
  refine ⟨[.cint AtomType.AsIs, cellOfNum n],
    [(keyOf (JSVal.prim (.pnum n)), -((C.length : Int) + 1))], rfl,
    by simp, ?_, rfl, rfl, rfl,
    some (.prim (.pnum n)), .prim (.pnum n), [], [.prim (.pnum n)], [], m,
    by intro rd dfs nid; simp [pushWrap],
    List.getElem?_concat_length C _, by simp, le_refl m, ?_, ?_, ?_, ?_, ?_⟩
  · show refsSet e.refs (keyOf (JSVal.prim (.pnum n))) (jsNot e.atomIndex) = _
    rw [hrefs]
  · show ((C ++ [DVal.prim (.pnum n)]).length : Int) = e.atomIndex + 1
    simp only [List.length_append, List.length_cons, List.length_nil]
    push_cast
    omega
  · show (C ++ [DVal.prim (.pnum n)]).length ≤
      (e.output ++ [.cint AtomType.AsIs, cellOfNum n]).length
    simp only [List.length_append, List.length_cons, List.length_nil]
    omega
  · simp only [valTrans]
  · show Inv H (refsSet e.refs (keyOf (JSVal.prim (.pnum n))) (jsNot e.atomIndex))
      (C ++ [DVal.prim (.pnum n)]) (D ++ []) m opens
    rw [hrefs]
    have hreg := Inv_register_prim hInv hNotReg
      (show (C.length : Int) + 1 ≤ 2147483648 by omega) (Or.inr ⟨n, rfl, rfl⟩)
    simpa using hreg
  · intro pre rest hplen
    refine ⟨1, ?_⟩
    intro g hg1
    cases g with
    | zero => exact absurd hg1 (by omega)
    | succ g =>
      rw [show (([Cell.cint AtomType.AsIs, cellOfNum n]).getD 0 .cundef) =
        .cint AtomType.AsIs from rfl]
      simp only [rebuildValue]
      rw [if_neg (show ¬ AtomType.AsIs < 0 by decide),
        if_pos (show jsAnd AtomType.AsIs 7 = AtomType.AsIs by decide)]
      rw [cellReadNext_none_read (by
        simp only [List.length_append, List.length_cons, List.length_nil]
        omega)]
      dsimp only
      rw [getD_append_mid pre _ rest 1 _ (by simp)]
      rw [show (([Cell.cint AtomType.AsIs, cellOfNum n]).getD 1 .cundef) =
        cellOfNum n from rfl, dvalOfCell_num]
      simp
/-! ### Array frames -/

set_option maxRecDepth 16000

theorem valSim_arr {H : Heap} {fuel : Nat} (hsc : SegChP H fuel)
    {id : Nat} {elems : List JSVal}
    (hH : H.getD id (.harr []) = .harr elems)
    {e e' : AtSt} {C : List DVal} {D : List (Nat × DNode)} {m : Nat}
    {opens : List Nat}
    (hrun : atomizeValue defaultCfg H (fuel + 1) (.ref id) e = .ok e')
    (hWF : WFHeap H)
    (hInv : Inv H e.refs C D m opens)
    (hAtom : (C.length : Int) = e.atomIndex)
    (hLen : C.length ≤ e.output.length)
    (hB : e'.output.length ≤ 67108864)
    (hNotReg : refsGet e.refs (keyOf (.ref id)) = none) :
    FrameConcl H (.ref id) e e' opens C D m := by
  simp only [keyOf] at hNotReg
  rw [atomizeValue_succ_eq] at hrun
  rw [show plan defaultCfg H (.ref id) = encodeArray elems by
    simp only [plan]
    rw [hH]] at hrun
  simp only [encodeArray, keyOf] at hrun
  simp only [List.cons_append, List.nil_append] at hrun
  have hwA : write (atomizeValue defaultCfg H fuel) .allowSelf
      (AtSt.mk e.output e.refs e.jumps e.atomIndex e.atomIndex (.kref id)) =
      .ok (AtSt.mk e.output (refsSet e.refs (.kref id) (jsNot e.atomIndex))
        e.jumps e.atomIndex (jsNot e.atomIndex) .kRAW) := by
    rw [write_allowSelf_active _ (show RKey.kref id ≠ .kRAW by simp)
      (show e.atomIndex ≥ 0 by omega)]
  have hwB : write (atomizeValue defaultCfg H fuel) (.pushJump AtomType.Array)
      (AtSt.mk e.output (refsSet e.refs (.kref id) (jsNot e.atomIndex))
        e.jumps e.atomIndex (jsNot e.atomIndex) .kRAW) =
      .ok (AtSt.mk (e.output ++ [.cint AtomType.Array])
        (refsSet e.refs (.kref id) (jsNot e.atomIndex))
        (e.output.length :: e.jumps) e.atomIndex (jsNot e.atomIndex) .kRAW) := by
    rw [write_pushJump]
  rw [runCmds_cons_ok _ hwA, runCmds_cons_ok _ hwB, runCmds_append] at hrun
  cases hseg : runCmds (write (atomizeValue defaultCfg H fuel))
      (List.map WCmd.child elems)
      (AtSt.mk (e.output ++ [.cint AtomType.Array])
        (refsSet e.refs (.kref id) (jsNot e.atomIndex))
        (e.output.length :: e.jumps) e.atomIndex (jsNot e.atomIndex) .kRAW) with
  | error er =>
    rw [hseg] at hrun
    dsimp only at hrun
    exact Except.noConfusion hrun
  | ok stC =>
    rw [hseg] at hrun
    dsimp only at hrun
    simp only [runCmds] at hrun
    cases hwp : write (atomizeValue defaultCfg H fuel) .popJump stC with
    | error er =>
      rw [hwp] at hrun
      dsimp only at hrun
      exact Except.noConfusion hrun
    | ok stD =>
      rw [hwp] at hrun
      dsimp only at hrun
      obtain ⟨hrefsD, hatomD, haiD, havD, hlenD, i, restJ, hjC, hjD, houtD⟩ :=
        popJump_inv hwp
      have hEout : e'.output = stD.output := closeFrame_ok_output hrun
      have hmonoBC : e.output.length + 1 ≤ stC.output.length := by
        have := runCmds_len_mono
          (fun c s s' hc =>
            write_len_mono (atomizeValue_len_mono defaultCfg H fuel) c s s' hc)
          _ _ _ hseg
        simpa using this
      have hBC : stC.output.length ≤ 67108864 := by
        have h1 : e'.output.length = stD.output.length := by rw [hEout]
        omega
      have hnot : jsNot e.atomIndex = -((C.length : Int) + 1) := by
        rw [← hAtom, jsNot_eq (by omega) (by omega)]
      have hrefsB : refsSet e.refs (RKey.kref id) (jsNot e.atomIndex) =
          e.refs ++ [(RKey.kref id, -((C.length : Int) + 1))] := by
        rw [refsSet_not_mem _ hNotReg, hnot]
      obtain ⟨Δc, nRs, hoC, hrC, hjCc, havC, haiC, hsegc⟩ :=
        hsc elems _ stC (C ++ [.dref m]) D (m + 1) (id :: opens) hseg hWF
          (by
            show Inv H (refsSet e.refs (RKey.kref id) (jsNot e.atomIndex)) _ _ _ _
            rw [hrefsB]
            exact Inv_register_node hInv hNotReg (by omega))
          (by
            show ((C ++ [DVal.dref m]).length : Int) = e.atomIndex + 1
            simp only [List.length_append, List.length_cons, List.length_nil]
            push_cast
            omega)
          (by
            show (C ++ [DVal.dref m]).length ≤ (e.output ++ [Cell.cint AtomType.Array]).length
            simp only [List.length_append, List.length_cons, List.length_nil]
            omega)
          hBC
          (by
            show jsNot e.atomIndex < 0
            rw [hnot]
            omega)
      obtain ⟨dvs, Γs, Δds, ms, hΔds, hms, hlockS, hclenS, hfaS, hInvS, hΔsS,
        hrunS⟩ := hsegc
      have hjBC : stC.jumps = e.output.length :: e.jumps := hjCc
      rw [hjBC] at hjC
      obtain ⟨hi, hrest⟩ := List.cons.inj hjC.symm
      subst hi
      subst hrest
      have hoC2 : stC.output = e.output ++ [Cell.cint AtomType.Array] ++ Δc := hoC
      have hgetD : stC.output.getD e.output.length (.cint 0) =
          .cint AtomType.Array := by
        rw [hoC2, getD_append_first e.output [Cell.cint AtomType.Array] Δc _
          (by simp)]
        rfl
      have hU28 : stC.output.length < 268435456 := by omega
      have hcomb : jsOr (jsShl (Int.ofNat stC.output.length) 3)
          (cellToInt (stC.output.getD e.output.length (.cint 0))) =
          8 * (stC.output.length : Int) + 1 := by
        rw [hgetD]
        rw [show cellToInt (Cell.cint AtomType.Array) = AtomType.Array from rfl]
        rw [jsOr_header hU28 (by decide) (by decide)]
        rfl
      have houtD2 : stD.output =
          e.output ++ [Cell.cint (8 * (stC.output.length : Int) + 1)] ++ Δc := by
        rw [houtD, hcomb, hoC2, set_append_first _ _ _ _ (by simp)]
        rfl
      have haiD0 : stD.activeIndex < 0 := by
        rw [haiD, haiC]
        show jsNot e.atomIndex < 0
        rw [hnot]
        omega
      have hlne : stD.output.length ≠ e.output.length := by
        rw [houtD2]
        simp only [List.length_append, List.length_cons, List.length_nil]
        omega
      rw [closeFrame_true_neg haiD0 hlne] at hrun
      injection hrun with hrun
      subst hrun
      have hECl : stD.output.length = stC.output.length := hlenD
      have hΔclen : stC.output.length = e.output.length + 1 + Δc.length := by
        rw [hoC2]
        simp only [List.length_append, List.length_cons, List.length_nil]
      have hrefsC : stC.refs = e.refs ++
          ([(RKey.kref id, -((C.length : Int) + 1))] ++ nRs) := by
        rw [hrC]
        show refsSet e.refs (RKey.kref id) (jsNot e.atomIndex) ++ nRs = _
        rw [hrefsB, List.append_assoc]
      have hreg : regId stC.refs ((C ++ [DVal.dref m]) ++ Γs) id = some m := by
        rw [hrefsC, ← List.append_assoc]
        exact regId_extend nRs Γs (regId_snoc_self m hNotReg)
      refine ⟨[Cell.cint (8 * (stC.output.length : Int) + 1)] ++ Δc,
        [(RKey.kref id, -((C.length : Int) + 1))] ++ nRs, ?_, by simp, ?_, ?_,
        rfl, rfl,
        none, .dref m, [.dref m] ++ Γs, [.dref m] ++ Γs,
        Δds ++ [(m, .darr dvs)], ms, ?_, ?_, ?_, ?_, ?_, ?_, ?_, ?_, ?_⟩
      · show stD.output = e.output ++ ([Cell.cint (8 * (stC.output.length : Int) + 1)] ++ Δc)
        rw [houtD2, List.append_assoc]
      · show stD.refs = e.refs ++ ([(RKey.kref id, -((C.length : Int) + 1))] ++ nRs)
        rw [hrefsD, hrefsC]
      · show stD.jumps = e.jumps
        exact hjD
      · intro rd dfs nid
        simp only [pushWrap]
        rw [getD_append_self C _ _ (by simp)]
        rfl
      · exact getElem?_append_self C _ (by simp)
      · intro en hen
        rcases List.mem_append.mp hen with h1 | h2
        · have := hΔds en h1
          omega
        · simp only [List.mem_singleton] at h2
          subst h2
          exact le_refl m
      · omega
      · show ((C ++ ([DVal.dref m] ++ Γs)).length : Int) = stD.atomIndex + 1
        rw [← List.append_assoc, hatomD]
        exact hlockS
      · show (C ++ ([DVal.dref m] ++ Γs)).length ≤ stD.output.length
        rw [← List.append_assoc]
        omega
      · refine ⟨m, ?_, rfl⟩
        show regId stD.refs (C ++ ([DVal.dref m] ++ Γs)) id = some m
        rw [hrefsD, ← List.append_assoc C]
        exact hreg
      · show Inv H stD.refs (C ++ ([DVal.dref m] ++ Γs))
          (D ++ (Δds ++ [(m, DNode.darr dvs)])) ms opens
        rw [hrefsD, ← List.append_assoc C, ← List.append_assoc D]
        refine Inv_close_node hInvS hreg ?_ ?_
        · intro hmem
          rcases List.mem_map.mp hmem with ⟨en, hen, hfst⟩
          rcases List.mem_append.mp hen with h1 | h2
          · have := hInv.defsLt en h1
            omega
          · have := hΔds en h2
            omega
        · rw [hH]
          show List.Forall₂ _ elems dvs
          exact hfaS
      · intro pre rest hplen
        simp only [List.length_append, List.length_cons, List.length_nil]
          at hplen
        have hplen2 : pre.length = e.output.length := by
          have h1 : ({ stD with activeVal := e.activeVal, activeIndex := e.activeIndex } : AtSt).output.length = stD.output.length := rfl
          omega
        obtain ⟨g0s, hGs⟩ := hrunS
          (pre ++ [Cell.cint (8 * (stC.output.length : Int) + 1)]) rest
          (by
            simp only [List.length_append, List.length_cons, List.length_nil]
            omega)
        have hS : pre ++ [Cell.cint (8 * (stC.output.length : Int) + 1)] ++ Δc
            ++ rest =
            pre ++ ([Cell.cint (8 * (stC.output.length : Int) + 1)] ++ Δc)
            ++ rest := by
          simp [List.append_assoc]
        rw [hS] at hGs
        rw [show (pre ++ [Cell.cint (8 * (stC.output.length : Int) + 1)]).length
          = pre.length + 1 by simp] at hGs
        have huntil : (Int.ofNat (pre.length + 1 + Δc.length)) =
            ((stC.output.length : Int)) := by
          simp only [Int.ofNat_eq_coe]
          push_cast
          omega
        rw [huntil] at hGs
        refine ⟨g0s + 1, ?_⟩
        intro g hg
        cases g with
        | zero => exact absurd hg (by omega)
        | succ g =>
          rw [show (([Cell.cint (8 * (stC.output.length : Int) + 1)] ++ Δc).getD
            0 .cundef) = .cint (8 * (stC.output.length : Int) + 1) from rfl]
          rw [rebuildValue_arrhdr hU28 g]
          dsimp only
          rw [hGs g g (by omega) (by omega)]
          dsimp only
          refine congrArg _ ?_
          refine congrArg _ ?_
          show (⟨⟨_, pre.length + 1 + Δc.length⟩, (C ++ [DVal.dref m]) ++ Γs,
            (D ++ Δds) ++ [(m, DNode.darr dvs)], ms⟩ : RbSt CellRd) = _
          simp only [List.append_assoc, List.length_append, List.length_cons,
            List.length_nil]
          rw [show pre.length + 1 + Δc.length = pre.length + (1 + Δc.length)
            from by omega]
/-! ### Set frames -/

theorem getD_mem_of_ne {H : Heap} {id : Nat} {n : HNode}
    (hget : H.getD id (.harr []) = n) (hne : n ≠ .harr []) : n ∈ H := by
  by_cases hid : id < H.length
  · rw [List.getD_eq_getElem?_getD, List.getElem?_eq_getElem hid] at hget
    simp only [Option.getD_some] at hget
    rw [← hget]
    exact List.getElem_mem hid
  · rw [List.getD_eq_getElem?_getD, List.getElem?_eq_none (by omega)] at hget
    simp only [Option.getD_none] at hget
    exact absurd hget.symm hne

theorem valSim_set {H : Heap} {fuel : Nat} (hsc : SegChP H fuel)
    {id : Nat} {elems : List JSVal}
    (hH : H.getD id (.harr []) = .hset elems)
    {e e' : AtSt} {C : List DVal} {D : List (Nat × DNode)} {m : Nat}
    {opens : List Nat}
    (hrun : atomizeValue defaultCfg H (fuel + 1) (.ref id) e = .ok e')
    (hWF : WFHeap H)
    (hInv : Inv H e.refs C D m opens)
    (hAtom : (C.length : Int) = e.atomIndex)
    (hLen : C.length ≤ e.output.length)
    (hB : e'.output.length ≤ 67108864)
    (hNotReg : refsGet e.refs (keyOf (.ref id)) = none) :
    FrameConcl H (.ref id) e e' opens C D m := by
  simp only [keyOf] at hNotReg
  rw [atomizeValue_succ_eq] at hrun
  rw [show plan defaultCfg H (.ref id) = encodeSet elems by
    simp only [plan]
    rw [hH]] at hrun
  simp only [encodeSet, keyOf] at hrun
  simp only [List.cons_append, List.nil_append] at hrun
  have hwA : write (atomizeValue defaultCfg H fuel) .allowSelf
      (AtSt.mk e.output e.refs e.jumps e.atomIndex e.atomIndex (.kref id)) =
      .ok (AtSt.mk e.output (refsSet e.refs (.kref id) (jsNot e.atomIndex))
        e.jumps e.atomIndex (jsNot e.atomIndex) .kRAW) := by
    rw [write_allowSelf_active _ (show RKey.kref id ≠ .kRAW by simp)
      (show e.atomIndex ≥ 0 by omega)]
  have hwB : write (atomizeValue defaultCfg H fuel) (.pushJump AtomType.Set)
      (AtSt.mk e.output (refsSet e.refs (.kref id) (jsNot e.atomIndex))
        e.jumps e.atomIndex (jsNot e.atomIndex) .kRAW) =
      .ok (AtSt.mk (e.output ++ [.cint AtomType.Set])
        (refsSet e.refs (.kref id) (jsNot e.atomIndex))
        (e.output.length :: e.jumps) e.atomIndex (jsNot e.atomIndex) .kRAW) := by
    rw [write_pushJump]
  rw [runCmds_cons_ok _ hwA, runCmds_cons_ok _ hwB, runCmds_append] at hrun
  cases hseg : runCmds (write (atomizeValue defaultCfg H fuel))
      (List.map WCmd.child elems)
      (AtSt.mk (e.output ++ [.cint AtomType.Set])
        (refsSet e.refs (.kref id) (jsNot e.atomIndex))
        (e.output.length :: e.jumps) e.atomIndex (jsNot e.atomIndex) .kRAW) with
  | error er =>
    rw [hseg] at hrun
    dsimp only at hrun
    exact Except.noConfusion hrun
  | ok stC =>
    rw [hseg] at hrun
    dsimp only at hrun
    simp only [runCmds] at hrun
    cases hwp : write (atomizeValue defaultCfg H fuel) .popJump stC with
    | error er =>
      rw [hwp] at hrun
      dsimp only at hrun
      exact Except.noConfusion hrun
    | ok stD =>
      rw [hwp] at hrun
      dsimp only at hrun
      obtain ⟨hrefsD, hatomD, haiD, havD, hlenD, i, restJ, hjC, hjD, houtD⟩ :=
        popJump_inv hwp
      have hEout : e'.output = stD.output := closeFrame_ok_output hrun
      have hmonoBC : e.output.length + 1 ≤ stC.output.length := by
        have := runCmds_len_mono
          (fun c s s' hc =>
            write_len_mono (atomizeValue_len_mono defaultCfg H fuel) c s s' hc)
          _ _ _ hseg
        simpa using this
      have hBC : stC.output.length ≤ 67108864 := by
        have h1 : e'.output.length = stD.output.length := by rw [hEout]
        omega
      have hnot : jsNot e.atomIndex = -((C.length : Int) + 1) := by
        rw [← hAtom, jsNot_eq (by omega) (by omega)]
      have hrefsB : refsSet e.refs (RKey.kref id) (jsNot e.atomIndex) =
          e.refs ++ [(RKey.kref id, -((C.length : Int) + 1))] := by
        rw [refsSet_not_mem _ hNotReg, hnot]
      obtain ⟨Δc, nRs, hoC, hrC, hjCc, havC, haiC, hsegc⟩ :=
        hsc elems _ stC (C ++ [.dref m]) D (m + 1) (id :: opens) hseg hWF
          (by
            show Inv H (refsSet e.refs (RKey.kref id) (jsNot e.atomIndex)) _ _ _ _
            rw [hrefsB]
            exact Inv_register_node hInv hNotReg (by omega))
          (by
            show ((C ++ [DVal.dref m]).length : Int) = e.atomIndex + 1
            simp only [List.length_append, List.length_cons, List.length_nil]
            push_cast
            omega)
          (by
            show (C ++ [DVal.dref m]).length ≤ (e.output ++ [Cell.cint AtomType.Set]).length
            simp only [List.length_append, List.length_cons, List.length_nil]
            omega)
          hBC
          (by
            show jsNot e.atomIndex < 0
            rw [hnot]
            omega)
      obtain ⟨dvs, Γs, Δds, ms, hΔds, hms, hlockS, hclenS, hfaS, hInvS, hΔsS,
        hrunS⟩ := hsegc
      have hjBC : stC.jumps = e.output.length :: e.jumps := hjCc
      rw [hjBC] at hjC
      obtain ⟨hi, hrest⟩ := List.cons.inj hjC.symm
      subst hi
      subst hrest
      have hoC2 : stC.output = e.output ++ [Cell.cint AtomType.Set] ++ Δc := hoC
      have hgetD : stC.output.getD e.output.length (.cint 0) =
          .cint AtomType.Set := by
        rw [hoC2, getD_append_first e.output [Cell.cint AtomType.Set] Δc _
          (by simp)]
        rfl
      have hU28 : stC.output.length < 268435456 := by omega
      have hcomb : jsOr (jsShl (Int.ofNat stC.output.length) 3)
          (cellToInt (stC.output.getD e.output.length (.cint 0))) =
          8 * (stC.output.length : Int) + 4 := by
        rw [hgetD]
        rw [show cellToInt (Cell.cint AtomType.Set) = AtomType.Set from rfl]
        rw [jsOr_header hU28 (by decide) (by decide)]
        rfl
      have houtD2 : stD.output =
          e.output ++ [Cell.cint (8 * (stC.output.length : Int) + 4)] ++ Δc := by
        rw [houtD, hcomb, hoC2, set_append_first _ _ _ _ (by simp)]
        rfl
      have haiD0 : stD.activeIndex < 0 := by
        rw [haiD, haiC]
        show jsNot e.atomIndex < 0
        rw [hnot]
        omega
      have hlne : stD.output.length ≠ e.output.length := by
        rw [houtD2]
        simp only [List.length_append, List.length_cons, List.length_nil]
        omega
      rw [closeFrame_true_neg haiD0 hlne] at hrun
      injection hrun with hrun
      subst hrun
      have hECl : stD.output.length = stC.output.length := hlenD
      have hΔclen : stC.output.length = e.output.length + 1 + Δc.length := by
        rw [hoC2]
        simp only [List.length_append, List.length_cons, List.length_nil]
      have hsetmem : HNode.hset elems ∈ H := getD_mem_of_ne hH (by simp)
      have hnodupD : dvs.Nodup :=
        forall2_keyOf_nodup hInvS.inj hfaS (hWF.2 _ hsetmem)
      have hfold : dvs.foldl setAdd [] = dvs := by
        have := setFold_eq dvs [] (by simpa using hnodupD)
        simpa using this
      have hrefsC : stC.refs = e.refs ++
          ([(RKey.kref id, -((C.length : Int) + 1))] ++ nRs) := by
        rw [hrC]
        show refsSet e.refs (RKey.kref id) (jsNot e.atomIndex) ++ nRs = _
        rw [hrefsB, List.append_assoc]
      have hreg : regId stC.refs ((C ++ [DVal.dref m]) ++ Γs) id = some m := by
        rw [hrefsC, ← List.append_assoc]
        exact regId_extend nRs Γs (regId_snoc_self m hNotReg)
      refine ⟨[Cell.cint (8 * (stC.output.length : Int) + 4)] ++ Δc,
        [(RKey.kref id, -((C.length : Int) + 1))] ++ nRs, ?_, by simp, ?_, ?_,
        rfl, rfl,
        none, .dref m, [.dref m] ++ Γs, [.dref m] ++ Γs,
        Δds ++ [(m, .dset dvs)], ms, ?_, ?_, ?_, ?_, ?_, ?_, ?_, ?_, ?_⟩
      · show stD.output = e.output ++ ([Cell.cint (8 * (stC.output.length : Int) + 4)] ++ Δc)
        rw [houtD2, List.append_assoc]
      · show stD.refs = e.refs ++ ([(RKey.kref id, -((C.length : Int) + 1))] ++ nRs)
        rw [hrefsD, hrefsC]
      · show stD.jumps = e.jumps
        exact hjD
      · intro rd dfs nid
        simp only [pushWrap]
        rw [getD_append_self C _ _ (by simp)]
        rfl
      · exact getElem?_append_self C _ (by simp)
      · intro en hen
        rcases List.mem_append.mp hen with h1 | h2
        · have := hΔds en h1
          omega
        · simp only [List.mem_singleton] at h2
          subst h2
          exact le_refl m
      · omega
      · show ((C ++ ([DVal.dref m] ++ Γs)).length : Int) = stD.atomIndex + 1
        rw [← List.append_assoc, hatomD]
        exact hlockS
      · show (C ++ ([DVal.dref m] ++ Γs)).length ≤ stD.output.length
        rw [← List.append_assoc]
        omega
      · refine ⟨m, ?_, rfl⟩
        show regId stD.refs (C ++ ([DVal.dref m] ++ Γs)) id = some m
        rw [hrefsD, ← List.append_assoc C]
        exact hreg
      · show Inv H stD.refs (C ++ ([DVal.dref m] ++ Γs))
          (D ++ (Δds ++ [(m, DNode.dset dvs)])) ms opens
        rw [hrefsD, ← List.append_assoc C, ← List.append_assoc D]
        refine Inv_close_node hInvS hreg ?_ ?_
        · intro hmem
          rcases List.mem_map.mp hmem with ⟨en, hen, hfst⟩
          rcases List.mem_append.mp hen with h1 | h2
          · have := hInv.defsLt en h1
            omega
          · have := hΔds en h2
            omega
        · rw [hH]
          show List.Forall₂ _ elems dvs
          exact hfaS
      · intro pre rest hplen
        simp only [List.length_append, List.length_cons, List.length_nil]
          at hplen
        have hplen2 : pre.length = e.output.length := by
          have h1 : ({ stD with activeVal := e.activeVal, activeIndex := e.activeIndex } : AtSt).output.length = stD.output.length := rfl
          omega
        obtain ⟨g0s, hGs⟩ := hrunS
          (pre ++ [Cell.cint (8 * (stC.output.length : Int) + 4)]) rest
          (by
            simp only [List.length_append, List.length_cons, List.length_nil]
            omega)
        have hS : pre ++ [Cell.cint (8 * (stC.output.length : Int) + 4)] ++ Δc
            ++ rest =
            pre ++ ([Cell.cint (8 * (stC.output.length : Int) + 4)] ++ Δc)
            ++ rest := by
          simp [List.append_assoc]
        rw [hS] at hGs
        rw [show (pre ++ [Cell.cint (8 * (stC.output.length : Int) + 4)]).length
          = pre.length + 1 by simp] at hGs
        have huntil : (Int.ofNat (pre.length + 1 + Δc.length)) =
            ((stC.output.length : Int)) := by
          simp only [Int.ofNat_eq_coe]
          push_cast
          omega
        rw [huntil] at hGs
        refine ⟨g0s + 1, ?_⟩
        intro g hg
        cases g with
        | zero => exact absurd hg (by omega)
        | succ g =>
          rw [show (([Cell.cint (8 * (stC.output.length : Int) + 4)] ++ Δc).getD
            0 .cundef) = .cint (8 * (stC.output.length : Int) + 4) from rfl]
          rw [rebuildValue_sethdr hU28 g]
          dsimp only
          rw [hGs g g (by omega) (by omega)]
          dsimp only
          rw [hfold]
          refine congrArg _ ?_
          refine congrArg _ ?_
          show (⟨⟨_, pre.length + 1 + Δc.length⟩, (C ++ [DVal.dref m]) ++ Γs,
            (D ++ Δds) ++ [(m, DNode.dset dvs)], ms⟩ : RbSt CellRd) = _
          simp only [List.append_assoc, List.length_append, List.length_cons,
            List.length_nil]
          rw [show pre.length + 1 + Δc.length = pre.length + (1 + Δc.length)
            from by omega]
/-! ### Object and Map frames -/

theorem forall2_prim_eq {refs : List (RKey × Int)} {C : List DVal} {α : Type}
    (f : α → Prim) :
    ∀ {xs : List α} {ds : List DVal},
      List.Forall₂ (valTrans refs C) (xs.map (fun x => JSVal.prim (f x))) ds →
      ds = xs.map (fun x => DVal.prim (f x)) := by
  intro xs
  induction xs with
  | nil =>
    intro ds h
    cases h
    rfl
  | cons x xs ih =>
    intro ds h
    rw [List.map_cons] at h
    cases h with
    | cons hx htail =>
      rw [List.map_cons, ih htail]
      simp only [valTrans] at hx
      rw [hx]

theorem nodeTrans_obj_build {refs : List (RKey × Int)} {C : List DVal} :
    ∀ (fields : List (String × JSVal)) (dvs : List DVal),
      List.Forall₂ (valTrans refs C) (fields.map Prod.snd) dvs →
      List.Forall₂ (fun f g => g.1 = f.1 ∧ valTrans refs C f.2 g.2) fields
        (List.zipWith (fun f dv => (f.1, dv)) fields dvs) := by
  intro fields
  induction fields with
  | nil =>
    intro dvs h
    cases h
    exact List.Forall₂.nil
  | cons fd fs ih =>
    intro dvs h
    rw [List.map_cons] at h
    cases h with
    | cons h1 h2 =>
      exact List.Forall₂.cons ⟨rfl, h1⟩ (ih _ h2)

theorem objFold_build :
    ∀ (fields : List (String × JSVal)) (dvs : List DVal)
      (acc : List (String × DVal)),
      dvs.length = fields.length →
      (acc.map Prod.fst ++ fields.map Prod.fst).Nodup →
      ((fields.map (fun f => DVal.prim (.pstr f.1))).zip dvs).foldl
        (fun a kv => objSet a (jsPropKey kv.1) kv.2) acc =
      acc ++ List.zipWith (fun f dv => (f.1, dv)) fields dvs := by
  intro fields
  induction fields with
  | nil =>
    intro dvs acc _ _
    simp
  | cons fd fs ih =>
    intro dvs acc hlen hnd
    cases dvs with
    | nil => simp at hlen
    | cons dv ds =>
      simp only [List.map_cons, List.zip_cons_cons, List.foldl_cons,
        List.zipWith_cons_cons]
      rw [show jsPropKey (DVal.prim (.pstr fd.1)) = fd.1 from rfl]
      have hnd2 : ((acc ++ [(fd.1, dv)]).map Prod.fst ++
          fs.map Prod.fst).Nodup := by
        simp only [List.map_append, List.map_cons, List.map_nil]
        rw [List.append_assoc, List.singleton_append]
        simpa using hnd
      have hkn : fd.1 ∉ acc.map Prod.fst := by
        intro hm
        simp only [List.map_cons, List.nodup_append] at hnd
        exact hnd.2.2 hm (by simp)
      rw [objSet_not_mem dv hkn]
      have h2 := ih ds (acc ++ [(fd.1, dv)]) (by simpa using hlen) hnd2
      rw [h2, List.append_assoc, List.singleton_append]

theorem forall2_zip_pair {refs : List (RKey × Int)} {C : List DVal} :
    ∀ {entries : List (JSVal × JSVal)} {dks dvs : List DVal},
      List.Forall₂ (valTrans refs C) (entries.map Prod.fst) dks →
      List.Forall₂ (valTrans refs C) (entries.map Prod.snd) dvs →
      List.Forall₂
        (fun p q => valTrans refs C p.1 q.1 ∧ valTrans refs C p.2 q.2)
        entries (dks.zip dvs) := by
  intro entries
  induction entries with
  | nil =>
    intro dks dvs h1 h2
    cases h1
    exact List.Forall₂.nil
  | cons en es ih =>
    intro dks dvs h1 h2
    rw [List.map_cons] at h1 h2
    cases h1 with
    | cons ha hta =>
      cases h2 with
      | cons hb htb =>
        exact List.Forall₂.cons ⟨ha, hb⟩ (ih hta htb)

theorem valSim_obj {H : Heap} {fuel : Nat} (hsc : SegChP H fuel)
    (hsv : SegValsP H fuel)
    {id : Nat} {fields : List (String × JSVal)}
    (hH : H.getD id (.harr []) = .hobj fields)
    {e e' : AtSt} {C : List DVal} {D : List (Nat × DNode)} {m : Nat}
    {opens : List Nat}
    (hrun : atomizeValue defaultCfg H (fuel + 1) (.ref id) e = .ok e')
    (hWF : WFHeap H)
    (hInv : Inv H e.refs C D m opens)
    (hAtom : (C.length : Int) = e.atomIndex)
    (hLen : C.length ≤ e.output.length)
    (hB : e'.output.length ≤ 67108864)
    (hNotReg : refsGet e.refs (keyOf (.ref id)) = none) :
    FrameConcl H (.ref id) e e' opens C D m := by
  simp only [keyOf] at hNotReg
  rw [atomizeValue_succ_eq] at hrun
  rw [show plan defaultCfg H (.ref id) = encodeObject fields by
    simp only [plan]
    rw [hH]] at hrun
  simp only [encodeObject, keyOf] at hrun
  simp only [List.cons_append, List.nil_append] at hrun
  rw [show fields.map (fun f => WCmd.child (JSVal.prim (.pstr f.1))) =
    (fields.map (fun f => JSVal.prim (.pstr f.1))).map WCmd.child by
      rw [List.map_map]
      rfl] at hrun
  rw [show fields.map (fun f => WCmd.child f.2) =
    (fields.map Prod.snd).map WCmd.child by
      rw [List.map_map]
      rfl] at hrun
  have hwA : write (atomizeValue defaultCfg H fuel) .allowSelf
      (AtSt.mk e.output e.refs e.jumps e.atomIndex e.atomIndex (.kref id)) =
      .ok (AtSt.mk e.output (refsSet e.refs (.kref id) (jsNot e.atomIndex))
        e.jumps e.atomIndex (jsNot e.atomIndex) .kRAW) := by
    rw [write_allowSelf_active _ (show RKey.kref id ≠ .kRAW by simp)
      (show e.atomIndex ≥ 0 by omega)]
  have hwB : write (atomizeValue defaultCfg H fuel) (.pushJump AtomType.Object)
      (AtSt.mk e.output (refsSet e.refs (.kref id) (jsNot e.atomIndex))
        e.jumps e.atomIndex (jsNot e.atomIndex) .kRAW) =
      .ok (AtSt.mk (e.output ++ [.cint AtomType.Object])
        (refsSet e.refs (.kref id) (jsNot e.atomIndex))
        (e.output.length :: e.jumps) e.atomIndex (jsNot e.atomIndex) .kRAW) := by
    rw [write_pushJump]
  rw [runCmds_cons_ok _ hwA, runCmds_cons_ok _ hwB, runCmds_append,
    runCmds_append] at hrun
  cases hseg : runCmds (write (atomizeValue defaultCfg H fuel))
      ((fields.map (fun f => JSVal.prim (.pstr f.1))).map WCmd.child)
      (AtSt.mk (e.output ++ [.cint AtomType.Object])
        (refsSet e.refs (.kref id) (jsNot e.atomIndex))
        (e.output.length :: e.jumps) e.atomIndex (jsNot e.atomIndex) .kRAW) with
  | error er =>
    rw [hseg] at hrun
    dsimp only at hrun
    exact Except.noConfusion hrun
  | ok stK =>
    rw [hseg] at hrun
    dsimp only at hrun
    simp only [runCmds] at hrun
    cases hwp : write (atomizeValue defaultCfg H fuel) .popJump stK with
    | error er =>
      rw [hwp] at hrun
      dsimp only at hrun
      exact Except.noConfusion hrun
    | ok stD =>
      rw [hwp] at hrun
      dsimp only at hrun
      cases hsegv : runCmds (write (atomizeValue defaultCfg H fuel))
          ((fields.map Prod.snd).map WCmd.child) stD with
      | error er =>
        rw [hsegv] at hrun
        dsimp only at hrun
        exact Except.noConfusion hrun
      | ok stC =>
        rw [hsegv] at hrun
        dsimp only at hrun
        obtain ⟨hrefsD, hatomD, haiD, havD, hlenD, i, restJ, hjC, hjD,
          houtD⟩ := popJump_inv hwp
        have hEout : e'.output = stC.output := closeFrame_ok_output hrun
        have hmonoBK : e.output.length + 1 ≤ stK.output.length := by
          have := runCmds_len_mono
            (fun c s s' hc =>
              write_len_mono (atomizeValue_len_mono defaultCfg H fuel) c s s' hc)
            _ _ _ hseg
          simpa using this
        have hmonoDC : stD.output.length ≤ stC.output.length :=
          runCmds_len_mono
            (fun c s s' hc =>
              write_len_mono (atomizeValue_len_mono defaultCfg H fuel) c s s' hc)
            _ _ _ hsegv
        have hBC : stC.output.length ≤ 67108864 := by
          have h1 : e'.output.length = stC.output.length := by rw [hEout]
          omega
        have hBK : stK.output.length ≤ 67108864 := by omega
        have hnot : jsNot e.atomIndex = -((C.length : Int) + 1) := by
          rw [← hAtom, jsNot_eq (by omega) (by omega)]
        have hrefsB : refsSet e.refs (RKey.kref id) (jsNot e.atomIndex) =
            e.refs ++ [(RKey.kref id, -((C.length : Int) + 1))] := by
          rw [refsSet_not_mem _ hNotReg, hnot]
        obtain ⟨Δk, nRk, hoK, hrK, hjKc, havK, haiK, hsegk⟩ :=
          hsc (fields.map (fun f => JSVal.prim (.pstr f.1))) _ stK
            (C ++ [.dref m]) D (m + 1) (id :: opens) hseg hWF
            (by
              show Inv H (refsSet e.refs (RKey.kref id) (jsNot e.atomIndex)) _ _ _ _
              rw [hrefsB]
              exact Inv_register_node hInv hNotReg (by omega))
            (by
              show ((C ++ [DVal.dref m]).length : Int) = e.atomIndex + 1
              simp only [List.length_append, List.length_cons, List.length_nil]
              push_cast
              omega)
            (by
              show (C ++ [DVal.dref m]).length ≤
                (e.output ++ [Cell.cint AtomType.Object]).length
              simp only [List.length_append, List.length_cons, List.length_nil]
              omega)
            hBK
            (by
              show jsNot e.atomIndex < 0
              rw [hnot]
              omega)
        obtain ⟨dks, Γk, Δdk, mk2, hΔdk, hmk, hlockK, hclenK, hfaK, hInvK,
          hΔsK, hrunK⟩ := hsegk
        obtain ⟨Δv, nRv, hoV, hrV, hjVc, havV, haiV, hsegv2⟩ :=
          hsv (fields.map Prod.snd) stD stC ((C ++ [.dref m]) ++ Γk)
            (D ++ Δdk) mk2 (id :: opens) hsegv hWF
            (by rw [hrefsD]; exact hInvK)
            (by rw [hatomD]; exact hlockK)
            (by
              have h2 : stD.output.length = stK.output.length := hlenD
              omega)
            hBC
            (by
              rw [haiD, haiK]
              show jsNot e.atomIndex < 0
              rw [hnot]
              omega)
        obtain ⟨dvs, Γv, Δdv, mv, hΔdv, hmv, hlockV, hclenV, hfaV, hInvV,
          hΔsV, hrunV⟩ := hsegv2
        have hjBK : stK.jumps = e.output.length :: e.jumps := hjKc
        rw [hjBK] at hjC
        obtain ⟨hi, hrest⟩ := List.cons.inj hjC.symm
        subst hi
        subst hrest
        have hoK2 : stK.output = e.output ++ [Cell.cint AtomType.Object] ++ Δk :=
          hoK
        have hgetD : stK.output.getD e.output.length (.cint 0) =
            .cint AtomType.Object := by
          rw [hoK2, getD_append_first e.output [Cell.cint AtomType.Object] Δk _
            (by simp)]
          rfl
        have hU28 : stK.output.length < 268435456 := by omega
        have hcomb : jsOr (jsShl (Int.ofNat stK.output.length) 3)
            (cellToInt (stK.output.getD e.output.length (.cint 0))) =
            8 * (stK.output.length : Int) + 2 := by
          rw [hgetD]
          rw [show cellToInt (Cell.cint AtomType.Object) = AtomType.Object from
            rfl]
          rw [jsOr_header hU28 (by decide) (by decide)]
          rfl
        have houtD2 : stD.output =
            e.output ++ [Cell.cint (8 * (stK.output.length : Int) + 2)] ++ Δk := by
          rw [houtD, hcomb, hoK2, set_append_first _ _ _ _ (by simp)]
          rfl
        have haiC0 : stC.activeIndex < 0 := by
          rw [haiV, haiD, haiK]
          show jsNot e.atomIndex < 0
          rw [hnot]
          omega
        have hoC2 : stC.output =
            e.output ++ [Cell.cint (8 * (stK.output.length : Int) + 2)] ++ Δk
              ++ Δv := by
          rw [hoV, houtD2]
        have hlne : stC.output.length ≠ e.output.length := by
          rw [hoC2]
          simp only [List.length_append, List.length_cons, List.length_nil]
          omega
        rw [closeFrame_true_neg haiC0 hlne] at hrun
        injection hrun with hrun
        subst hrun
        have hΔklen : stK.output.length = e.output.length + 1 + Δk.length := by
          rw [hoK2]
          simp only [List.length_append, List.length_cons, List.length_nil]
        have hdks : dks = fields.map (fun f => DVal.prim (.pstr f.1)) :=
          forall2_prim_eq _ hfaK
        have hlenvs : dvs.length = fields.length := by
          have := List.Forall₂.length_eq hfaV
          simpa using this.symm
        have hobjmem : HNode.hobj fields ∈ H := getD_mem_of_ne hH (by simp)
        have hnodupF : (fields.map Prod.fst).Nodup := hWF.2 _ hobjmem
        have hfold : ((dks.zip dvs).foldl
            (fun a kv => objSet a (jsPropKey kv.1) kv.2) []) =
            List.zipWith (fun f dv => (f.1, dv)) fields dvs := by
          rw [hdks]
          have := objFold_build fields dvs [] hlenvs (by simpa using hnodupF)
          simpa using this
        have hrefsC : stC.refs = e.refs ++
            ([(RKey.kref id, -((C.length : Int) + 1))] ++ (nRk ++ nRv)) := by
          rw [hrV, hrefsD, hrK]
          show refsSet e.refs (RKey.kref id) (jsNot e.atomIndex) ++ nRk ++ nRv = _
          rw [hrefsB, List.append_assoc, List.append_assoc]
        have hreg : regId stC.refs (((C ++ [DVal.dref m]) ++ Γk) ++ Γv) id =
            some m := by
          rw [hrefsC, ← List.append_assoc, ← List.append_assoc]
          have h1 := regId_extend nRk Γk (regId_snoc_self (C := C) m hNotReg)
          have h2 := regId_extend nRv Γv h1
          exact h2
        refine ⟨[Cell.cint (8 * (stK.output.length : Int) + 2)] ++ (Δk ++ Δv),
          [(RKey.kref id, -((C.length : Int) + 1))] ++ (nRk ++ nRv), ?_, by simp,
          hrefsC, ?_, rfl, rfl,
          none, .dref m, [.dref m] ++ (Γk ++ Γv), [.dref m] ++ (Γk ++ Γv),
          (Δdk ++ Δdv) ++ [(m, .dobj (List.zipWith (fun f dv => (f.1, dv))
            fields dvs))], mv, ?_, ?_, ?_, ?_, ?_, ?_, ?_, ?_, ?_⟩
        · show stC.output = e.output ++
            ([Cell.cint (8 * (stK.output.length : Int) + 2)] ++ (Δk ++ Δv))
          rw [hoC2, List.append_assoc, List.append_assoc]
        · show stC.jumps = e.jumps
          rw [hjVc, hjD]
        · intro rd dfs nid
          simp only [pushWrap]
          rw [getD_append_self C _ _ (by simp)]
          rfl
        · exact getElem?_append_self C _ (by simp)
        · intro en hen
          rcases List.mem_append.mp hen with h12 | h3
          · rcases List.mem_append.mp h12 with h1 | h2
            · have := hΔdk en h1
              omega
            · have := hΔdv en h2
              omega
          · simp only [List.mem_singleton] at h3
            subst h3
            exact le_refl m
        · omega
        · show ((C ++ ([DVal.dref m] ++ (Γk ++ Γv))).length : Int) =
            stC.atomIndex + 1
          rw [← List.append_assoc, ← List.append_assoc]
          exact hlockV
        · show (C ++ ([DVal.dref m] ++ (Γk ++ Γv))).length ≤ stC.output.length
          rw [← List.append_assoc, ← List.append_assoc]
          exact hclenV
        · refine ⟨m, ?_, rfl⟩
          show regId stC.refs (C ++ ([DVal.dref m] ++ (Γk ++ Γv))) id = some m
          rw [← List.append_assoc, ← List.append_assoc]
          exact hreg
        · show Inv H stC.refs (C ++ ([DVal.dref m] ++ (Γk ++ Γv)))
            (D ++ ((Δdk ++ Δdv) ++ [(m, DNode.dobj (List.zipWith
              (fun f dv => (f.1, dv)) fields dvs))])) mv opens
          rw [← List.append_assoc C, ← List.append_assoc (C ++ [DVal.dref m]),
            ← List.append_assoc D, ← List.append_assoc D]
          refine Inv_close_node hInvV hreg ?_ ?_
          · intro hmem
            rcases List.mem_map.mp hmem with ⟨en, hen, hfst⟩
            rcases List.mem_append.mp hen with h12 | h2
            · rcases List.mem_append.mp h12 with h0 | h1
              · have := hInv.defsLt en h0
                omega
              · have := hΔdk en h1
                omega
            · have := hΔdv en h2
              omega
          · rw [hH]
            show List.Forall₂ _ fields _
            refine nodeTrans_obj_build fields dvs ?_
            exact hfaV
        · intro pre rest hplen
          simp only [List.length_append, List.length_cons, List.length_nil]
            at hplen
          have hECl : ({ stC with activeVal := e.activeVal, activeIndex := e.activeIndex } : AtSt).output.length = stC.output.length := rfl
          have hoClen : stC.output.length =
              e.output.length + 1 + Δk.length + Δv.length := by
            rw [hoC2]
            simp only [List.length_append, List.length_cons, List.length_nil]
          have hplen2 : pre.length = e.output.length := by omega
          obtain ⟨g0k, hGk⟩ := hrunK
            (pre ++ [Cell.cint (8 * (stK.output.length : Int) + 2)])
            (Δv ++ rest)
            (by
              simp only [List.length_append, List.length_cons, List.length_nil]
              omega)
          obtain ⟨g0v, hGv⟩ := hrunV
            ((pre ++ [Cell.cint (8 * (stK.output.length : Int) + 2)]) ++ Δk)
            rest
            (by
              simp only [List.length_append, List.length_cons, List.length_nil]
              omega)
          have hS1 : pre ++ [Cell.cint (8 * (stK.output.length : Int) + 2)] ++
              Δk ++ (Δv ++ rest) =
              pre ++ ([Cell.cint (8 * (stK.output.length : Int) + 2)] ++
                (Δk ++ Δv)) ++ rest := by
            simp [List.append_assoc]
          have hS2 : pre ++ [Cell.cint (8 * (stK.output.length : Int) + 2)] ++
              Δk ++ Δv ++ rest =
              pre ++ ([Cell.cint (8 * (stK.output.length : Int) + 2)] ++
                (Δk ++ Δv)) ++ rest := by
            simp [List.append_assoc]
          rw [hS1] at hGk
          rw [hS2] at hGv
          rw [show (pre ++ [Cell.cint (8 * (stK.output.length : Int) + 2)]).length
            = pre.length + 1 by simp] at hGk
          rw [show ((pre ++ [Cell.cint (8 * (stK.output.length : Int) + 2)]) ++
            Δk).length = pre.length + 1 + Δk.length by
              simp only [List.length_append, List.length_cons, List.length_nil]] at hGv
          have huntilK : (Int.ofNat (pre.length + 1 + Δk.length)) =
              ((stK.output.length : Int)) := by
            simp only [Int.ofNat_eq_coe]
            push_cast
            omega
          rw [huntilK] at hGk
          refine ⟨max g0k g0v + 1, ?_⟩
          intro g hg
          cases g with
          | zero => exact absurd hg (by omega)
          | succ g =>
            rw [show (([Cell.cint (8 * (stK.output.length : Int) + 2)] ++
              (Δk ++ Δv)).getD 0 .cundef) =
              .cint (8 * (stK.output.length : Int) + 2) from rfl]
            rw [rebuildValue_objhdr hU28 g]
            dsimp only
            rw [hGk g g (by omega) (by omega)]
            dsimp only
            rw [show dks.length = (fields.map Prod.snd).length by
              rw [hdks]
              simp]
            rw [hGv g (by omega)]
            dsimp only
            rw [hfold]
            refine congrArg _ ?_
            refine congrArg _ ?_
            show (⟨⟨_, pre.length + 1 + Δk.length + Δv.length⟩,
              ((C ++ [DVal.dref m]) ++ Γk) ++ Γv,
              (D ++ Δdk ++ Δdv) ++ [(m, DNode.dobj (List.zipWith
                (fun f dv => (f.1, dv)) fields dvs))], mv⟩ : RbSt CellRd) = _
            simp only [List.append_assoc, List.length_append, List.length_cons,
              List.length_nil]
            rw [show pre.length + 1 + Δk.length + Δv.length =
              pre.length + (1 + (Δk.length + Δv.length)) from by omega]
/-! ### Map frames -/

theorem valSim_map {H : Heap} {fuel : Nat} (hsc : SegChP H fuel)
    (hsv : SegValsP H fuel)
    {id : Nat} {entries : List (JSVal × JSVal)}
    (hH : H.getD id (.harr []) = .hmap entries)
    {e e' : AtSt} {C : List DVal} {D : List (Nat × DNode)} {m : Nat}
    {opens : List Nat}
    (hrun : atomizeValue defaultCfg H (fuel + 1) (.ref id) e = .ok e')
    (hWF : WFHeap H)
    (hInv : Inv H e.refs C D m opens)
    (hAtom : (C.length : Int) = e.atomIndex)
    (hLen : C.length ≤ e.output.length)
    (hB : e'.output.length ≤ 67108864)
    (hNotReg : refsGet e.refs (keyOf (.ref id)) = none) :
    FrameConcl H (.ref id) e e' opens C D m := by
  simp only [keyOf] at hNotReg
  rw [atomizeValue_succ_eq] at hrun
  rw [show plan defaultCfg H (.ref id) = encodeMap entries by
    simp only [plan]
    rw [hH]] at hrun
  simp only [encodeMap, keyOf] at hrun
  simp only [List.cons_append, List.nil_append] at hrun
  rw [show entries.map (fun en => WCmd.child en.1) =
    (entries.map Prod.fst).map WCmd.child by
      rw [List.map_map]
      rfl] at hrun
  rw [show entries.map (fun en => WCmd.child en.2) =
    (entries.map Prod.snd).map WCmd.child by
      rw [List.map_map]
      rfl] at hrun
  have hwA : write (atomizeValue defaultCfg H fuel) .allowSelf
      (AtSt.mk e.output e.refs e.jumps e.atomIndex e.atomIndex (.kref id)) =
      .ok (AtSt.mk e.output (refsSet e.refs (.kref id) (jsNot e.atomIndex))
        e.jumps e.atomIndex (jsNot e.atomIndex) .kRAW) := by
    rw [write_allowSelf_active _ (show RKey.kref id ≠ .kRAW by simp)
      (show e.atomIndex ≥ 0 by omega)]
  have hwB : write (atomizeValue defaultCfg H fuel) (.pushJump AtomType.Map)
      (AtSt.mk e.output (refsSet e.refs (.kref id) (jsNot e.atomIndex))
        e.jumps e.atomIndex (jsNot e.atomIndex) .kRAW) =
      .ok (AtSt.mk (e.output ++ [.cint AtomType.Map])
        (refsSet e.refs (.kref id) (jsNot e.atomIndex))
        (e.output.length :: e.jumps) e.atomIndex (jsNot e.atomIndex) .kRAW) := by
    rw [write_pushJump]
  rw [runCmds_cons_ok _ hwA, runCmds_cons_ok _ hwB, runCmds_append,
    runCmds_append] at hrun
  cases hseg : runCmds (write (atomizeValue defaultCfg H fuel))
      ((entries.map Prod.fst).map WCmd.child)
      (AtSt.mk (e.output ++ [.cint AtomType.Map])
        (refsSet e.refs (.kref id) (jsNot e.atomIndex))
        (e.output.length :: e.jumps) e.atomIndex (jsNot e.atomIndex) .kRAW) with
  | error er =>
    rw [hseg] at hrun
    dsimp only at hrun
    exact Except.noConfusion hrun
  | ok stK =>
    rw [hseg] at hrun
    dsimp only at hrun
    simp only [runCmds] at hrun
    cases hwp : write (atomizeValue defaultCfg H fuel) .popJump stK with
    | error er =>
      rw [hwp] at hrun
      dsimp only at hrun
      exact Except.noConfusion hrun
    | ok stD =>
      rw [hwp] at hrun
      dsimp only at hrun
      cases hsegv : runCmds (write (atomizeValue defaultCfg H fuel))
          ((entries.map Prod.snd).map WCmd.child) stD with
      | error er =>
        rw [hsegv] at hrun
        dsimp only at hrun
        exact Except.noConfusion hrun
      | ok stC =>
        rw [hsegv] at hrun
        dsimp only at hrun
        obtain ⟨hrefsD, hatomD, haiD, havD, hlenD, i, restJ, hjC, hjD,
          houtD⟩ := popJump_inv hwp
        have hEout : e'.output = stC.output := closeFrame_ok_output hrun
        have hmonoBK : e.output.length + 1 ≤ stK.output.length := by
          have := runCmds_len_mono
            (fun c s s' hc =>
              write_len_mono (atomizeValue_len_mono defaultCfg H fuel) c s s' hc)
            _ _ _ hseg
          simpa using this
        have hmonoDC : stD.output.length ≤ stC.output.length :=
          runCmds_len_mono
            (fun c s s' hc =>
              write_len_mono (atomizeValue_len_mono defaultCfg H fuel) c s s' hc)
            _ _ _ hsegv
        have hBC : stC.output.length ≤ 67108864 := by
          have h1 : e'.output.length = stC.output.length := by rw [hEout]
          omega
        have hBK : stK.output.length ≤ 67108864 := by omega
        have hnot : jsNot e.atomIndex = -((C.length : Int) + 1) := by
          rw [← hAtom, jsNot_eq (by omega) (by omega)]
        have hrefsB : refsSet e.refs (RKey.kref id) (jsNot e.atomIndex) =
            e.refs ++ [(RKey.kref id, -((C.length : Int) + 1))] := by
          rw [refsSet_not_mem _ hNotReg, hnot]
        obtain ⟨Δk, nRk, hoK, hrK, hjKc, havK, haiK, hsegk⟩ :=
          hsc (entries.map Prod.fst) _ stK
            (C ++ [.dref m]) D (m + 1) (id :: opens) hseg hWF
            (by
              show Inv H (refsSet e.refs (RKey.kref id) (jsNot e.atomIndex)) _ _ _ _
              rw [hrefsB]
              exact Inv_register_node hInv hNotReg (by omega))
            (by
              show ((C ++ [DVal.dref m]).length : Int) = e.atomIndex + 1
              simp only [List.length_append, List.length_cons, List.length_nil]
              push_cast
              omega)
            (by
              show (C ++ [DVal.dref m]).length ≤
                (e.output ++ [Cell.cint AtomType.Map]).length
              simp only [List.length_append, List.length_cons, List.length_nil]
              omega)
            hBK
            (by
              show jsNot e.atomIndex < 0
              rw [hnot]
              omega)
        obtain ⟨dks, Γk, Δdk, mk2, hΔdk, hmk, hlockK, hclenK, hfaK, hInvK,
          hΔsK, hrunK⟩ := hsegk
        obtain ⟨Δv, nRv, hoV, hrV, hjVc, havV, haiV, hsegv2⟩ :=
          hsv (entries.map Prod.snd) stD stC ((C ++ [.dref m]) ++ Γk)
            (D ++ Δdk) mk2 (id :: opens) hsegv hWF
            (by rw [hrefsD]; exact hInvK)
            (by rw [hatomD]; exact hlockK)
            (by
              have h2 : stD.output.length = stK.output.length := hlenD
              omega)
            hBC
            (by
              rw [haiD, haiK]
              show jsNot e.atomIndex < 0
              rw [hnot]
              omega)
        obtain ⟨dvs, Γv, Δdv, mv, hΔdv, hmv, hlockV, hclenV, hfaV, hInvV,
          hΔsV, hrunV⟩ := hsegv2
        have hjBK : stK.jumps = e.output.length :: e.jumps := hjKc
        rw [hjBK] at hjC
        obtain ⟨hi, hrest⟩ := List.cons.inj hjC.symm
        subst hi
        subst hrest
        have hoK2 : stK.output = e.output ++ [Cell.cint AtomType.Map] ++ Δk :=
          hoK
        have hgetD : stK.output.getD e.output.length (.cint 0) =
            .cint AtomType.Map := by
          rw [hoK2, getD_append_first e.output [Cell.cint AtomType.Map] Δk _
            (by simp)]
          rfl
        have hU28 : stK.output.length < 268435456 := by omega
        have hcomb : jsOr (jsShl (Int.ofNat stK.output.length) 3)
            (cellToInt (stK.output.getD e.output.length (.cint 0))) =
            8 * (stK.output.length : Int) + 3 := by
          rw [hgetD]
          rw [show cellToInt (Cell.cint AtomType.Map) = AtomType.Map from
            rfl]
          rw [jsOr_header hU28 (by decide) (by decide)]
          rfl
        have houtD2 : stD.output =
            e.output ++ [Cell.cint (8 * (stK.output.length : Int) + 3)] ++ Δk := by
          rw [houtD, hcomb, hoK2, set_append_first _ _ _ _ (by simp)]
          rfl
        have haiC0 : stC.activeIndex < 0 := by
          rw [haiV, haiD, haiK]
          show jsNot e.atomIndex < 0
          rw [hnot]
          omega
        have hoC2 : stC.output =
            e.output ++ [Cell.cint (8 * (stK.output.length : Int) + 3)] ++ Δk
              ++ Δv := by
          rw [hoV, houtD2]
        have hlne : stC.output.length ≠ e.output.length := by
          rw [hoC2]
          simp only [List.length_append, List.length_cons, List.length_nil]
          omega
        rw [closeFrame_true_neg haiC0 hlne] at hrun
        injection hrun with hrun
        subst hrun
        have hΔklen : stK.output.length = e.output.length + 1 + Δk.length := by
          rw [hoK2]
          simp only [List.length_append, List.length_cons, List.length_nil]
        have hdkslen : dks.length = entries.length := by
          have := List.Forall₂.length_eq hfaK
          simpa using this.symm
        have hlenvs : dvs.length = entries.length := by
          have := List.Forall₂.length_eq hfaV
          simpa using this.symm
        have hmapmem : HNode.hmap entries ∈ H := getD_mem_of_ne hH (by simp)
        have hnodupE : (entries.map (fun p => keyOf p.1)).Nodup := hWF.2 _ hmapmem
        have hnodupD : dks.Nodup := by
          refine forall2_keyOf_nodup hInvK.inj hfaK ?_
          rw [List.map_map]
          exact hnodupE
        have hfold : ((dks.zip dvs).foldl
            (fun a kv => mapSet a kv.1 kv.2) []) = dks.zip dvs := by
          have hmz : (dks.zip dvs).map Prod.fst = dks :=
            List.map_fst_zip dks dvs (by omega)
          have := mapFold_eq (dks.zip dvs) [] (by
            simp only [List.nil_append, hmz]
            exact hnodupD)
          simpa using this
        have hrefsC : stC.refs = e.refs ++
            ([(RKey.kref id, -((C.length : Int) + 1))] ++ (nRk ++ nRv)) := by
          rw [hrV, hrefsD, hrK]
          show refsSet e.refs (RKey.kref id) (jsNot e.atomIndex) ++ nRk ++ nRv = _
          rw [hrefsB, List.append_assoc, List.append_assoc]
        have hreg : regId stC.refs (((C ++ [DVal.dref m]) ++ Γk) ++ Γv) id =
            some m := by
          rw [hrefsC, ← List.append_assoc, ← List.append_assoc]
          have h1 := regId_extend nRk Γk (regId_snoc_self (C := C) m hNotReg)
          have h2 := regId_extend nRv Γv h1
          exact h2
        refine ⟨[Cell.cint (8 * (stK.output.length : Int) + 3)] ++ (Δk ++ Δv),
          [(RKey.kref id, -((C.length : Int) + 1))] ++ (nRk ++ nRv), ?_, by simp,
          hrefsC, ?_, rfl, rfl,
          none, .dref m, [.dref m] ++ (Γk ++ Γv), [.dref m] ++ (Γk ++ Γv),
          (Δdk ++ Δdv) ++ [(m, .dmap (dks.zip dvs))], mv,
          ?_, ?_, ?_, ?_, ?_, ?_, ?_, ?_, ?_⟩
        · show stC.output = e.output ++
            ([Cell.cint (8 * (stK.output.length : Int) + 3)] ++ (Δk ++ Δv))
          rw [hoC2, List.append_assoc, List.append_assoc]
        · show stC.jumps = e.jumps
          rw [hjVc, hjD]
        · intro rd dfs nid
          simp only [pushWrap]
          rw [getD_append_self C _ _ (by simp)]
          rfl
        · exact getElem?_append_self C _ (by simp)
        · intro en hen
          rcases List.mem_append.mp hen with h12 | h3
          · rcases List.mem_append.mp h12 with h1 | h2
            · have := hΔdk en h1
              omega
            · have := hΔdv en h2
              omega
          · simp only [List.mem_singleton] at h3
            subst h3
            exact le_refl m
        · omega
        · show ((C ++ ([DVal.dref m] ++ (Γk ++ Γv))).length : Int) =
            stC.atomIndex + 1
          rw [← List.append_assoc, ← List.append_assoc]
          exact hlockV
        · show (C ++ ([DVal.dref m] ++ (Γk ++ Γv))).length ≤ stC.output.length
          rw [← List.append_assoc, ← List.append_assoc]
          exact hclenV
        · refine ⟨m, ?_, rfl⟩
          show regId stC.refs (C ++ ([DVal.dref m] ++ (Γk ++ Γv))) id = some m
          rw [← List.append_assoc, ← List.append_assoc]
          exact hreg
        · show Inv H stC.refs (C ++ ([DVal.dref m] ++ (Γk ++ Γv)))
            (D ++ ((Δdk ++ Δdv) ++ [(m, DNode.dmap (dks.zip dvs))])) mv opens
          rw [← List.append_assoc C, ← List.append_assoc (C ++ [DVal.dref m]),
            ← List.append_assoc D, ← List.append_assoc D]
          refine Inv_close_node hInvV hreg ?_ ?_
          · intro hmem
            rcases List.mem_map.mp hmem with ⟨en, hen, hfst⟩
            rcases List.mem_append.mp hen with h12 | h2
            · rcases List.mem_append.mp h12 with h0 | h1
              · have := hInv.defsLt en h0
                omega
              · have := hΔdk en h1
                omega
            · have := hΔdv en h2
              omega
          · rw [hH]
            show List.Forall₂ _ entries _
            refine forall2_zip_pair ?_ hfaV
            have hfaK2 := hfaK.imp (fun _ _ hab => valTrans_extend nRv Γv hab)
            rw [hrV, hrefsD]
            exact hfaK2
        · intro pre rest hplen
          simp only [List.length_append, List.length_cons, List.length_nil]
            at hplen
          have hECl : ({ stC with activeVal := e.activeVal, activeIndex := e.activeIndex } : AtSt).output.length = stC.output.length := rfl
          have hoClen : stC.output.length =
              e.output.length + 1 + Δk.length + Δv.length := by
            rw [hoC2]
            simp only [List.length_append, List.length_cons, List.length_nil]
          have hplen2 : pre.length = e.output.length := by omega
          obtain ⟨g0k, hGk⟩ := hrunK
            (pre ++ [Cell.cint (8 * (stK.output.length : Int) + 3)])
            (Δv ++ rest)
            (by
              simp only [List.length_append, List.length_cons, List.length_nil]
              omega)
          obtain ⟨g0v, hGv⟩ := hrunV
            ((pre ++ [Cell.cint (8 * (stK.output.length : Int) + 3)]) ++ Δk)
            rest
            (by
              simp only [List.length_append, List.length_cons, List.length_nil]
              omega)
          have hS1 : pre ++ [Cell.cint (8 * (stK.output.length : Int) + 3)] ++
              Δk ++ (Δv ++ rest) =
              pre ++ ([Cell.cint (8 * (stK.output.length : Int) + 3)] ++
                (Δk ++ Δv)) ++ rest := by
            simp [List.append_assoc]
          have hS2 : pre ++ [Cell.cint (8 * (stK.output.length : Int) + 3)] ++
              Δk ++ Δv ++ rest =
              pre ++ ([Cell.cint (8 * (stK.output.length : Int) + 3)] ++
                (Δk ++ Δv)) ++ rest := by
            simp [List.append_assoc]
          rw [hS1] at hGk
          rw [hS2] at hGv
          rw [show (pre ++ [Cell.cint (8 * (stK.output.length : Int) + 3)]).length
            = pre.length + 1 by simp] at hGk
          rw [show ((pre ++ [Cell.cint (8 * (stK.output.length : Int) + 3)]) ++
            Δk).length = pre.length + 1 + Δk.length by
              simp only [List.length_append, List.length_cons, List.length_nil]] at hGv
          have huntilK : (Int.ofNat (pre.length + 1 + Δk.length)) =
              ((stK.output.length : Int)) := by
            simp only [Int.ofNat_eq_coe]
            push_cast
            omega
          rw [huntilK] at hGk
          refine ⟨max g0k g0v + 1, ?_⟩
          intro g hg
          cases g with
          | zero => exact absurd hg (by omega)
          | succ g =>
            rw [show (([Cell.cint (8 * (stK.output.length : Int) + 3)] ++
              (Δk ++ Δv)).getD 0 .cundef) =
              .cint (8 * (stK.output.length : Int) + 3) from rfl]
            rw [rebuildValue_maphdr hU28 g]
            dsimp only
            rw [hGk g g (by omega) (by omega)]
            dsimp only
            rw [show dks.length = (entries.map Prod.snd).length by
              rw [hdkslen]
              simp]
            rw [hGv g (by omega)]
            dsimp only
            rw [hfold]
            refine congrArg _ ?_
            refine congrArg _ ?_
            show (⟨⟨_, pre.length + 1 + Δk.length + Δv.length⟩,
              ((C ++ [DVal.dref m]) ++ Γk) ++ Γv,
              (D ++ Δdk ++ Δdv) ++ [(m, DNode.dmap (dks.zip dvs))], mv⟩ :
              RbSt CellRd) = _
            simp only [List.append_assoc, List.length_append, List.length_cons,
              List.length_nil]
            rw [show pre.length + 1 + Δk.length + Δv.length =
              pre.length + (1 + (Δk.length + Δv.length)) from by omega]
/-! ### The frame simulation, all cases and all fuels -/

theorem valSim_succ {H : Heap} {fuel : Nat} (hsc : SegChP H fuel)
    (hsv : SegValsP H fuel) : ValSimP H (fuel + 1) := by
  intro v e e' C D m opens hrun hWF hInv hAtom hLen hB hNotReg
  cases v with
  | prim p =>
    cases p with
    | undef =>
      exact valSim_scalar (p := .undef) rfl (fun g st => rfl)
        (fun h => absurd h (by simp)) hrun hInv hAtom hLen hB hNotReg
    | pnull =>
      exact valSim_scalar (p := .pnull) rfl (fun g st => rfl)
        (fun h => absurd h (by simp)) hrun hInv hAtom hLen hB hNotReg
    | pbool b =>
      exact valSim_scalar (p := .pbool b) rfl (fun g st => rfl)
        (fun h => absurd h (by simp)) hrun hInv hAtom hLen hB hNotReg
    | pstr s =>
      exact valSim_scalar (p := .pstr s) rfl (fun g st => rfl)
        (fun _ => Or.inl ⟨s, rfl, rfl⟩) hrun hInv hAtom hLen hB hNotReg
    | pnum n =>
      cases n with
      | i32 k =>
        exact valSim_int (show (JSNumber.i32 k).isInt = true from rfl)
          hrun hInv hAtom hLen hB hNotReg
      | f64 bits =>
        exact valSim_scalar
          (show plan defaultCfg H (.prim (.pnum (.f64 bits))) =
            ([.raw (.cf64 bits)], true) from rfl) (fun g st => rfl)
          (fun _ => Or.inr ⟨.f64 bits, rfl, rfl⟩) hrun hInv hAtom hLen hB
          hNotReg
      | nan =>
        exact valSim_scalar
          (show plan defaultCfg H (.prim (.pnum .nan)) =
            ([.raw .cnan], false) from rfl) (fun g st => rfl)
          (fun h => absurd h (by simp)) hrun hInv hAtom hLen hB hNotReg
  | ref id =>
    cases hH : H.getD id (.harr []) with
    | harr elems =>
      exact valSim_arr hsc hH hrun hWF hInv hAtom hLen hB hNotReg
    | hobj fields =>
      exact valSim_obj hsc hsv hH hrun hWF hInv hAtom hLen hB hNotReg
    | hmap entries =>
      exact valSim_map hsc hsv hH hrun hWF hInv hAtom hLen hB hNotReg
    | hset elems =>
      exact valSim_set hsc hH hrun hWF hInv hAtom hLen hB hNotReg
    | hcustom children =>
      exact (hWF.1 _ (getD_mem_of_ne hH (by simp))).elim

theorem valSim_all (H : Heap) : ∀ fuel, ValSimP H fuel := by
  intro fuel
  induction fuel with
  | zero =>
    intro v e e' C D m opens hrun
    exact Except.noConfusion hrun
  | succ fuel ih =>
    have hch := childSim_of_valSim ih
    exact valSim_succ (segCh_of_childSim hch) (segVals_of_childSim hch)
/-! ### The top-level composition: atomize, then rebuild -/

theorem Inv_nil (H : Heap) : Inv H [] [] [] 0 [] where
  nodupKeys := by simp
  corr := by intro k r h; exact absurd h (by simp)
  inj := by intro id1 id2 j h1; exact absurd h1 (by simp [regId, refsGet])
  nodupDefs := by simp
  defsLt := by intro e he; exact absurd he (by simp)
  defsCorr := by intro j node h; exact absurd h (by simp)
  closedCorr := by intro id r h hn; exact absurd h (by simp)

/-- One decoder step on a back-reference cell: the result is the cache entry
at the complement index, and no state changes. -/
theorem rebuildValue_backref {σ : Type} (r : ReadFn σ) (g : Nat) {b : Int}
    (hb : b < 0) (st : RbSt σ) :
    rebuildValue r (g + 1) (.cint b) st =
      .ok (some (st.cache.getD (jsNot b).toNat (.prim .undef)), st) := by
  simp only [rebuildValue]
  rw [if_pos hb]

/-- Atomizing a value from the initial state, then rebuilding the produced
stream, succeeds (at any large enough decoder fuel) and yields a decoded
value relating to the input by `valTrans`, under the final reference table
and decoder cache, with the full invariant and the encoder's atom-index in
lockstep with the cache length. -/
theorem atomize_rebuild {H : Heap} {fuel : Nat} {v : JSVal} {e' : AtSt}
    (hrun : atomizeValue defaultCfg H fuel v initSt = .ok e')
    (hWF : WFHeap H) (hB : e'.output.length ≤ 67108864) :
    ∃ (dv : DVal) (Γ : List DVal) (Δd : List (Nat × DNode)) (m' : Nat),
      ((Γ.length : Int) = e'.atomIndex + 1) ∧
      valTrans e'.refs Γ v dv ∧
      Inv H e'.refs Γ Δd m' [] ∧
      ∃ g0, ∀ g, g0 ≤ g →
        rebuild g e'.output =
          .ok (dv, ⟨⟨e'.output, e'.output.length⟩, Γ, Δd, m'⟩) := by
  cases fuel with
  | zero => exact Except.noConfusion hrun
  | succ fuel =>
    have hsim := valSim_all H (fuel + 1) v initSt e' [] [] 0 [] hrun hWF
      (Inv_nil H) (by simp [initSt]) (by simp [initSt]) hB
      (by simp [refsGet, initSt])
    obtain ⟨Δ, newRefs, hout, hΔne, hrefs, hj, hav, hai, hdec⟩ := hsim
    obtain ⟨res, dv, Γ2, Γ, Δd, m', hpush, hget, hΔdm, hm, hlock, hclen, htr,
      hInv, hrun2⟩ := hdec
    have hΔ : e'.output = Δ := by simpa using hout
    obtain ⟨g0, hg⟩ := hrun2 [] [] (by simp [hΔ])
    refine ⟨dv, Γ, Δd, m', by simpa using hlock, by simpa using htr,
      by simpa using hInv, g0 + 1, ?_⟩
    intro g hg1
    cases g with
    | zero => exact absurd hg1 (by omega)
    | succ g =>
      have hg' := hg (g + 1) (by omega)
      simp only [List.nil_append, List.append_nil, List.length_nil,
        Nat.zero_add] at hg'
      have h0lt : 0 < Δ.length := by
        cases Δ with
        | nil => exact absurd rfl hΔne
        | cons a as => simp
      rw [hΔ]
      have hpw := hpush ⟨Δ, Δ.length⟩ Δd m'
      simp only [List.nil_append, List.length_nil] at hpw
      have hnv : nextValue cellReadNext (g + 1)
          ⟨⟨Δ, 0⟩, [], [], 0⟩ = .ok (dv, ⟨⟨Δ, Δ.length⟩, Γ, Δd, m'⟩) := by
        simp only [nextValue, nextValueF]
        rw [cellReadNext_none_read h0lt]
        dsimp only
        rw [hg']
        dsimp only
        simp only [List.length_nil]
        rw [hpw]
      simp only [rebuild]
      rw [hnv]
      dsimp only
      rw [if_neg (by simp)]

/-- A registered input node at top level (no open frames): the cache slot its
table entry names holds a decoded node reference, logged in the defs with a
structure matching the input node. -/
theorem Inv_closed_node {H : Heap} {refs : List (RKey × Int)} {Γ : List DVal}
    {Δd : List (Nat × DNode)} {m' : Nat} (hInv : Inv H refs Γ Δd m' [])
    {id : Nat} {r : Int} (hmem : (.kref id, r) ∈ refs) :
    ∃ j node, Γ[derefIdx r]? = some (.dref j) ∧ (j, node) ∈ Δd ∧
      nodeTrans refs Γ (H.getD id (.harr [])) node := by
  obtain ⟨j, node, hreg, hD⟩ := hInv.closedCorr id r hmem (by simp)
  obtain ⟨id2, hreg2, htr⟩ := hInv.defsCorr j node hD
  have hid : id2 = id := hInv.inj id2 id j hreg2 hreg
  subst hid
  refine ⟨j, node, ?_, hD, htr⟩
  have hr : refsGet refs (.kref id2) = some r := mem_refsGet hInv.nodupKeys hmem
  simp only [regId, hr, Option.bind] at hreg
  simp only [derefVal] at hreg
  cases hΓ : Γ[derefIdx r]? with
  | none => rw [hΓ] at hreg; exact Option.noConfusion hreg
  | some dv0 =>
    rw [hΓ] at hreg
    cases dv0 with
    | dref j2 =>
      injection hreg with hreg
      subst hreg
      rfl
    | prim p => exact Option.noConfusion hreg
/-! ### Stream layout of Object and Map frames -/

theorem map_stream_layout {H : Heap} {fuel : Nat} (hsc : SegChP H fuel)
    (hsv : SegValsP H fuel)
    {id : Nat} {entries : List (JSVal × JSVal)}
    (hH : H.getD id (.harr []) = .hmap entries)
    {e e' : AtSt} {C : List DVal} {D : List (Nat × DNode)} {m : Nat}
    {opens : List Nat}
    (hrun : atomizeValue defaultCfg H (fuel + 1) (.ref id) e = .ok e')
    (hWF : WFHeap H)
    (hInv : Inv H e.refs C D m opens)
    (hAtom : (C.length : Int) = e.atomIndex)
    (hLen : C.length ≤ e.output.length)
    (hB : e'.output.length ≤ 67108864)
    (hNotReg : refsGet e.refs (keyOf (.ref id)) = none) :
    ∃ (Δsk Δsv : List (List Cell)),
      Δsk.length = entries.length ∧ Δsv.length = entries.length ∧
      (∀ d ∈ Δsk, d ≠ []) ∧ (∀ d ∈ Δsv, d ≠ []) ∧
      e'.output = e.output ++
        [Cell.cint (8 * ((e.output.length + 1 + Δsk.flatten.length : Nat) : Int)
          + AtomType.Map)] ++ Δsk.flatten ++ Δsv.flatten := by
  simp only [keyOf] at hNotReg
  rw [atomizeValue_succ_eq] at hrun
  rw [show plan defaultCfg H (.ref id) = encodeMap entries by
    simp only [plan]
    rw [hH]] at hrun
  simp only [encodeMap, keyOf] at hrun
  simp only [List.cons_append, List.nil_append] at hrun
  rw [show entries.map (fun en => WCmd.child en.1) =
    (entries.map Prod.fst).map WCmd.child by
      rw [List.map_map]
      rfl] at hrun
  rw [show entries.map (fun en => WCmd.child en.2) =
    (entries.map Prod.snd).map WCmd.child by
      rw [List.map_map]
      rfl] at hrun
  have hwA : write (atomizeValue defaultCfg H fuel) .allowSelf
      (AtSt.mk e.output e.refs e.jumps e.atomIndex e.atomIndex (.kref id)) =
      .ok (AtSt.mk e.output (refsSet e.refs (.kref id) (jsNot e.atomIndex))
        e.jumps e.atomIndex (jsNot e.atomIndex) .kRAW) := by
    rw [write_allowSelf_active _ (show RKey.kref id ≠ .kRAW by simp)
      (show e.atomIndex ≥ 0 by omega)]
  have hwB : write (atomizeValue defaultCfg H fuel) (.pushJump AtomType.Map)
      (AtSt.mk e.output (refsSet e.refs (.kref id) (jsNot e.atomIndex))
        e.jumps e.atomIndex (jsNot e.atomIndex) .kRAW) =
      .ok (AtSt.mk (e.output ++ [.cint AtomType.Map])
        (refsSet e.refs (.kref id) (jsNot e.atomIndex))
        (e.output.length :: e.jumps) e.atomIndex (jsNot e.atomIndex) .kRAW) := by
    rw [write_pushJump]
  rw [runCmds_cons_ok _ hwA, runCmds_cons_ok _ hwB, runCmds_append,
    runCmds_append] at hrun
  cases hseg : runCmds (write (atomizeValue defaultCfg H fuel))
      ((entries.map Prod.fst).map WCmd.child)
      (AtSt.mk (e.output ++ [.cint AtomType.Map])
        (refsSet e.refs (.kref id) (jsNot e.atomIndex))
        (e.output.length :: e.jumps) e.atomIndex (jsNot e.atomIndex) .kRAW) with
  | error er =>
    rw [hseg] at hrun
    dsimp only at hrun
    exact Except.noConfusion hrun
  | ok stK =>
    rw [hseg] at hrun
    dsimp only at hrun
    simp only [runCmds] at hrun
    cases hwp : write (atomizeValue defaultCfg H fuel) .popJump stK with
    | error er =>
      rw [hwp] at hrun
      dsimp only at hrun
      exact Except.noConfusion hrun
    | ok stD =>
      rw [hwp] at hrun
      dsimp only at hrun
      cases hsegv : runCmds (write (atomizeValue defaultCfg H fuel))
          ((entries.map Prod.snd).map WCmd.child) stD with
      | error er =>
        rw [hsegv] at hrun
        dsimp only at hrun
        exact Except.noConfusion hrun
      | ok stC =>
        rw [hsegv] at hrun
        dsimp only at hrun
        obtain ⟨hrefsD, hatomD, haiD, havD, hlenD, i, restJ, hjC, hjD,
          houtD⟩ := popJump_inv hwp
        have hEout : e'.output = stC.output := closeFrame_ok_output hrun
        have hmonoBK : e.output.length + 1 ≤ stK.output.length := by
          have := runCmds_len_mono
            (fun c s s' hc =>
              write_len_mono (atomizeValue_len_mono defaultCfg H fuel) c s s' hc)
            _ _ _ hseg
          simpa using this
        have hmonoDC : stD.output.length ≤ stC.output.length :=
          runCmds_len_mono
            (fun c s s' hc =>
              write_len_mono (atomizeValue_len_mono defaultCfg H fuel) c s s' hc)
            _ _ _ hsegv
        have hBC : stC.output.length ≤ 67108864 := by
          have h1 : e'.output.length = stC.output.length := by rw [hEout]
          omega
        have hBK : stK.output.length ≤ 67108864 := by omega
        have hnot : jsNot e.atomIndex = -((C.length : Int) + 1) := by
          rw [← hAtom, jsNot_eq (by omega) (by omega)]
        have hrefsB : refsSet e.refs (RKey.kref id) (jsNot e.atomIndex) =
            e.refs ++ [(RKey.kref id, -((C.length : Int) + 1))] := by
          rw [refsSet_not_mem _ hNotReg, hnot]
        obtain ⟨Δk, nRk, hoK, hrK, hjKc, havK, haiK, hsegk⟩ :=
          hsc (entries.map Prod.fst) _ stK
            (C ++ [.dref m]) D (m + 1) (id :: opens) hseg hWF
            (by
              show Inv H (refsSet e.refs (RKey.kref id) (jsNot e.atomIndex)) _ _ _ _
              rw [hrefsB]
              exact Inv_register_node hInv hNotReg (by omega))
            (by
              show ((C ++ [DVal.dref m]).length : Int) = e.atomIndex + 1
              simp only [List.length_append, List.length_cons, List.length_nil]
              push_cast
              omega)
            (by
              show (C ++ [DVal.dref m]).length ≤
                (e.output ++ [Cell.cint AtomType.Map]).length
              simp only [List.length_append, List.length_cons, List.length_nil]
              omega)
            hBK
            (by
              show jsNot e.atomIndex < 0
              rw [hnot]
              omega)
        obtain ⟨dks, Γk, Δdk, mk2, hΔdk, hmk, hlockK, hclenK, hfaK, hInvK,
          hΔsK, hrunK⟩ := hsegk
        obtain ⟨Δv, nRv, hoV, hrV, hjVc, havV, haiV, hsegv2⟩ :=
          hsv (entries.map Prod.snd) stD stC ((C ++ [.dref m]) ++ Γk)
            (D ++ Δdk) mk2 (id :: opens) hsegv hWF
            (by rw [hrefsD]; exact hInvK)
            (by rw [hatomD]; exact hlockK)
            (by
              have h2 : stD.output.length = stK.output.length := hlenD
              omega)
            hBC
            (by
              rw [haiD, haiK]
              show jsNot e.atomIndex < 0
              rw [hnot]
              omega)
        obtain ⟨dvs, Γv, Δdv, mv, hΔdv, hmv, hlockV, hclenV, hfaV, hInvV,
          hΔsV, hrunV⟩ := hsegv2
        have hjBK : stK.jumps = e.output.length :: e.jumps := hjKc
        rw [hjBK] at hjC
        obtain ⟨hi, hrest⟩ := List.cons.inj hjC.symm
        subst hi
        subst hrest
        have hoK2 : stK.output = e.output ++ [Cell.cint AtomType.Map] ++ Δk :=
          hoK
        have hgetD : stK.output.getD e.output.length (.cint 0) =
            .cint AtomType.Map := by
          rw [hoK2, getD_append_first e.output [Cell.cint AtomType.Map] Δk _
            (by simp)]
          rfl
        have hU28 : stK.output.length < 268435456 := by omega
        have hcomb : jsOr (jsShl (Int.ofNat stK.output.length) 3)
            (cellToInt (stK.output.getD e.output.length (.cint 0))) =
            8 * (stK.output.length : Int) + 3 := by
          rw [hgetD]
          rw [show cellToInt (Cell.cint AtomType.Map) = AtomType.Map from
            rfl]
          rw [jsOr_header hU28 (by decide) (by decide)]
          rfl
        have houtD2 : stD.output =
            e.output ++ [Cell.cint (8 * (stK.output.length : Int) + 3)] ++ Δk := by
          rw [houtD, hcomb, hoK2, set_append_first _ _ _ _ (by simp)]
          rfl
        have hoC2 : stC.output =
            e.output ++ [Cell.cint (8 * (stK.output.length : Int) + 3)] ++ Δk
              ++ Δv := by
          rw [hoV, houtD2]
        have hΔklen : stK.output.length = e.output.length + 1 + Δk.length := by
          rw [hoK2]
          simp only [List.length_append, List.length_cons, List.length_nil]
        obtain ⟨Δsk, hKf, hKl, hKne⟩ := hΔsK
        obtain ⟨Δsv, hVf, hVl, hVne⟩ := hΔsV
        refine ⟨Δsk, Δsv, by simpa using hKl, by simpa using hVl, hKne, hVne,
          ?_⟩
        rw [hEout, hoC2, ← hKf, ← hVf, ← hΔklen]
        rfl

theorem obj_stream_layout {H : Heap} {fuel : Nat} (hsc : SegChP H fuel)
    (hsv : SegValsP H fuel)
    {id : Nat} {fields : List (String × JSVal)}
    (hH : H.getD id (.harr []) = .hobj fields)
    {e e' : AtSt} {C : List DVal} {D : List (Nat × DNode)} {m : Nat}
    {opens : List Nat}
    (hrun : atomizeValue defaultCfg H (fuel + 1) (.ref id) e = .ok e')
    (hWF : WFHeap H)
    (hInv : Inv H e.refs C D m opens)
    (hAtom : (C.length : Int) = e.atomIndex)
    (hLen : C.length ≤ e.output.length)
    (hB : e'.output.length ≤ 67108864)
    (hNotReg : refsGet e.refs (keyOf (.ref id)) = none) :
    ∃ (Δsk Δsv : List (List Cell)),
      Δsk.length = fields.length ∧ Δsv.length = fields.length ∧
      (∀ d ∈ Δsk, d ≠ []) ∧ (∀ d ∈ Δsv, d ≠ []) ∧
      e'.output = e.output ++
        [Cell.cint (8 * ((e.output.length + 1 + Δsk.flatten.length : Nat) : Int)
          + AtomType.Object)] ++ Δsk.flatten ++ Δsv.flatten := by
  simp only [keyOf] at hNotReg
  rw [atomizeValue_succ_eq] at hrun
  rw [show plan defaultCfg H (.ref id) = encodeObject fields by
    simp only [plan]
    rw [hH]] at hrun
  simp only [encodeObject, keyOf] at hrun
  simp only [List.cons_append, List.nil_append] at hrun
  rw [show fields.map (fun f => WCmd.child (JSVal.prim (.pstr f.1))) =
    (fields.map (fun f => JSVal.prim (.pstr f.1))).map WCmd.child by
      rw [List.map_map]
      rfl] at hrun
  rw [show fields.map (fun f => WCmd.child f.2) =
    (fields.map Prod.snd).map WCmd.child by
      rw [List.map_map]
      rfl] at hrun
  have hwA : write (atomizeValue defaultCfg H fuel) .allowSelf
      (AtSt.mk e.output e.refs e.jumps e.atomIndex e.atomIndex (.kref id)) =
      .ok (AtSt.mk e.output (refsSet e.refs (.kref id) (jsNot e.atomIndex))
        e.jumps e.atomIndex (jsNot e.atomIndex) .kRAW) := by
    rw [write_allowSelf_active _ (show RKey.kref id ≠ .kRAW by simp)
      (show e.atomIndex ≥ 0 by omega)]
  have hwB : write (atomizeValue defaultCfg H fuel) (.pushJump AtomType.Object)
      (AtSt.mk e.output (refsSet e.refs (.kref id) (jsNot e.atomIndex))
        e.jumps e.atomIndex (jsNot e.atomIndex) .kRAW) =
      .ok (AtSt.mk (e.output ++ [.cint AtomType.Object])
        (refsSet e.refs (.kref id) (jsNot e.atomIndex))
        (e.output.length :: e.jumps) e.atomIndex (jsNot e.atomIndex) .kRAW) := by
    rw [write_pushJump]
  rw [runCmds_cons_ok _ hwA, runCmds_cons_ok _ hwB, runCmds_append,
    runCmds_append] at hrun
  cases hseg : runCmds (write (atomizeValue defaultCfg H fuel))
      ((fields.map (fun f => JSVal.prim (.pstr f.1))).map WCmd.child)
      (AtSt.mk (e.output ++ [.cint AtomType.Object])
        (refsSet e.refs (.kref id) (jsNot e.atomIndex))
        (e.output.length :: e.jumps) e.atomIndex (jsNot e.atomIndex) .kRAW) with
  | error er =>
    rw [hseg] at hrun
    dsimp only at hrun
    exact Except.noConfusion hrun
  | ok stK =>
    rw [hseg] at hrun
    dsimp only at hrun
    simp only [runCmds] at hrun
    cases hwp : write (atomizeValue defaultCfg H fuel) .popJump stK with
    | error er =>
      rw [hwp] at hrun
      dsimp only at hrun
      exact Except.noConfusion hrun
    | ok stD =>
      rw [hwp] at hrun
      dsimp only at hrun
      cases hsegv : runCmds (write (atomizeValue defaultCfg H fuel))
          ((fields.map Prod.snd).map WCmd.child) stD with
      | error er =>
        rw [hsegv] at hrun
        dsimp only at hrun
        exact Except.noConfusion hrun
      | ok stC =>
        rw [hsegv] at hrun
        dsimp only at hrun
        obtain ⟨hrefsD, hatomD, haiD, havD, hlenD, i, restJ, hjC, hjD,
          houtD⟩ := popJump_inv hwp
        have hEout : e'.output = stC.output := closeFrame_ok_output hrun
        have hmonoBK : e.output.length + 1 ≤ stK.output.length := by
          have := runCmds_len_mono
            (fun c s s' hc =>
              write_len_mono (atomizeValue_len_mono defaultCfg H fuel) c s s' hc)
            _ _ _ hseg
          simpa using this
        have hmonoDC : stD.output.length ≤ stC.output.length :=
          runCmds_len_mono
            (fun c s s' hc =>
              write_len_mono (atomizeValue_len_mono defaultCfg H fuel) c s s' hc)
            _ _ _ hsegv
        have hBC : stC.output.length ≤ 67108864 := by
          have h1 : e'.output.length = stC.output.length := by rw [hEout]
          omega
        have hBK : stK.output.length ≤ 67108864 := by omega
        have hnot : jsNot e.atomIndex = -((C.length : Int) + 1) := by
          rw [← hAtom, jsNot_eq (by omega) (by omega)]
        have hrefsB : refsSet e.refs (RKey.kref id) (jsNot e.atomIndex) =
            e.refs ++ [(RKey.kref id, -((C.length : Int) + 1))] := by
          rw [refsSet_not_mem _ hNotReg, hnot]
        obtain ⟨Δk, nRk, hoK, hrK, hjKc, havK, haiK, hsegk⟩ :=
          hsc (fields.map (fun f => JSVal.prim (.pstr f.1))) _ stK
            (C ++ [.dref m]) D (m + 1) (id :: opens) hseg hWF
            (by
              show Inv H (refsSet e.refs (RKey.kref id) (jsNot e.atomIndex)) _ _ _ _
              rw [hrefsB]
              exact Inv_register_node hInv hNotReg (by omega))
            (by
              show ((C ++ [DVal.dref m]).length : Int) = e.atomIndex + 1
              simp only [List.length_append, List.length_cons, List.length_nil]
              push_cast
              omega)
            (by
              show (C ++ [DVal.dref m]).length ≤
                (e.output ++ [Cell.cint AtomType.Object]).length
              simp only [List.length_append, List.length_cons, List.length_nil]
              omega)
            hBK
            (by
              show jsNot e.atomIndex < 0
              rw [hnot]
              omega)
        obtain ⟨dks, Γk, Δdk, mk2, hΔdk, hmk, hlockK, hclenK, hfaK, hInvK,
          hΔsK, hrunK⟩ := hsegk
        obtain ⟨Δv, nRv, hoV, hrV, hjVc, havV, haiV, hsegv2⟩ :=
          hsv (fields.map Prod.snd) stD stC ((C ++ [.dref m]) ++ Γk)
            (D ++ Δdk) mk2 (id :: opens) hsegv hWF
            (by rw [hrefsD]; exact hInvK)
            (by rw [hatomD]; exact hlockK)
            (by
              have h2 : stD.output.length = stK.output.length := hlenD
              omega)
            hBC
            (by
              rw [haiD, haiK]
              show jsNot e.atomIndex < 0
              rw [hnot]
              omega)
        obtain ⟨dvs, Γv, Δdv, mv, hΔdv, hmv, hlockV, hclenV, hfaV, hInvV,
          hΔsV, hrunV⟩ := hsegv2
        have hjBK : stK.jumps = e.output.length :: e.jumps := hjKc
        rw [hjBK] at hjC
        obtain ⟨hi, hrest⟩ := List.cons.inj hjC.symm
        subst hi
        subst hrest
        have hoK2 : stK.output = e.output ++ [Cell.cint AtomType.Object] ++ Δk :=
          hoK
        have hgetD : stK.output.getD e.output.length (.cint 0) =
            .cint AtomType.Object := by
          rw [hoK2, getD_append_first e.output [Cell.cint AtomType.Object] Δk _
            (by simp)]
          rfl
        have hU28 : stK.output.length < 268435456 := by omega
        have hcomb : jsOr (jsShl (Int.ofNat stK.output.length) 3)
            (cellToInt (stK.output.getD e.output.length (.cint 0))) =
            8 * (stK.output.length : Int) + 2 := by
          rw [hgetD]
          rw [show cellToInt (Cell.cint AtomType.Object) = AtomType.Object from
            rfl]
          rw [jsOr_header hU28 (by decide) (by decide)]
          rfl
        have houtD2 : stD.output =
            e.output ++ [Cell.cint (8 * (stK.output.length : Int) + 2)] ++ Δk := by
          rw [houtD, hcomb, hoK2, set_append_first _ _ _ _ (by simp)]
          rfl
        have hoC2 : stC.output =
            e.output ++ [Cell.cint (8 * (stK.output.length : Int) + 2)] ++ Δk
              ++ Δv := by
          rw [hoV, houtD2]
        have hΔklen : stK.output.length = e.output.length + 1 + Δk.length := by
          rw [hoK2]
          simp only [List.length_append, List.length_cons, List.length_nil]
        obtain ⟨Δsk, hKf, hKl, hKne⟩ := hΔsK
        obtain ⟨Δsv, hVf, hVl, hVne⟩ := hΔsV
        refine ⟨Δsk, Δsv, by simpa using hKl, by simpa using hVl, hKne, hVne,
          ?_⟩
        rw [hEout, hoC2, ← hKf, ← hVf, ← hΔklen]
        rfl
/-- C6: for every Object or Map value, the stream produced by the default
builders consists of a header whose until-index points just past the key
region, then one non-empty cell block per key (in the container's iteration
order, one block per entry), then one non-empty cell block per value; and
for a map, the decoded node logged by the rebuilder is a map whose entry
list corresponds to the input's entries pointwise in the same iteration
order. -/
theorem claim_C6_stream_and_order {H : Heap} {fuel : Nat} {id : Nat}
    {cells : List Cell}
    (hrun : atomizeDefault H fuel (.ref id) = .ok cells)
    (hWF : WFHeap H) (hB : cells.length ≤ 67108864) :
    (∀ fields, H.getD id (.harr []) = .hobj fields →
      ∃ (Δsk Δsv : List (List Cell)),
        Δsk.length = fields.length ∧ Δsv.length = fields.length ∧
        (∀ d ∈ Δsk, d ≠ []) ∧ (∀ d ∈ Δsv, d ≠ []) ∧
        cells = .cint (8 * ((1 + Δsk.flatten.length : Nat) : Int) +
          AtomType.Object) :: (Δsk.flatten ++ Δsv.flatten))
    ∧ (∀ entries, H.getD id (.harr []) = .hmap entries →
      (∃ (Δsk Δsv : List (List Cell)),
        Δsk.length = entries.length ∧ Δsv.length = entries.length ∧
        (∀ d ∈ Δsk, d ≠ []) ∧ (∀ d ∈ Δsv, d ≠ []) ∧
        cells = .cint (8 * ((1 + Δsk.flatten.length : Nat) : Int) +
          AtomType.Map) :: (Δsk.flatten ++ Δsv.flatten)) ∧
      ∃ (g0 : Nat) (Γ : List DVal) (Δd : List (Nat × DNode)) (m' j : Nat)
        (qs : List (DVal × DVal)) (refs2 : List (RKey × Int)),
        (∀ g, g0 ≤ g → rebuild g cells =
          .ok (.dref j, ⟨⟨cells, cells.length⟩, Γ, Δd, m'⟩)) ∧
        (j, .dmap qs) ∈ Δd ∧
        List.Forall₂ (fun p q => valTrans refs2 Γ p.1 q.1 ∧
          valTrans refs2 Γ p.2 q.2) entries qs) := by
  simp only [atomizeDefault, atomize] at hrun
  cases hat : atomizeValue defaultCfg H fuel (.ref id) initSt with
  | error er =>
    rw [hat] at hrun
    exact Except.noConfusion hrun
  | ok e' =>
    rw [hat] at hrun
    dsimp only at hrun
    injection hrun with hcells
    subst hcells
    cases fuel with
    | zero => exact Except.noConfusion hat
    | succ f =>
      have hch := childSim_of_valSim (valSim_all H f)
      have hsc := segCh_of_childSim hch
      have hsv := segVals_of_childSim hch
      constructor
      · intro fields hH
        obtain ⟨Δsk, Δsv, hKl, hVl, hKne, hVne, hout⟩ :=
          obj_stream_layout hsc hsv hH hat hWF (Inv_nil H) (by simp [initSt])
            (by simp [initSt]) hB (by simp [refsGet, initSt])
        exact ⟨Δsk, Δsv, hKl, hVl, hKne, hVne, by simpa [initSt] using hout⟩
      · intro entries hH
        constructor
        · obtain ⟨Δsk, Δsv, hKl, hVl, hKne, hVne, hout⟩ :=
            map_stream_layout hsc hsv hH hat hWF (Inv_nil H) (by simp [initSt])
              (by simp [initSt]) hB (by simp [refsGet, initSt])
          exact ⟨Δsk, Δsv, hKl, hVl, hKne, hVne, by simpa [initSt] using hout⟩
        · obtain ⟨dv, Γ, Δd, m', hlock, htr, hInv, g0, hrb⟩ :=
            atomize_rebuild hat hWF hB
          obtain ⟨j, hreg, hdv⟩ := htr
          subst hdv
          simp only [regId] at hreg
          cases hr : refsGet e'.refs (.kref id) with
          | none =>
            rw [hr] at hreg
            exact Option.noConfusion hreg
          | some rv =>
            rw [hr] at hreg
            simp only [Option.bind] at hreg
            have hmem := refsGet_mem hr
            obtain ⟨j2, node, hslot, hD, htr2⟩ := Inv_closed_node hInv hmem
            simp only [derefVal, hslot] at hreg
            injection hreg with hreg
            subst hreg
            rw [hH] at htr2
            cases node with
            | dmap qs =>
              exact ⟨g0, Γ, Δd, m', j2, qs, e'.refs, hrb, hD, htr2⟩
            | darr es => exact htr2.elim
            | dobj gs => exact htr2.elim
            | dset ds => exact htr2.elim

/-- C10: the encoder's atom-index and the rebuilder's cache are in lockstep
(the final cache holds atom-index + 1 entries, one per value occurrence,
back-references and non-cacheable scalars included), and a back-reference
cell `b` read by `rebuildValue` resolves to `cache[~b]`; every entry of the
final reference table names a cache slot holding the decoded form of the
registered value (its string or number content, or the decoded node logged
for the registered input node). -/
theorem claim_C10_lockstep_backrefs {H : Heap} {fuel : Nat} {v : JSVal}
    {e' : AtSt}
    (hrun : atomizeValue defaultCfg H fuel v initSt = .ok e')
    (hWF : WFHeap H) (hB : e'.output.length ≤ 67108864) :
    (∀ (σ : Type) (r : ReadFn σ) (g : Nat) (b : Int) (st : RbSt σ), b < 0 →
      rebuildValue r (g + 1) (.cint b) st =
        .ok (some (st.cache.getD (jsNot b).toNat (.prim .undef)), st)) ∧
    ∃ (dv : DVal) (Γ : List DVal) (Δd : List (Nat × DNode)) (m' : Nat),
      ((Γ.length : Int) = e'.atomIndex + 1) ∧
      (∃ g0, ∀ g, g0 ≤ g → rebuild g e'.output =
        .ok (dv, ⟨⟨e'.output, e'.output.length⟩, Γ, Δd, m'⟩)) ∧
      (∀ k rv, (k, rv) ∈ e'.refs → keyCorr Γ m' k rv) ∧
      (∀ nid rv, (.kref nid, rv) ∈ e'.refs →
        ∃ j node, Γ[derefIdx rv]? = some (.dref j) ∧ (j, node) ∈ Δd ∧
          nodeTrans e'.refs Γ (H.getD nid (.harr [])) node) := by
  refine ⟨fun σ r g b st hb => rebuildValue_backref r g hb st, ?_⟩
  obtain ⟨dv, Γ, Δd, m', hlock, htr, hInv, g0, hrb⟩ := atomize_rebuild hrun hWF hB
  exact ⟨dv, Γ, Δd, m', hlock, ⟨g0, hrb⟩,
    fun k rv hm => hInv.corr k rv hm,
    fun nid rv hm => Inv_closed_node hInv hm⟩
/-! ### Concrete claim inputs -/

/-- The heap of `x = [1]; x.push(x)`: node 0 is the array `[1, x]`. -/
def cyclicArrayHeap : Heap := [.harr [.prim (.pnum (.i32 1)), .ref 0]]

/-- The atom stream of the cyclic array. -/
def cyclicArrayCells : List Cell := [.cint 33, .cint 0, .cint 1, .cint (-1)]

set_option maxRecDepth 8000

/-! ### Claim theorems -/

/-- C2: for the cyclic input `x = [1]; x.push(x)`, atomizing with the default
builders produces the four-cell stream `[header, AsIs, 1, backref]` whose
header `33` carries atom kind `Array` and until-index `4` and whose
back-reference cell `-1` is the complement of the array's own atom-index `0`;
rebuilding the stream, and deserializing its serialization, both yield an
array `y` (node 0 of the decode heap) with `y.length = 2`, `y[0] = 1`, and
`y[1]` the identical object `y` (the same node id). -/
theorem claim_C2_cyclic_array :
    atomizeDefault cyclicArrayHeap 100 (.ref 0) = .ok cyclicArrayCells
    ∧ (jsAnd 33 7 = AtomType.Array ∧ jsShr 33 3 = 4 ∧ jsNot (-1) = 0)
    ∧ (rebuild 100 cyclicArrayCells).map (fun p => (p.1, p.2.defs)) =
        .ok (.dref 0, [(0, .darr [.prim (.pnum (.i32 1)), .dref 0])])
    ∧ serialize 100 cyclicArrayCells = .ok [35, 20, 2]
    ∧ (deserialize 100 [35, 20, 2]).map (fun p => (p.1, p.2.defs)) =
        .ok (.dref 0, [(0, .darr [.prim (.pnum (.i32 1)), .dref 0])]) := by
  refine ⟨?_, ⟨?_, ?_, ?_⟩, ?_, ?_, ?_⟩ <;>
  simp [atomizeDefault, atomize, atomizeValue, runCmds, write, plan, encodeArray, encodeObject, encodeMap, encodeSet, customEncoder, encodeNumber, refsGet, refsSet, refsErase, jsNot, toInt32, toUint32, jsOr, jsShl, jsShr, jsShrU, jsAnd, landN, lorN, cellToInt, keyOf, initSt, cellOfNum, JSNumber.isInt, JSNumber.isNaN, defaultCfg, AtomType.AsIs, AtomType.Array, AtomType.Object, AtomType.Map, AtomType.Set, AtomType.Custom,
    rebuild, nextValue, nextValueF, pushWrap, rebuildValue, rebuildUntilF, readValuesF, cellReadNext, dvalOfCell, jsPropKey, objSet, mapSet, setAdd,
    serialize, serializeNext, serChildrenF, serValuesF, serScalar, serInt, serPopJump, pushByte, serializePosInt, posIntBytes, f64Bytes, utf8Bytes, utf8Char, STComplexAtom, STBackReference, STInt, STString, STVoid, STNull, STTrue, STFalse, STNaN, STFloat64,
    deserialize, byteReadNext, readVarInt, readVarIntAux, utf8Decode, utf8DecodeAux, cyclicArrayHeap, cyclicArrayCells, Except.map]

/-- C3 counterexample: a cacheable custom-encoded value that emitted one
child and occurs twice in the graph is *not* emitted as a back-reference the
second time: the encode aborts with the infinite-loop error, because the
sentinel `0` installed at its first child write is never replaced by its
atom-index (`atomizeValue` only re-registers a cacheable value when
`activeIndex` is still nonnegative, i.e. when no child was written). -/
theorem claim_C3_counterexample :
    atomize { allowSelf := false, cacheable := true }
      [.harr [.ref 1, .ref 1], .hcustom [.prim (.pnum (.i32 5))]] 100 (.ref 0)
      = .error .infiniteLoop := by
  simp [atomizeDefault, atomize, atomizeValue, runCmds, write, plan, encodeArray, encodeObject, encodeMap, encodeSet, customEncoder, encodeNumber, refsGet, refsSet, refsErase, jsNot, toInt32, toUint32, jsOr, jsShl, jsShr, jsShrU, jsAnd, landN, lorN, cellToInt, keyOf, initSt, cellOfNum, JSNumber.isInt, JSNumber.isNaN, defaultCfg, AtomType.AsIs, AtomType.Array, AtomType.Object, AtomType.Map, AtomType.Set, AtomType.Custom,
    rebuild, nextValue, nextValueF, pushWrap, rebuildValue, rebuildUntilF, readValuesF, cellReadNext, dvalOfCell, jsPropKey, objSet, mapSet, setAdd,
    serialize, serializeNext, serChildrenF, serValuesF, serScalar, serInt, serPopJump, pushByte, serializePosInt, posIntBytes, f64Bytes, utf8Bytes, utf8Char, STComplexAtom, STBackReference, STInt, STString, STVoid, STNull, STTrue, STFalse, STNaN, STFloat64,
    deserialize, byteReadNext, readVarInt, readVarIntAux, utf8Decode, utf8DecodeAux, cyclicArrayHeap, cyclicArrayCells, Except.map]

/-- C3 (amended): the sentinel `0` is installed under a composite's identity
only when the composite writes a child before `AllowSelfReference`; the
default builders call `AllowSelfReference` before any child, so their table
entry is the complement of their atom-index for the whole encode (shown for
the cyclic array: the final table holds the complement `-1` of the array's
atom-index `0`, and the encode succeeds rather than failing on a sentinel).
On close, a cacheable frame is registered only if no child write occurred: a
cacheable custom builder with no children occurring twice does
back-reference, while one that emitted children without `AllowSelfReference`
keeps the sentinel, so its second occurrence aborts with the infinite-loop
error; calling `AllowSelfReference` first restores back-referencing. -/
theorem claim_C3_amended :
    (atomizeValue defaultCfg cyclicArrayHeap 100 (.ref 0) initSt).map
        (fun st => st.refs) =
      .ok [(.kref 0, -1), (.knum (.i32 1), -2)]
    ∧ atomize { allowSelf := false, cacheable := true }
        [.harr [.ref 1, .ref 1], .hcustom []] 100 (.ref 0) =
      .ok [.cint 25, .cint 21, .cint (-2)]
    ∧ atomize { allowSelf := false, cacheable := true }
        [.harr [.ref 1, .ref 1], .hcustom [.prim (.pnum (.i32 5))]] 100
        (.ref 0) = .error .infiniteLoop
    ∧ atomize { allowSelf := true, cacheable := true }
        [.harr [.ref 1, .ref 1], .hcustom [.prim (.pnum (.i32 5))]] 100
        (.ref 0) = .ok [.cint 41, .cint 37, .cint 0, .cint 5, .cint (-2)] := by
  refine ⟨?_, ?_, ?_, ?_⟩ <;>
  simp [atomizeDefault, atomize, atomizeValue, runCmds, write, plan, encodeArray, encodeObject, encodeMap, encodeSet, customEncoder, encodeNumber, refsGet, refsSet, refsErase, jsNot, toInt32, toUint32, jsOr, jsShl, jsShr, jsShrU, jsAnd, landN, lorN, cellToInt, keyOf, initSt, cellOfNum, JSNumber.isInt, JSNumber.isNaN, defaultCfg, AtomType.AsIs, AtomType.Array, AtomType.Object, AtomType.Map, AtomType.Set, AtomType.Custom,
    rebuild, nextValue, nextValueF, pushWrap, rebuildValue, rebuildUntilF, readValuesF, cellReadNext, dvalOfCell, jsPropKey, objSet, mapSet, setAdd,
    serialize, serializeNext, serChildrenF, serValuesF, serScalar, serInt, serPopJump, pushByte, serializePosInt, posIntBytes, f64Bytes, utf8Bytes, utf8Char, STComplexAtom, STBackReference, STInt, STString, STVoid, STNull, STTrue, STFalse, STNaN, STFloat64,
    deserialize, byteReadNext, readVarInt, readVarIntAux, utf8Decode, utf8DecodeAux, cyclicArrayHeap, cyclicArrayCells, Except.map]

/-- C4 counterexample: an input graph in which the string `"ab"` occurs in
two places (in JS, two equal strings are indistinguishable as `Map` keys: the
reference table keys strings by content, not by heap identity) is *not*
encoded twice in full: the stream holds one full string cell and one
back-reference cell. -/
theorem claim_C4_counterexample :
    atomizeDefault [.harr [.prim (.pstr "ab"), .prim (.pstr "ab")]] 100
        (.ref 0) = .ok [.cint 25, .cstr "ab", .cint (-2)]
    ∧ [Cell.cint 25, .cstr "ab", .cint (-2)].count (.cstr "ab") = 1
    ∧ [Cell.cint 25, .cstr "ab", .cint (-2)].contains (.cint (-2)) = true :=
  ⟨by simp [atomizeDefault, atomize, atomizeValue, runCmds, write, plan, encodeArray, encodeObject, encodeMap, encodeSet, customEncoder, encodeNumber, refsGet, refsSet, refsErase, jsNot, toInt32, toUint32, jsOr, jsShl, jsShr, jsShrU, jsAnd, landN, lorN, cellToInt, keyOf, initSt, cellOfNum, JSNumber.isInt, JSNumber.isNaN, defaultCfg, AtomType.AsIs, AtomType.Array, AtomType.Object, AtomType.Map, AtomType.Set, AtomType.Custom,
    rebuild, nextValue, nextValueF, pushWrap, rebuildValue, rebuildUntilF, readValuesF, cellReadNext, dvalOfCell, jsPropKey, objSet, mapSet, setAdd,
    serialize, serializeNext, serChildrenF, serValuesF, serScalar, serInt, serPopJump, pushByte, serializePosInt, posIntBytes, f64Bytes, utf8Bytes, utf8Char, STComplexAtom, STBackReference, STInt, STString, STVoid, STNull, STTrue, STFalse, STNaN, STFloat64,
    deserialize, byteReadNext, readVarInt, readVarIntAux, utf8Decode, utf8DecodeAux, cyclicArrayHeap, cyclicArrayCells, List.count, List.countP, List.countP.go],
   by decide, by decide⟩

/-- C4 (amended): the reference table is a JS `Map`, keyed by SameValueZero
equality — strings by content, composites by object identity.  Two
occurrences of an equal string produce one full encoding and one
back-reference (shown for `"ab"`), while two distinct-but-equal composite
objects (two empty arrays) are each encoded in full. -/
theorem claim_C4_amended :
    atomizeDefault [.harr [.prim (.pstr "ab"), .prim (.pstr "ab")]] 100
        (.ref 0) = .ok [.cint 25, .cstr "ab", .cint (-2)]
    ∧ atomizeDefault [.harr [.ref 1, .ref 2], .harr [], .harr []] 100
        (.ref 0) = .ok [.cint 25, .cint 17, .cint 25] :=
   by
  refine ⟨?_, ?_⟩ <;>
  simp [atomizeDefault, atomize, atomizeValue, runCmds, write, plan, encodeArray, encodeObject, encodeMap, encodeSet, customEncoder, encodeNumber, refsGet, refsSet, refsErase, jsNot, toInt32, toUint32, jsOr, jsShl, jsShr, jsShrU, jsAnd, landN, lorN, cellToInt, keyOf, initSt, cellOfNum, JSNumber.isInt, JSNumber.isNaN, defaultCfg, AtomType.AsIs, AtomType.Array, AtomType.Object, AtomType.Map, AtomType.Set, AtomType.Custom,
    rebuild, nextValue, nextValueF, pushWrap, rebuildValue, rebuildUntilF, readValuesF, cellReadNext, dvalOfCell, jsPropKey, objSet, mapSet, setAdd,
    serialize, serializeNext, serChildrenF, serValuesF, serScalar, serInt, serPopJump, pushByte, serializePosInt, posIntBytes, f64Bytes, utf8Bytes, utf8Char, STComplexAtom, STBackReference, STInt, STString, STVoid, STNull, STTrue, STFalse, STNaN, STFloat64,
    deserialize, byteReadNext, readVarInt, readVarIntAux, utf8Decode, utf8DecodeAux, cyclicArrayHeap, cyclicArrayCells, Except.map]

/-- C5 counterexample: the default number builder returns *cacheable* for the
small integer `1` (it returns `true` for every value with
`num === (num | 0)`), and an input in which `1` occurs twice emits the second
occurrence as a back-reference cell `-2`, not inline. -/
theorem claim_C5_counterexample :
    (encodeNumber (.i32 1)).2 = true
    ∧ (-128 ≤ (1 : Int) ∧ (1 : Int) < 128)
    ∧ atomizeDefault [.harr [.prim (.pnum (.i32 1)), .prim (.pnum (.i32 1))]]
        100 (.ref 0) = .ok [.cint 33, .cint 0, .cint 1, .cint (-2)] := by
  refine ⟨?_, by omega, ?_⟩ <;>
  simp [atomizeDefault, atomize, atomizeValue, runCmds, write, plan, encodeArray, encodeObject, encodeMap, encodeSet, customEncoder, encodeNumber, refsGet, refsSet, refsErase, jsNot, toInt32, toUint32, jsOr, jsShl, jsShr, jsShrU, jsAnd, landN, lorN, cellToInt, keyOf, initSt, cellOfNum, JSNumber.isInt, JSNumber.isNaN, defaultCfg, AtomType.AsIs, AtomType.Array, AtomType.Object, AtomType.Map, AtomType.Set, AtomType.Custom,
    rebuild, nextValue, nextValueF, pushWrap, rebuildValue, rebuildUntilF, readValuesF, cellReadNext, dvalOfCell, jsPropKey, objSet, mapSet, setAdd,
    serialize, serializeNext, serChildrenF, serValuesF, serScalar, serInt, serPopJump, pushByte, serializePosInt, posIntBytes, f64Bytes, utf8Bytes, utf8Char, STComplexAtom, STBackReference, STInt, STString, STVoid, STNull, STTrue, STFalse, STNaN, STFloat64,
    deserialize, byteReadNext, readVarInt, readVarIntAux, utf8Decode, utf8DecodeAux, cyclicArrayHeap, cyclicArrayCells, Except.map]

/-- C5 (amended): the default number builder returns cacheable for every
number except `NaN` — in particular for every int32, small or not (there is
no `[-128, 128)` carve-out) — so a small integer occurring twice is emitted
once in full and once as a back-reference; the decode still reconstructs the
same array. -/
theorem claim_C5_amended :
    (∀ n : JSNumber, (encodeNumber n).2 = !n.isNaN)
    ∧ atomizeDefault [.harr [.prim (.pnum (.i32 1)), .prim (.pnum (.i32 1))]]
        100 (.ref 0) = .ok [.cint 33, .cint 0, .cint 1, .cint (-2)]
    ∧ (rebuild 100 [.cint 33, .cint 0, .cint 1, .cint (-2)]).map
        (fun p => (p.1, p.2.defs)) =
      .ok (.dref 0,
           [(0, .darr [.prim (.pnum (.i32 1)), .prim (.pnum (.i32 1))])]) :=
  ⟨fun n => by cases n <;> rfl, by simp [atomizeDefault, atomize, atomizeValue, runCmds, write, plan, encodeArray, encodeObject, encodeMap, encodeSet, customEncoder, encodeNumber, refsGet, refsSet, refsErase, jsNot, toInt32, toUint32, jsOr, jsShl, jsShr, jsShrU, jsAnd, landN, lorN, cellToInt, keyOf, initSt, cellOfNum, JSNumber.isInt, JSNumber.isNaN, defaultCfg, AtomType.AsIs, AtomType.Array, AtomType.Object, AtomType.Map, AtomType.Set, AtomType.Custom,
    rebuild, nextValue, nextValueF, pushWrap, rebuildValue, rebuildUntilF, readValuesF, cellReadNext, dvalOfCell, jsPropKey, objSet, mapSet, setAdd,
    serialize, serializeNext, serChildrenF, serValuesF, serScalar, serInt, serPopJump, pushByte, serializePosInt, posIntBytes, f64Bytes, utf8Bytes, utf8Char, STComplexAtom, STBackReference, STInt, STString, STVoid, STNull, STTrue, STFalse, STNaN, STFloat64,
    deserialize, byteReadNext, readVarInt, readVarIntAux, utf8Decode, utf8DecodeAux, cyclicArrayHeap, cyclicArrayCells, Except.map],
   by simp [atomizeDefault, atomize, atomizeValue, runCmds, write, plan, encodeArray, encodeObject, encodeMap, encodeSet, customEncoder, encodeNumber, refsGet, refsSet, refsErase, jsNot, toInt32, toUint32, jsOr, jsShl, jsShr, jsShrU, jsAnd, landN, lorN, cellToInt, keyOf, initSt, cellOfNum, JSNumber.isInt, JSNumber.isNaN, defaultCfg, AtomType.AsIs, AtomType.Array, AtomType.Object, AtomType.Map, AtomType.Set, AtomType.Custom,
    rebuild, nextValue, nextValueF, pushWrap, rebuildValue, rebuildUntilF, readValuesF, cellReadNext, dvalOfCell, jsPropKey, objSet, mapSet, setAdd,
    serialize, serializeNext, serChildrenF, serValuesF, serScalar, serInt, serPopJump, pushByte, serializePosInt, posIntBytes, f64Bytes, utf8Bytes, utf8Char, STComplexAtom, STBackReference, STInt, STString, STVoid, STNull, STTrue, STFalse, STNaN, STFloat64,
    deserialize, byteReadNext, readVarInt, readVarIntAux, utf8Decode, utf8DecodeAux, cyclicArrayHeap, cyclicArrayCells, Except.map]⟩

/-- C7 counterexample: the infinite-loop error is *not* raised exactly on
currently-open ancestors: in an acyclic graph where a cacheable custom value
(which emitted one child, without `AllowSelfReference`) occurs twice as
sibling elements of a set, the second occurrence happens after the value's
frame has closed — it is no ancestor of anything — yet the encode aborts with
the infinite-loop error; the same graph with a single occurrence encodes
fine. -/
theorem claim_C7_counterexample :
    atomize { allowSelf := false, cacheable := true }
        [.hset [.ref 1, .ref 1], .hcustom [.prim .pnull]] 100 (.ref 0) =
      .error .infiniteLoop
    ∧ atomize { allowSelf := false, cacheable := true }
        [.hset [.ref 1], .hcustom [.prim .pnull]] 100 (.ref 0) =
      .ok [.cint 28, .cint 29, .cnull] := by
  refine ⟨?_, ?_⟩ <;>
  simp [atomizeDefault, atomize, atomizeValue, runCmds, write, plan, encodeArray, encodeObject, encodeMap, encodeSet, customEncoder, encodeNumber, refsGet, refsSet, refsErase, jsNot, toInt32, toUint32, jsOr, jsShl, jsShr, jsShrU, jsAnd, landN, lorN, cellToInt, keyOf, initSt, cellOfNum, JSNumber.isInt, JSNumber.isNaN, defaultCfg, AtomType.AsIs, AtomType.Array, AtomType.Object, AtomType.Map, AtomType.Set, AtomType.Custom,
    rebuild, nextValue, nextValueF, pushWrap, rebuildValue, rebuildUntilF, readValuesF, cellReadNext, dvalOfCell, jsPropKey, objSet, mapSet, setAdd,
    serialize, serializeNext, serChildrenF, serValuesF, serScalar, serInt, serPopJump, pushByte, serializePosInt, posIntBytes, f64Bytes, utf8Bytes, utf8Char, STComplexAtom, STBackReference, STInt, STString, STVoid, STNull, STTrue, STFalse, STNaN, STFloat64,
    deserialize, byteReadNext, readVarInt, readVarIntAux, utf8Decode, utf8DecodeAux, cyclicArrayHeap, cyclicArrayCells, Except.map]

/-- C7 (amended): the encode aborts with the infinite-loop error exactly when
a child write reaches a value whose reference-table entry is the sentinel
`0`.  Such a value is either a currently-open composite that wrote a child
before `AllowSelfReference` (a genuine unencodable cycle, e.g. a custom value
containing itself), or an already-closed cacheable composite that wrote
children without `AllowSelfReference` (whose sentinel is never replaced).  If
the builder called `AllowSelfReference` first, the occurrence is emitted as a
back-reference and no error is raised. -/
theorem claim_C7_amended :
    atomize { allowSelf := false, cacheable := true } [.hcustom [.ref 0]] 100
        (.ref 0) = .error .infiniteLoop
    ∧ atomize { allowSelf := false, cacheable := true }
        [.hset [.ref 1, .ref 1], .hcustom [.prim .pnull]] 100 (.ref 0) =
      .error .infiniteLoop
    ∧ atomize { allowSelf := true, cacheable := true } [.hcustom [.ref 0]] 100
        (.ref 0) = .ok [.cint 21, .cint (-1)]
    ∧ atomizeDefault cyclicArrayHeap 100 (.ref 0) = .ok cyclicArrayCells := by
  refine ⟨?_, ?_, ?_, ?_⟩ <;>
  simp [atomizeDefault, atomize, atomizeValue, runCmds, write, plan, encodeArray, encodeObject, encodeMap, encodeSet, customEncoder, encodeNumber, refsGet, refsSet, refsErase, jsNot, toInt32, toUint32, jsOr, jsShl, jsShr, jsShrU, jsAnd, landN, lorN, cellToInt, keyOf, initSt, cellOfNum, JSNumber.isInt, JSNumber.isNaN, defaultCfg, AtomType.AsIs, AtomType.Array, AtomType.Object, AtomType.Map, AtomType.Set, AtomType.Custom,
    rebuild, nextValue, nextValueF, pushWrap, rebuildValue, rebuildUntilF, readValuesF, cellReadNext, dvalOfCell, jsPropKey, objSet, mapSet, setAdd,
    serialize, serializeNext, serChildrenF, serValuesF, serScalar, serInt, serPopJump, pushByte, serializePosInt, posIntBytes, f64Bytes, utf8Bytes, utf8Char, STComplexAtom, STBackReference, STInt, STString, STVoid, STNull, STTrue, STFalse, STNaN, STFloat64,
    deserialize, byteReadNext, readVarInt, readVarIntAux, utf8Decode, utf8DecodeAux, cyclicArrayHeap, cyclicArrayCells, Except.map]

/-- C8 counterexample: the deserializer does *not* abort on trailing bytes:
on the two-byte input `[32, 32]` (a Null sentinel followed by a trailing
byte) it returns the value `null` with the cursor stopped at `1`, because the
excess-content check in the source is commented out. -/
theorem claim_C8_counterexample :
    (deserialize 100 [32, 32]).map (fun p => (p.1, p.2.rd.nextIndex)) =
      .ok (.prim .pnull, 1) := by
  simp [atomizeDefault, atomize, atomizeValue, runCmds, write, plan, encodeArray, encodeObject, encodeMap, encodeSet, customEncoder, encodeNumber, refsGet, refsSet, refsErase, jsNot, toInt32, toUint32, jsOr, jsShl, jsShr, jsShrU, jsAnd, landN, lorN, cellToInt, keyOf, initSt, cellOfNum, JSNumber.isInt, JSNumber.isNaN, defaultCfg, AtomType.AsIs, AtomType.Array, AtomType.Object, AtomType.Map, AtomType.Set, AtomType.Custom,
    rebuild, nextValue, nextValueF, pushWrap, rebuildValue, rebuildUntilF, readValuesF, cellReadNext, dvalOfCell, jsPropKey, objSet, mapSet, setAdd,
    serialize, serializeNext, serChildrenF, serValuesF, serScalar, serInt, serPopJump, pushByte, serializePosInt, posIntBytes, f64Bytes, utf8Bytes, utf8Char, STComplexAtom, STBackReference, STInt, STString, STVoid, STNull, STTrue, STFalse, STNaN, STFloat64,
    deserialize, byteReadNext, readVarInt, readVarIntAux, utf8Decode, utf8DecodeAux, cyclicArrayHeap, cyclicArrayCells, Except.map]

/-- C8 (amended): only the rebuilder aborts when input remains after the
top-level value: on an atom stream with trailing cells it fails with the
excess-content error (for any trailing cell), while the deserializer ignores
trailing bytes and returns the reconstructed value. -/
theorem claim_C8_amended :
    (∀ extra : Cell, rebuild 100 [.cnull, extra] = .error .excessContent)
    ∧ (deserialize 100 [32, 32]).map (fun p => (p.1, p.2.rd.nextIndex)) =
      .ok (.prim .pnull, 1) :=
  ⟨fun extra => by cases extra <;>
      simp [atomizeDefault, atomize, atomizeValue, runCmds, write, plan, encodeArray, encodeObject, encodeMap, encodeSet, customEncoder, encodeNumber, refsGet, refsSet, refsErase, jsNot, toInt32, toUint32, jsOr, jsShl, jsShr, jsShrU, jsAnd, landN, lorN, cellToInt, keyOf, initSt, cellOfNum, JSNumber.isInt, JSNumber.isNaN, defaultCfg, AtomType.AsIs, AtomType.Array, AtomType.Object, AtomType.Map, AtomType.Set, AtomType.Custom,
    rebuild, nextValue, nextValueF, pushWrap, rebuildValue, rebuildUntilF, readValuesF, cellReadNext, dvalOfCell, jsPropKey, objSet, mapSet, setAdd,
    serialize, serializeNext, serChildrenF, serValuesF, serScalar, serInt, serPopJump, pushByte, serializePosInt, posIntBytes, f64Bytes, utf8Bytes, utf8Char, STComplexAtom, STBackReference, STInt, STString, STVoid, STNull, STTrue, STFalse, STNaN, STFloat64,
    deserialize, byteReadNext, readVarInt, readVarIntAux, utf8Decode, utf8DecodeAux, cyclicArrayHeap, cyclicArrayCells, Except.map],
   by simp [atomizeDefault, atomize, atomizeValue, runCmds, write, plan, encodeArray, encodeObject, encodeMap, encodeSet, customEncoder, encodeNumber, refsGet, refsSet, refsErase, jsNot, toInt32, toUint32, jsOr, jsShl, jsShr, jsShrU, jsAnd, landN, lorN, cellToInt, keyOf, initSt, cellOfNum, JSNumber.isInt, JSNumber.isNaN, defaultCfg, AtomType.AsIs, AtomType.Array, AtomType.Object, AtomType.Map, AtomType.Set, AtomType.Custom,
    rebuild, nextValue, nextValueF, pushWrap, rebuildValue, rebuildUntilF, readValuesF, cellReadNext, dvalOfCell, jsPropKey, objSet, mapSet, setAdd,
    serialize, serializeNext, serChildrenF, serValuesF, serScalar, serInt, serPopJump, pushByte, serializePosInt, posIntBytes, f64Bytes, utf8Bytes, utf8Char, STComplexAtom, STBackReference, STInt, STString, STVoid, STNull, STTrue, STFalse, STNaN, STFloat64,
    deserialize, byteReadNext, readVarInt, readVarIntAux, utf8Decode, utf8DecodeAux, cyclicArrayHeap, cyclicArrayCells, Except.map]⟩

set_option maxHeartbeats 2000000

/-- The full default pipeline on a heap-free scalar: atomize, serialize,
deserialize, and project the decoded value. -/
def roundScalar (p : Prim) : Except JsError DVal :=
  match atomizeDefault [] 100 (.prim p) with
  | .error e => .error e
  | .ok cells =>
    match serialize 100 cells with
    | .error e => .error e
    | .ok bytes => (deserialize 100 bytes).map Prod.fst

/-- C9: each of the integers `2^30 - 1`, `-(2^30 - 1)`, `2^30`, `-2^30`, `0`,
`-1` survives the byte pipeline (the sign-twiddled varint with the `Int` tag
loses nothing to 32-bit shift overflow at the two `2^30` cases), and the
output for `-1` is the single byte `28`, whose low 3 bits are the `Int` tag
and whose twiddle sign bit (bit 3) is set. -/
theorem claim_C9_int_roundtrip :
    roundScalar (.pnum (.i32 1073741823)) = .ok (.prim (.pnum (.i32 1073741823)))
    ∧ roundScalar (.pnum (.i32 (-1073741823))) =
        .ok (.prim (.pnum (.i32 (-1073741823))))
    ∧ roundScalar (.pnum (.i32 1073741824)) =
        .ok (.prim (.pnum (.i32 1073741824)))
    ∧ roundScalar (.pnum (.i32 (-1073741824))) =
        .ok (.prim (.pnum (.i32 (-1073741824))))
    ∧ roundScalar (.pnum (.i32 0)) = .ok (.prim (.pnum (.i32 0)))
    ∧ roundScalar (.pnum (.i32 (-1))) = .ok (.prim (.pnum (.i32 (-1))))
    ∧ (match atomizeDefault [] 100 (.prim (.pnum (.i32 (-1)))) with
       | .ok cells => serialize 100 cells
       | .error e => .error e) = .ok [28]
    ∧ jsAnd 28 7 = STInt ∧ jsAnd 28 8 ≠ 0 := by
  refine ⟨?_, ?_, ?_, ?_, ?_, ?_, ?_, ?_, ?_⟩ <;>
  simp [roundScalar, atomizeDefault, atomize, atomizeValue, runCmds, write, plan, encodeArray, encodeObject, encodeMap, encodeSet, customEncoder, encodeNumber, refsGet, refsSet, refsErase, jsNot, toInt32, toUint32, jsOr, jsShl, jsShr, jsShrU, jsAnd, landN, lorN, cellToInt, keyOf, initSt, cellOfNum, JSNumber.isInt, JSNumber.isNaN, defaultCfg, AtomType.AsIs, AtomType.Array, AtomType.Object, AtomType.Map, AtomType.Set, AtomType.Custom,
    rebuild, nextValue, nextValueF, pushWrap, rebuildValue, rebuildUntilF, readValuesF, cellReadNext, dvalOfCell, jsPropKey, objSet, mapSet, setAdd,
    serialize, serializeNext, serChildrenF, serValuesF, serScalar, serInt, serPopJump, pushByte, serializePosInt, posIntBytes, f64Bytes, utf8Bytes, utf8Char, STComplexAtom, STBackReference, STInt, STString, STVoid, STNull, STTrue, STFalse, STNaN, STFloat64,
    deserialize, byteReadNext, readVarInt, readVarIntAux, utf8Decode, utf8DecodeAux, cyclicArrayHeap, cyclicArrayCells, Except.map]

/-! ### Round-trip claims -/

/-- The final encoder state of the cyclic array `x = [1]; x.push(x)`. -/
def cyclicArraySt : AtSt :=
  { output := [.cint 33, .cint 0, .cint 1, .cint (-1)],
    refs := [(.kref 0, -1), (.knum (.i32 1), -2)],
    jumps := [], atomIndex := 2, activeIndex := 0, activeVal := .kRAW }

/-- A heap with shared substructure: node 0 is an array holding node 1
twice. -/
def sharedArrayHeap : Heap := [.harr [.ref 1, .ref 1], .harr []]

/-- The final encoder state of the shared-substructure array. -/
def sharedArraySt : AtSt :=
  { output := [.cint 25, .cint 17, .cint (-2)],
    refs := [(.kref 0, -1), (.kref 1, -2)],
    jumps := [], atomIndex := 2, activeIndex := 0, activeVal := .kRAW }

/-- A map heap with insertion order `"a", "b", "c"`. -/
def orderedMapHeap : Heap :=
  [.hmap [(.prim (.pstr "a"), .prim (.pnum (.i32 1))),
          (.prim (.pstr "b"), .prim (.pnum (.i32 2))),
          (.prim (.pstr "c"), .prim (.pnum (.i32 3)))]]

/-- The atom stream of the ordered map: header (until 4, kind Map), three
key cells, then three inline-int value pairs. -/
def orderedMapCells : List Cell :=
  [.cint 35, .cstr "a", .cstr "b", .cstr "c",
   .cint 0, .cint 1, .cint 0, .cint 2, .cint 0, .cint 3]

/-- C1 counterexample: the supported scalar `-2147483648` (the smallest
int32; `num === (num | 0)` holds, so the default number builder emits it
`AS_IS`) does not survive the byte pipeline: serialization sign-twiddles it
with `(-val) << 1`, and `-val = 2^31` overflows the 32-bit shift to `0`, so
the single emitted byte decodes to `0`, not `-2147483648`. -/
theorem claim_C1_counterexample :
    atomizeDefault [] 100 (.prim (.pnum (.i32 (-2147483648)))) =
      .ok [.cint 0, .cint (-2147483648)]
    ∧ serialize 100 [.cint 0, .cint (-2147483648)] = .ok [12]
    ∧ (deserialize 100 [12]).map Prod.fst = .ok (.prim (.pnum (.i32 0)))
    ∧ (DVal.prim (.pnum (.i32 0)) ≠ .prim (.pnum (.i32 (-2147483648)))) := by
  refine ⟨?_, ?_, ?_, by decide⟩ <;>
  simp [atomizeDefault, atomize, atomizeValue, runCmds, write, plan, encodeArray, encodeObject, encodeMap, encodeSet, customEncoder, encodeNumber, refsGet, refsSet, refsErase, jsNot, toInt32, toUint32, jsOr, jsShl, jsShr, jsShrU, jsAnd, landN, lorN, cellToInt, keyOf, initSt, cellOfNum, JSNumber.isInt, JSNumber.isNaN, defaultCfg, AtomType.AsIs, AtomType.Array, AtomType.Object, AtomType.Map, AtomType.Set, AtomType.Custom,
    rebuild, nextValue, nextValueF, pushWrap, rebuildValue, rebuildUntilF, readValuesF, cellReadNext, dvalOfCell, jsPropKey, objSet, mapSet, setAdd,
    serialize, serializeNext, serChildrenF, serValuesF, serScalar, serInt, serPopJump, pushByte, serializePosInt, posIntBytes, f64Bytes, utf8Bytes, utf8Char, STComplexAtom, STBackReference, STInt, STString, STVoid, STNull, STTrue, STFalse, STNaN, STFloat64,
    deserialize, byteReadNext, readVarInt, readVarIntAux, utf8Decode, utf8DecodeAux, Except.map]

/-- C1 (what does hold, at the atom level): for every supported value, a
successful atomization rebuilds — at any large enough fuel — to a decoded
value correlated to the input by `valTrans`: structurally equal on
primitives, and on nodes mapped through an injective node-id correspondence
(two decoded nodes are the same id exactly when the input nodes are the
same id), with every registered input node decoded to a structure-matching
node. -/
theorem claim_C1_amended {H : Heap} {fuel : Nat} {v : JSVal} {e' : AtSt}
    (hrun : atomizeValue defaultCfg H fuel v initSt = .ok e')
    (hWF : WFHeap H) (hB : e'.output.length ≤ 67108864) :
    ∃ (dv : DVal) (Γ : List DVal) (Δd : List (Nat × DNode)) (m' g0 : Nat),
      (∀ g, g0 ≤ g → rebuild g e'.output =
        .ok (dv, ⟨⟨e'.output, e'.output.length⟩, Γ, Δd, m'⟩)) ∧
      valTrans e'.refs Γ v dv ∧
      (∀ nid rv, (.kref nid, rv) ∈ e'.refs →
        ∃ j node, Γ[derefIdx rv]? = some (.dref j) ∧ (j, node) ∈ Δd ∧
          nodeTrans e'.refs Γ (H.getD nid (.harr [])) node) ∧
      (∀ id1 id2 j, regId e'.refs Γ id1 = some j →
        regId e'.refs Γ id2 = some j → id1 = id2) := by
  obtain ⟨dv, Γ, Δd, m', hlock, htr, hInv, g0, hrb⟩ :=
    atomize_rebuild hrun hWF hB
  exact ⟨dv, Γ, Δd, m', g0, hrb, htr,
    fun nid rv hm => Inv_closed_node hInv hm, hInv.inj⟩

theorem claim_C1_amended_witness :
    ∃ (dv : DVal) (Γ : List DVal) (Δd : List (Nat × DNode)) (m' g0 : Nat),
      (∀ g, g0 ≤ g → rebuild g sharedArraySt.output =
        .ok (dv, ⟨⟨sharedArraySt.output, sharedArraySt.output.length⟩,
          Γ, Δd, m'⟩)) ∧
      valTrans sharedArraySt.refs Γ (.ref 0) dv ∧
      (∀ nid rv, (.kref nid, rv) ∈ sharedArraySt.refs →
        ∃ j node, Γ[derefIdx rv]? = some (.dref j) ∧ (j, node) ∈ Δd ∧
          nodeTrans sharedArraySt.refs Γ
            (sharedArrayHeap.getD nid (.harr [])) node) ∧
      (∀ id1 id2 j, regId sharedArraySt.refs Γ id1 = some j →
        regId sharedArraySt.refs Γ id2 = some j → id1 = id2) :=
  claim_C1_amended
    (show atomizeValue defaultCfg sharedArrayHeap 100 (.ref 0) initSt =
        .ok sharedArraySt by
      simp [atomizeDefault, atomize, atomizeValue, runCmds, write, plan, encodeArray, encodeObject, encodeMap, encodeSet, customEncoder, encodeNumber, refsGet, refsSet, refsErase, jsNot, toInt32, toUint32, jsOr, jsShl, jsShr, jsShrU, jsAnd, landN, lorN, cellToInt, keyOf, initSt, cellOfNum, JSNumber.isInt, JSNumber.isNaN, defaultCfg, AtomType.AsIs, AtomType.Array, AtomType.Object, AtomType.Map, AtomType.Set, AtomType.Custom, sharedArrayHeap, sharedArraySt])
    (by
      constructor
      · intro n hn
        simp only [sharedArrayHeap, List.mem_cons, List.mem_singleton] at hn
        rcases hn with h | h | h
        · subst h; trivial
        · subst h; trivial
        · exact absurd h (by simp)
      · intro n hn
        simp only [sharedArrayHeap, List.mem_cons, List.mem_singleton] at hn
        rcases hn with h | h | h
        · subst h; trivial
        · subst h; trivial
        · exact absurd h (by simp))
    (by simp [sharedArraySt])

theorem claim_C10_lockstep_backrefs_witness :
    (∀ (σ : Type) (r : ReadFn σ) (g : Nat) (b : Int) (st : RbSt σ), b < 0 →
      rebuildValue r (g + 1) (.cint b) st =
        .ok (some (st.cache.getD (jsNot b).toNat (.prim .undef)), st)) ∧
    ∃ (dv : DVal) (Γ : List DVal) (Δd : List (Nat × DNode)) (m' : Nat),
      ((Γ.length : Int) = cyclicArraySt.atomIndex + 1) ∧
      (∃ g0, ∀ g, g0 ≤ g → rebuild g cyclicArraySt.output =
        .ok (dv, ⟨⟨cyclicArraySt.output, cyclicArraySt.output.length⟩,
          Γ, Δd, m'⟩)) ∧
      (∀ k rv, (k, rv) ∈ cyclicArraySt.refs → keyCorr Γ m' k rv) ∧
      (∀ nid rv, (.kref nid, rv) ∈ cyclicArraySt.refs →
        ∃ j node, Γ[derefIdx rv]? = some (.dref j) ∧ (j, node) ∈ Δd ∧
          nodeTrans cyclicArraySt.refs Γ
            (cyclicArrayHeap.getD nid (.harr [])) node) :=
  claim_C10_lockstep_backrefs
    (show atomizeValue defaultCfg cyclicArrayHeap 100 (.ref 0) initSt =
        .ok cyclicArraySt by
      simp [atomizeDefault, atomize, atomizeValue, runCmds, write, plan, encodeArray, encodeObject, encodeMap, encodeSet, customEncoder, encodeNumber, refsGet, refsSet, refsErase, jsNot, toInt32, toUint32, jsOr, jsShl, jsShr, jsShrU, jsAnd, landN, lorN, cellToInt, keyOf, initSt, cellOfNum, JSNumber.isInt, JSNumber.isNaN, defaultCfg, AtomType.AsIs, AtomType.Array, AtomType.Object, AtomType.Map, AtomType.Set, AtomType.Custom, cyclicArrayHeap, cyclicArraySt])
    (by
      constructor
      · intro n hn
        simp only [cyclicArrayHeap, List.mem_singleton] at hn
        subst hn; trivial
      · intro n hn
        simp only [cyclicArrayHeap, List.mem_singleton] at hn
        subst hn; trivial)
    (by simp [cyclicArraySt])

theorem claim_C6_stream_and_order_witness :
    (∀ fields, orderedMapHeap.getD 0 (.harr []) = .hobj fields →
      ∃ (Δsk Δsv : List (List Cell)),
        Δsk.length = fields.length ∧ Δsv.length = fields.length ∧
        (∀ d ∈ Δsk, d ≠ []) ∧ (∀ d ∈ Δsv, d ≠ []) ∧
        orderedMapCells = .cint (8 * ((1 + Δsk.flatten.length : Nat) : Int) +
          AtomType.Object) :: (Δsk.flatten ++ Δsv.flatten))
    ∧ (∀ entries, orderedMapHeap.getD 0 (.harr []) = .hmap entries →
      (∃ (Δsk Δsv : List (List Cell)),
        Δsk.length = entries.length ∧ Δsv.length = entries.length ∧
        (∀ d ∈ Δsk, d ≠ []) ∧ (∀ d ∈ Δsv, d ≠ []) ∧
        orderedMapCells = .cint (8 * ((1 + Δsk.flatten.length : Nat) : Int) +
          AtomType.Map) :: (Δsk.flatten ++ Δsv.flatten)) ∧
      ∃ (g0 : Nat) (Γ : List DVal) (Δd : List (Nat × DNode)) (m' j : Nat)
        (qs : List (DVal × DVal)) (refs2 : List (RKey × Int)),
        (∀ g, g0 ≤ g → rebuild g orderedMapCells =
          .ok (.dref j, ⟨⟨orderedMapCells, orderedMapCells.length⟩,
            Γ, Δd, m'⟩)) ∧
        (j, .dmap qs) ∈ Δd ∧
        List.Forall₂ (fun p q => valTrans refs2 Γ p.1 q.1 ∧
          valTrans refs2 Γ p.2 q.2) entries qs) :=
  claim_C6_stream_and_order
    (show atomizeDefault orderedMapHeap 100 (.ref 0) = .ok orderedMapCells by
      simp [atomizeDefault, atomize, atomizeValue, runCmds, write, plan, encodeArray, encodeObject, encodeMap, encodeSet, customEncoder, encodeNumber, refsGet, refsSet, refsErase, jsNot, toInt32, toUint32, jsOr, jsShl, jsShr, jsShrU, jsAnd, landN, lorN, cellToInt, keyOf, initSt, cellOfNum, JSNumber.isInt, JSNumber.isNaN, defaultCfg, AtomType.AsIs, AtomType.Array, AtomType.Object, AtomType.Map, AtomType.Set, AtomType.Custom, orderedMapHeap, orderedMapCells])
    (by
      constructor
      · intro n hn
        simp only [orderedMapHeap, List.mem_singleton] at hn
        subst hn; trivial
      · intro n hn
        simp only [orderedMapHeap, List.mem_singleton] at hn
        subst hn
        simp [keyOf]
    )
    (by simp [orderedMapCells])
end Atomize
